import Mathlib

/-!
# The Mind: a shallow embedding of `src/mind.c`

The embedding follows `mind.c` function by function.

* A `stack_t` is its heap buffer `cards` (a list of `allocd` cells), the offset `top` of the
  C pointer `top` from `cards`, and `allocd`.  Pointers into a buffer are offsets.  Cells outside
  a buffer are outside the model: a write past the end of a buffer is dropped and a read past the
  end yields no cell.
* `size_t` is 64 bits wide, `uint32_t`, `uint16_t` and `uint8_t` arithmetic is reduced modulo
  its width where the C code can overflow.
* `_threads_api_Panik` (from `threads_api.h`) ends the run: a stack operation that reaches it
  returns `Except.error` carrying the fault and the state at the moment of the panic.
* `memcpy_s` follows C11 K.3.7.1.1: when the count exceeds the destination size it zero-fills the
  destination and reports an error code, which every caller in `mind.c` discards.
* `rand()` is an oracle: a list of future outcomes (zero once the list is used up), threaded
  through every function that draws; `RAND_MAX` is 32767.  Theorems quantify over all oracles.
* `float` values are rationals and float arithmetic is exact; a conversion to `uint32_t`
  truncates.
* The threads are interleaved at the granularity of one `playTurn` call, one `player->count++`
  of the play loop of `playGame`, and one `gameLevelNext` call of the leader.
* Output (`printf`, `gameLog`), `SLEEP`, mutexes and barriers do not change the game state and
  are left out.
-/

namespace Mind

/-! ## Constants of `mind.h` -/

def MIND_DECK_SIZE : Nat := 100
def MIND_N_PLAYERS : Nat := 3
def MIND_MAX_LEVEL : Nat := 12
def MIND_MIN_SKILL : ℚ := 66 / 100
def MIND_MAX_SKILL : ℚ := 90 / 100
def MIND_AVERAGE_BEAT : Nat := 100
def MIND_MAX_BEAT : Nat := MIND_AVERAGE_BEAT * 3
def MIND_MIN_BEAT : Nat := MIND_AVERAGE_BEAT / 3

/-- Number of values of a `size_t` (64 bits). -/
def SIZE_MOD : Nat := 18446744073709551616
/-- Number of values of a `uint32_t`. -/
def UINT32_MOD : Nat := 4294967296
/-- Number of values of a `uint16_t`. -/
def UINT16_MOD : Nat := 65536
/-- Number of values of a `uint8_t`. -/
def UINT8_MOD : Nat := 256
/-- The largest value of `rand()`. -/
def RAND_MAX : Nat := 32767

/-- Subtraction of two `size_t` values, `a - b`, wrapping around below zero. -/
def size_sub (a b : Nat) : Nat := (a % SIZE_MOD + SIZE_MOD - b % SIZE_MOD) % SIZE_MOD

/-- Subtraction of two `uint32_t` values, wrapping around below zero. -/
def u32_sub (a b : Nat) : Nat := (a % UINT32_MOD + UINT32_MOD - b % UINT32_MOD) % UINT32_MOD

/-! ## Faults -/

/-- The ways a run can end early: the two panic messages of the stack, undefined behaviour of C
(a peek below the buffer, a modulus of zero), and a loop that never ends. -/
inductive Fault where
  | notEnoughMemory
  | notEnoughItems
  | undefinedBehaviour
  | divergence
  deriving DecidableEq, Repr

deriving instance DecidableEq for Except

/-! ## Memory -/

/-- The `n` cells of `buf` starting at offset `off`. -/
def readN (buf : List Nat) (off n : Nat) : List Nat := (buf.drop off).take n

/-- Store `vals` into `buf` from offset `off` on; the buffer keeps its length. -/
def writeN (buf : List Nat) (off : Nat) (vals : List Nat) : List Nat :=
  (buf.take off ++ vals ++ buf.drop (off + vals.length)).take buf.length

/-- The C11 `memcpy_s(dest + doff, destsz, src + soff, count)`: copies `count` cells, or, when
`count` exceeds `destsz`, zero-fills `destsz` cells of the destination. -/
def memcpy_s (dest : List Nat) (doff destsz : Nat) (src : List Nat) (soff count : Nat) :
    List Nat :=
  if count > destsz then writeN dest doff (List.replicate destsz 0)
  else writeN dest doff (readN src soff count)

/-! ## Stack implementation -/

structure stack_t where
  cards : List Nat
  top : Nat
  allocd : Nat
  deriving DecidableEq, Repr

/-- The C `stackCreate`: a buffer of `sz` cells, `top = cards`. -/
def stackCreate (sz : Nat) : stack_t :=
  { cards := List.replicate sz 0, top := 0, allocd := sz }

/-- The C `stackGetSize`: `(uint32_t)(stack->top - stack->cards)`. -/
def stackGetSize (stack : stack_t) : Nat := stack.top % UINT32_MOD

/-- The cards a stack holds, bottom first: the cells below `top`. -/
def stack_t.contents (stack : stack_t) : List Nat := stack.cards.take stack.top

/-- A stack as the stack functions keep it: the buffer has `allocd` cells, `top` lies inside
it, and the capacity fits the `uint32_t` that `stackGetSize` returns. -/
def stack_t.wf (stack : stack_t) : Prop :=
  stack.cards.length = stack.allocd ∧ stack.top ≤ stack.allocd ∧ stack.allocd < UINT32_MOD

instance (stack : stack_t) : Decidable stack.wf := by
  unfold stack_t.wf
  exact inferInstance

/-- The C `stackPushN`. -/
def stackPushN (stack : stack_t) (values : List Nat) (n : Nat) :
    Except (Fault × stack_t) stack_t :=
  let sz := stackGetSize stack
  if sz > size_sub stack.allocd n then
    .error (Fault.notEnoughMemory, stack)
  else
    .ok { stack with
          cards := memcpy_s stack.cards stack.top (size_sub stack.allocd sz) values 0 n
          top := stack.top + n }

/-- The C `stackPopN`; `res` is the buffer the result pointer points into, at offset `roff`. -/
def stackPopN (stack : stack_t) (res : List Nat) (roff n : Nat) :
    Except (Fault × stack_t × List Nat) (stack_t × List Nat) :=
  let sz := stackGetSize stack
  if sz < n then
    .error (Fault.notEnoughItems, stack, res)
  else
    .ok ({ stack with top := stack.top - n },
         memcpy_s res roff sz stack.cards (stack.top - n) n)

/-- The C `stackMoveN`; the result is the pair `(dst, src)`. -/
def stackMoveN (dst src : stack_t) (n : Nat) :
    Except (Fault × stack_t × stack_t) (stack_t × stack_t) :=
  if stackGetSize dst > size_sub dst.allocd n then
    .error (Fault.notEnoughMemory, dst, src)
  else
    match stackPopN src dst.cards dst.top n with
    | .error (f, src1, cards1) => .error (f, { dst with cards := cards1 }, src1)
    | .ok (src1, cards1) => .ok ({ dst with cards := cards1, top := dst.top + n }, src1)

/-- The C `stackPush`. -/
def stackPush (stack : stack_t) (value : Nat) : Except (Fault × stack_t) stack_t :=
  stackPushN stack [value] 1

/-- The C `stackPop`: the local `res` is a one-cell buffer; returns the stack and `res`. -/
def stackPop (stack : stack_t) : Except (Fault × stack_t × List Nat) (stack_t × Nat) :=
  match stackPopN stack [0] 0 1 with
  | .error e => .error e
  | .ok (stack1, res) => .ok (stack1, res.headD 0)

/-- The C `stackMove`. -/
def stackMove (dst src : stack_t) : Except (Fault × stack_t × stack_t) (stack_t × stack_t) :=
  stackMoveN dst src 1

/-- The C `stackPeek`: `*(stack->top - 1)`; undefined when that cell is outside the buffer. -/
def stackPeek (stack : stack_t) : Except Fault Nat :=
  if stack.top = 0 then .error Fault.undefinedBehaviour
  else match stack.cards[stack.top - 1]? with
    | some c => .ok c
    | none => .error Fault.undefinedBehaviour

/-- Forget the state a stack operation had reached when it panicked. -/
def dropState {σ α : Type} : Except (Fault × σ) α → Except Fault α
  | .ok a => .ok a
  | .error e => .error e.1

/-! ## Utils: random numbers -/

/-- The outcomes of the future calls of `rand()`; zero once the list is used up. -/
abbrev Rng := List Nat

/-- The C `rand()`: a value in `0 .. RAND_MAX`, and the rest of the oracle. -/
def rand (r : Rng) : Nat × Rng := (r.headD 0 % (RAND_MAX + 1), r.tail)

/-- The conversion of a `float` to `uint32_t`: truncation. -/
def toUint32 (q : ℚ) : Nat := (Rat.floor q).toNat % UINT32_MOD

/-- The C `randf`: `((b - a) * ((float)rand() / (RAND_MAX + 1))) + a`. -/
def randf (a b : ℚ) (r : Rng) : ℚ × Rng :=
  let x := rand r
  ((b - a) * ((x.1 : ℚ) / ((RAND_MAX : ℚ) + 1)) + a, x.2)

/-- The C `randi`: `e = n * err; if (!e) return n; return rand() % (2 * e) + n - e`. -/
def randi (n : Nat) (err : ℚ) (r : Rng) : Except Fault (Nat × Rng) :=
  let e := toUint32 ((n : ℚ) * err)
  if e = 0 then .ok (n, r)
  else
    let m := (2 * e) % UINT32_MOD
    if m = 0 then .error Fault.undefinedBehaviour
    else
      let x := rand r
      .ok (u32_sub ((x.1 % m + n) % UINT32_MOD) e, x.2)

/-! ## Player and game state -/

/-- The array `timeout[mind_n_player_effects]`, one field per effect. -/
structure timeout_t where
  ADJUST : Nat
  BORED : Nat
  HESITATE : Nat
  CONFUSED : Nat
  deriving DecidableEq, Repr

structure player_t where
  hand : stack_t
  skill : ℚ
  focus : ℚ
  beat : Nat
  count : Nat
  timeout : timeout_t
  pile_card : Nat
  last_card_played : Nat
  threshold : Nat
  n : Nat
  deriving DecidableEq, Repr

structure level_t where
  n : Nat
  n_cards : Nat
  is_over : Bool
  status : Bool
  deriving DecidableEq, Repr

structure game_t where
  deck : stack_t
  pile : stack_t
  players : List player_t
  level : level_t
  n_players : Nat
  deriving DecidableEq, Repr

/-- The C `playerGetError`. -/
def playerGetError (player : player_t) : ℚ := (1 - player.skill) * (1 - player.focus)

/-- The C `playerFixFocus`. -/
def playerFixFocus (player : player_t) : player_t :=
  if player.focus > 99 / 100 then { player with focus := 9 / 10 }
  else if player.focus < 1 / 100 then { player with focus := 1 / 10 }
  else player

/-- The C `playerFixBeat`. -/
def playerFixBeat (player : player_t) : player_t :=
  if player.beat < MIND_MIN_BEAT then { player with beat := MIND_MIN_BEAT }
  else if player.beat > MIND_MAX_BEAT then { player with beat := MIND_MAX_BEAT }
  else player

/-- The C `playerAdjust`. -/
def playerAdjust (player : player_t) (req_card : Nat) (r : Rng) :
    Except Fault (player_t × Rng) :=
  if player.timeout.ADJUST ≠ 0 then
    .ok ({ player with timeout := { player.timeout with ADJUST := player.timeout.ADJUST - 1 } }, r)
  else
    let player1 := { player with timeout := { player.timeout with ADJUST := 2 } }
    let n_beats_passed : ℚ := (u32_sub player1.count player1.pile_card : Nat)
    let n_beats_should_have_passed : ℚ := ((req_card : Int) - (player1.pile_card : Int) : Int)
    let old_beat : ℚ := (player1.beat : Nat)
    let new_beat : ℚ := old_beat * n_beats_passed / n_beats_should_have_passed
    let avg_beat := toUint32 ((new_beat + old_beat) * (1 / 2))
    match randi avg_beat (playerGetError player1 * (1 / 2)) r with
    | .error f => .error f
    | .ok (b, r1) => .ok (playerFixBeat { player1 with beat := b }, r1)

/-- The C `playerBored`. -/
def playerBored (player : player_t) (r : Rng) : Except Fault (player_t × Rng) :=
  if player.timeout.BORED ≠ 0 then
    .ok ({ player with timeout := { player.timeout with BORED := player.timeout.BORED - 1 } }, r)
  else
    let player1 := { player with
      timeout := { player.timeout with BORED := player.threshold }
      focus := player.focus * (95 / 100) }
    let err := playerGetError player1 * (1 / 4)
    match randi (toUint32 ((player1.beat : ℚ) * (1 - err))) (err / (1 + err)) r with
    | .error f => .error f
    | .ok (b, r1) => .ok (playerFixFocus (playerFixBeat { player1 with beat := b }), r1)

/-- The C `playerHesitate`. -/
def playerHesitate (player : player_t) (r : Rng) : Except Fault (player_t × Rng) :=
  if player.timeout.HESITATE ≠ 0 then
    .ok ({ player with
           timeout := { player.timeout with HESITATE := player.timeout.HESITATE - 1 } }, r)
  else
    let player1 := { player with
      timeout := { player.timeout with HESITATE := player.threshold }
      focus := (player.focus + 1 / 100) * (105 / 100) }
    let err := playerGetError player1 * (1 / 4)
    match randi (toUint32 ((player1.beat : ℚ) * (1 + err))) (err / (1 + err)) r with
    | .error f => .error f
    | .ok (b, r1) => .ok (playerFixFocus (playerFixBeat { player1 with beat := b }), r1)

/-- The C `playerConfused`. -/
def playerConfused (player : player_t) (r : Rng) : Except Fault (player_t × Rng) :=
  if player.timeout.CONFUSED ≠ 0 then
    .ok ({ player with
           timeout := { player.timeout with CONFUSED := player.timeout.CONFUSED - 1 } }, r)
  else
    let player1 := { player with
      timeout := { player.timeout with CONFUSED := 3 }
      focus := player.focus * (9 / 10) }
    match randi player1.count (playerGetError player1 * (1 / 2)) r with
    | .error f => .error f
    | .ok (c, r1) => .ok (playerFixFocus { player1 with count := c }, r1)

/-- The C `playerTryPlay`, for the player at index `i` of `game->players`. -/
def playerTryPlay (game : game_t) (i : Nat) : Except Fault game_t :=
  match game.players[i]? with
  | none => .error Fault.undefinedBehaviour
  | some player =>
    match stackPeek player.hand with
    | .error f => .error f
    | .ok lowest_card =>
      if game.level.n_cards > 1 ∧
          (player.count < lowest_card ∨
           u32_sub ((lowest_card + game.level.n_cards) % UINT32_MOD) 1 > MIND_DECK_SIZE) then
        .ok game
      else
        match dropState (stackMove game.pile player.hand) with
        | .error f => .error f
        | .ok (pile1, hand1) =>
          let player1 := { player with
            hand := hand1
            last_card_played := lowest_card % UINT8_MOD
            count := lowest_card
            pile_card := lowest_card % UINT8_MOD }
          .ok { game with
                pile := pile1
                players := game.players.set i player1
                level := { game.level with
                           n_cards := (game.level.n_cards + UINT16_MOD - 1) % UINT16_MOD } }

/-- First loop of `gameAssignBlame`: the lowest top card among the non-empty hands, starting
from `(lowest, i_slow_player)`, over the players from index `i` on. -/
def blameSlow : List player_t → Nat → Nat × Nat → Except Fault (Nat × Nat)
  | [], _, acc => .ok acc
  | player :: rest, i, acc =>
    if stackGetSize player.hand = 0 then blameSlow rest (i + 1) acc
    else
      match stackPeek player.hand with
      | .error f => .error f
      | .ok card =>
        if card < acc.1 then blameSlow rest (i + 1) (card, i % UINT8_MOD)
        else blameSlow rest (i + 1) acc

/-- Second loop of `gameAssignBlame`: the lowest `last_card_played` above `lowest`, starting
from `(first, i_fast_player)`. -/
def blameFast (lowest : Nat) : List player_t → Nat → Nat × Nat → Nat × Nat
  | [], _, acc => acc
  | player :: rest, i, acc =>
    if player.last_card_played > lowest ∧ player.last_card_played < acc.1 then
      blameFast lowest rest (i + 1) (player.last_card_played, i % UINT8_MOD)
    else blameFast lowest rest (i + 1) acc

/-- Apply `playerAdjust` to `game->players[i]`. -/
def adjustAt (game : game_t) (i req_card : Nat) (r : Rng) : Except Fault (game_t × Rng) :=
  match game.players[i]? with
  | none => .error Fault.undefinedBehaviour
  | some player =>
    match playerAdjust player req_card r with
    | .error f => .error f
    | .ok (player1, r1) => .ok ({ game with players := game.players.set i player1 }, r1)

/-- The C `gameAssignBlame`. -/
def gameAssignBlame (game : game_t) (r : Rng) : Except Fault (game_t × Rng) :=
  match stackPeek game.pile with
  | .error f => .error f
  | .ok pile_card =>
    match blameSlow game.players 0 (MIND_DECK_SIZE, 0) with
    | .error f => .error f
    | .ok (lowest, i_slow_player) =>
      let fast := blameFast lowest game.players 0 (pile_card, 0)
      match adjustAt game i_slow_player fast.1 r with
      | .error f => .error f
      | .ok (game1, r1) => adjustAt game1 fast.2 lowest r1

/-- The part of `playTurn` that runs under `pile_mtx` from `MUTEX_CHECKLOCK` at line 272 to the
unlock: return if the round is over, `playerTryPlay`, then the win check. -/
def playTurnLocked (game : game_t) (i : Nat) : Except Fault game_t :=
  if game.level.is_over then .ok game
  else
    match playerTryPlay game i with
    | .error f => .error f
    | .ok game1 =>
      if game1.level.n_cards = 0 then
        .ok { game1 with level := { game1.level with is_over := true, status := true } }
      else .ok game1

/-- The mood of `playTurn` (lines 261-270): hesitate, get confused or get bored. -/
def playerMood (player : player_t) (lowest_card pile_card : Nat) (r : Rng) :
    Except Fault (player_t × Rng) :=
  if lowest_card < (pile_card + player.threshold) % UINT32_MOD then playerHesitate player r
  else
    let x := randf 0 1 r
    if x.1 * (1 - player.skill) > 8 / 10 then playerConfused player x.2
    else playerBored player x.2

/-- The C `playTurn`, for the player at index `i`, run as one step. -/
def playTurn (game : game_t) (i : Nat) (r : Rng) : Except Fault (game_t × Rng) :=
  match game.players[i]? with
  | none => .error Fault.undefinedBehaviour
  | some player =>
    match (if stackGetSize game.pile ≠ 0 then stackPeek game.pile else .ok 0) with
    | .error f => .error f
    | .ok pile_card =>
      match stackPeek player.hand with
      | .error f => .error f
      | .ok lowest_card =>
        if lowest_card < pile_card then
          if game.level.is_over then .ok (game, r)
          else gameAssignBlame { game with level := { game.level with is_over := true } } r
        else if player.pile_card < pile_card ∧ game.level.is_over then .ok (game, r)
        else
          match (if player.pile_card < pile_card
                 then playerAdjust player (pile_card % UINT8_MOD) r else .ok (player, r)) with
          | .error f => .error f
          | .ok (player1, r1) =>
            match playerMood { player1 with pile_card := pile_card % UINT8_MOD }
                    lowest_card pile_card r1 with
            | .error f => .error f
            | .ok (player2, r2) =>
              match playTurnLocked { game with players := game.players.set i player2 } i with
              | .error f => .error f
              | .ok game1 => .ok (game1, r2)

/-! ## Utils: sorting and shuffling -/

/-- The C `reverseCompare`: `b - a`. -/
def reverseCompare (a b : Nat) : Int := (b : Int) - (a : Int)

/-- The library `qsort(base, num, 1, compar)`: the first `num` cells of `base` are put in an
order in which `compar` never places a later cell before an earlier one. -/
def qsort (base : List Nat) (num : Nat) (compar : Nat → Nat → Int) : List Nat :=
  List.insertionSort (fun a b => compar a b ≤ 0) (base.take num) ++ base.drop num

/-- The loop of `deckRuffle`, with `fuel = sz - i` iterations left: `h0` and `h1` are the offsets
of `halfs[0]` and `halfs[1]`, `temp` is `temp_deck`.  (`i` is a `uint8_t` in C, which agrees
with the counter here for a deck of at most 255 cards.) -/
def ruffleLoop (deck : stack_t) (half_deck : Nat) (skill : ℚ) (sz : Nat) :
    Nat → Nat → Nat → Nat → Nat → List Nat → Rng → List Nat × Rng
  | 0, _, _, _, _, temp, r => (temp, r)
  | fuel + 1, i, h0, h1, i_halfs, temp, r =>
    if h0 ≥ half_deck then
      (memcpy_s temp i (u32_sub sz i) deck.cards h1 (size_sub deck.top h1), r)
    else if h1 ≥ deck.top then
      (memcpy_s temp i (u32_sub sz i) deck.cards h0 (size_sub half_deck h0), r)
    else
      let x := randf 0 1 r
      let i_halfs1 := (i_halfs + (if x.1 < skill then 1 else 0)) % 2
      if i_halfs1 = 0 then
        ruffleLoop deck half_deck skill sz fuel (i + 1) (h0 + 1) h1 i_halfs1
          (temp.set i (deck.cards.getD h0 0)) x.2
      else
        ruffleLoop deck half_deck skill sz fuel (i + 1) h0 (h1 + 1) i_halfs1
          (temp.set i (deck.cards.getD h1 0)) x.2

/-- The body of `deckRuffle` once the cut point `half_deck` is drawn: the loop, then the copy
of `temp_deck` back into the deck. -/
def deckRuffleAt (deck : stack_t) (half_deck : Nat) (skill : ℚ) (r : Rng) : stack_t × Rng :=
  let sz := stackGetSize deck
  let temp_deck := List.replicate MIND_DECK_SIZE 0
  let res := ruffleLoop deck half_deck skill sz sz 0 0 half_deck 0 temp_deck r
  ({ deck with cards := memcpy_s deck.cards 0 MIND_DECK_SIZE res.1 0 sz }, res.2)

/-- The C `deckRuffle`. -/
def deckRuffle (deck : stack_t) (player : player_t) (r : Rng) : Except Fault (stack_t × Rng) :=
  match randi (stackGetSize deck / 2) (playerGetError player) r with
  | .error f => .error f
  | .ok (half_deck, r1) => .ok (deckRuffleAt deck half_deck player.skill r1)

/-- The loop of `deckMultiCut`: returns `acc`, `half_deck`, `temp_deck` and the oracle at the
exit of the loop.  The loop has no bound in C; it is cut off as diverging after `fuel` rounds. -/
def multiCutLoop (deck : stack_t) (err : ℚ) (sz n_reps : Nat) :
    Nat → Nat → Nat → List Nat → Rng → Except Fault (Nat × Nat × List Nat × Rng)
  | fuel, acc, half_deck, temp, r =>
    if acc < sz then
      match fuel with
      | 0 => .error Fault.divergence
      | fuel1 + 1 =>
        let temp1 := memcpy_s temp (sz - acc) sz deck.cards (acc - half_deck) half_deck
        match randi (sz / n_reps) err r with
        | .error f => .error f
        | .ok (half_deck1, r1) =>
          multiCutLoop deck err sz n_reps fuel1 ((acc + half_deck1) % UINT32_MOD) half_deck1
            temp1 r1
    else .ok (acc, half_deck, temp, r)

/-- The C `deckMultiCut`.  A run of the loop that is longer than `sz` plus the length of the
oracle draws packets of size zero for ever. -/
def deckMultiCut (deck : stack_t) (player : player_t) (r : Rng) :
    Except Fault (stack_t × Rng) :=
  let sz := stackGetSize deck
  let temp_deck := List.replicate MIND_DECK_SIZE 0
  let x := rand r
  let n_reps := (x.1 % (6 - 2) + 2) % UINT8_MOD
  match randi (sz / n_reps) (playerGetError player) x.2 with
  | .error f => .error f
  | .ok (half_deck, r1) =>
    match multiCutLoop deck (playerGetError player) sz n_reps (sz + r1.length + 1)
            half_deck half_deck temp_deck r1 with
    | .error f => .error f
    | .ok (acc, half_deck1, temp, r2) =>
      let acc1 := u32_sub acc half_deck1
      let temp1 := memcpy_s temp 0 sz deck.cards acc1 (u32_sub sz acc1)
      .ok ({ deck with cards := memcpy_s deck.cards 0 sz temp1 0 sz }, r2)

/-- The loop of `deckShmush`, with `fuel` repetitions left, on the deck's buffer `cards`. -/
def shmushLoop (sz : Nat) : Nat → List Nat → List Nat → Rng → Except Fault (List Nat × Rng)
  | 0, cards, _, r => .ok (cards, r)
  | fuel + 1, cards, temp, r =>
    if sz / 8 = 0 then .error Fault.undefinedBehaviour
    else
      let x1 := rand r
      let n := (x1.1 % (sz / 8) + 8) % UINT32_MOD
      if u32_sub sz n = 0 then .error Fault.undefinedBehaviour
      else
        let x2 := rand x1.2
        let src := x2.1 % u32_sub sz n
        if u32_sub sz ((3 * n) % UINT32_MOD) = 0 then .error Fault.undefinedBehaviour
        else
          let x3 := rand x2.2
          let dst := x3.1 % u32_sub sz ((3 * n) % UINT32_MOD)
          let diff := if src > dst then src - dst else dst - src
          let dst1 := if diff < n then dst + 2 * n else dst
          let temp1 := memcpy_s temp 0 sz cards dst1 n
          let cards1 := memcpy_s cards dst1 sz cards src n
          let cards2 := memcpy_s cards1 src sz temp1 0 n
          shmushLoop sz fuel cards2 temp1 x3.2

/-- The C `deckShmush`. -/
def deckShmush (deck : stack_t) (r : Rng) : Except Fault (stack_t × Rng) :=
  let sz := stackGetSize deck
  let temp_deck := List.replicate MIND_DECK_SIZE 0
  let x := rand r
  let n_reps := (x.1 % (16 - 8) + 8) % UINT8_MOD
  match shmushLoop sz n_reps deck.cards temp_deck x.2 with
  | .error f => .error f
  | .ok (cards, r1) => .ok ({ deck with cards := cards }, r1)

/-- The loop of `playerDeckShuffle`, with `fuel` rounds left, on `player->game->deck`. -/
def shuffleLoop (player : player_t) : Nat → stack_t → Rng → Except Fault (stack_t × Rng)
  | 0, deck, r => .ok (deck, r)
  | fuel + 1, deck, r =>
    match deckRuffle deck player r with
    | .error f => .error f
    | .ok (deck1, r1) =>
      match deckMultiCut deck1 player r1 with
      | .error f => .error f
      | .ok (deck2, r2) =>
        match deckShmush deck2 r2 with
        | .error f => .error f
        | .ok (deck3, r3) => shuffleLoop player fuel deck3 r3

/-- The C `playerDeckShuffle`, on the deck of the player's game. -/
def playerDeckShuffle (deck : stack_t) (player : player_t) (r : Rng) :
    Except Fault (stack_t × Rng) :=
  shuffleLoop player 7 deck r

/-! ## Game implementation -/

/-- The dealing loop of `gameLevelSetup` over the players from index `i` on: returns the
players, the deck, `temp_buffer` and the oracle. -/
def dealLoop (n_level n_players deck_size : Nat) :
    List player_t → Nat → stack_t → List Nat → Rng →
      Except Fault (List player_t × stack_t × List Nat × Rng)
  | [], _, deck, temp_buffer, r => .ok ([], deck, temp_buffer, r)
  | player :: rest, i, deck, temp_buffer, r =>
    match dropState (stackPopN deck temp_buffer 0 n_level) with
    | .error f => .error f
    | .ok (deck1, temp1) =>
      let temp2 := qsort temp1 n_level reverseCompare
      match dropState (stackPushN player.hand temp2 n_level) with
      | .error f => .error f
      | .ok hand1 =>
        if n_level * n_players = 0 then .error Fault.undefinedBehaviour
        else
          match randi ((deck_size / (n_level * n_players)) % UINT32_MOD)
                  (playerGetError player) r with
          | .error f => .error f
          | .ok (threshold, r1) =>
            let player1 : player_t := { player with
              hand := hand1
              threshold := threshold % UINT8_MOD
              focus := 1 / 2
              count := 0
              timeout := { ADJUST := 0, BORED := 0, HESITATE := 0, CONFUSED := 0 }
              pile_card := 0
              last_card_played := 0
              n := i % UINT8_MOD }
            match dealLoop n_level n_players deck_size rest (i + 1) deck1 temp2 r1 with
            | .error f => .error f
            | .ok (rest1, deck2, temp3, r2) => .ok (player1 :: rest1, deck2, temp3, r2)

/-- The C `gameLevelSetup`. -/
def gameLevelSetup (game : game_t) (n_level : Nat) (r : Rng) : Except Fault (game_t × Rng) :=
  if game.n_players = 0 then .error Fault.undefinedBehaviour
  else
    match game.players[n_level % game.n_players]? with
    | none => .error Fault.undefinedBehaviour
    | some shuffler =>
      match playerDeckShuffle game.deck shuffler r with
      | .error f => .error f
      | .ok (deck1, r1) =>
        let deck_size := stackGetSize deck1
        let temp_buffer := List.replicate n_level 0
        match dealLoop n_level game.n_players deck_size game.players 0 deck1 temp_buffer r1 with
        | .error f => .error f
        | .ok (players1, deck2, _, r2) =>
          .ok ({ game with
                 deck := deck2
                 players := players1
                 level := { n := n_level
                            n_cards := (n_level * game.n_players) % UINT16_MOD
                            is_over := false
                            status := false } }, r2)

/-- The first loop of `gameLevelNext`: every hand is moved onto the deck. -/
def collectLoop : List player_t → stack_t → Except Fault (List player_t × stack_t)
  | [], deck => .ok ([], deck)
  | player :: rest, deck =>
    match dropState (stackMoveN deck player.hand (stackGetSize player.hand)) with
    | .error f => .error f
    | .ok (deck1, hand1) =>
      match collectLoop rest deck1 with
      | .error f => .error f
      | .ok (rest1, deck2) => .ok ({ player with hand := hand1 } :: rest1, deck2)

/-- The C `gameLevelNext`. -/
def gameLevelNext (game : game_t) (r : Rng) : Except Fault (game_t × Rng) :=
  match collectLoop game.players game.deck with
  | .error f => .error f
  | .ok (players1, deck1) =>
    match dropState (stackMoveN deck1 game.pile (stackGetSize game.pile)) with
    | .error f => .error f
    | .ok (deck2, pile1) =>
      let game1 := { game with deck := deck2, pile := pile1, players := players1 }
      if game1.level.n = MIND_MAX_LEVEL ∧ game1.level.status = true then
        .ok ({ game1 with level := { game1.level with n := 0 } }, r)
      else
        gameLevelSetup game1
          ((game1.level.n * (if game1.level.status then 1 else 0) + 1) % UINT8_MOD) r

/-- The C `playerCreate`, for the player at index `i`: the fields the compound literal does not
name are zero, and the hand is created with `MIND_MAX_LEVEL` cells.  The two draws of the
initialiser are made in the order they are written. -/
def playerCreate (i : Nat) (r : Rng) : Except Fault (player_t × Rng) :=
  let x := randf MIND_MIN_SKILL MIND_MAX_SKILL r
  match randi MIND_AVERAGE_BEAT (15 / 100) x.2 with
  | .error f => .error f
  | .ok (beat, r1) =>
    .ok ({ hand := stackCreate MIND_MAX_LEVEL
           skill := x.1
           focus := 0
           beat := beat
           count := 0
           timeout := { ADJUST := 0, BORED := 0, HESITATE := 0, CONFUSED := 0 }
           pile_card := 0
           last_card_played := 0
           threshold := 0
           n := (i % UINT8_MOD + 1) % UINT8_MOD }, r1)

/-- The first loop of `gameCreate`: `k` players are created, from index `i` on. -/
def createPlayers : Nat → Nat → Rng → Except Fault (List player_t × Rng)
  | 0, _, r => .ok ([], r)
  | k + 1, i, r =>
    match playerCreate i r with
    | .error f => .error f
    | .ok (player, r1) =>
      match createPlayers k (i + 1) r1 with
      | .error f => .error f
      | .ok (rest, r2) => .ok (player :: rest, r2)

/-- The second loop of `gameCreate`: `for (i = MIND_DECK_SIZE; i > 0; i--) stackPush(deck, i)`. -/
def fillDeck : Nat → stack_t → Except Fault stack_t
  | 0, deck => .ok deck
  | i + 1, deck =>
    match dropState (stackPush deck (i + 1)) with
    | .error f => .error f
    | .ok deck1 => fillDeck i deck1

/-- The C `gameCreate`. -/
def gameCreate (n_players : Nat) (r : Rng) : Except Fault (game_t × Rng) :=
  match createPlayers n_players 0 r with
  | .error f => .error f
  | .ok (players, r1) =>
    match fillDeck MIND_DECK_SIZE (stackCreate MIND_DECK_SIZE) with
    | .error f => .error f
    | .ok deck =>
      gameLevelSetup
        { deck := deck
          pile := stackCreate MIND_DECK_SIZE
          players := players
          level := { n := 0, n_cards := 0, is_over := false, status := false }
          n_players := n_players } 1 r1

/-! ## Runs of the game -/

/-- The hand of the player at index `i` is not empty: the condition under which the loop of
`playGame` calls `playTurn`. -/
def handNonEmpty (game : game_t) (i : Nat) : Prop :=
  ∃ player, game.players[i]? = some player ∧ stackGetSize player.hand ≠ 0

/-- The round is finished for every thread: each player has left the play loop of `playGame`
(the round is over or its hand is empty). -/
def roundFinished (game : game_t) : Prop :=
  game.level.is_over = true ∨ ∀ player ∈ game.players, stackGetSize player.hand = 0

/-- The statement `player->count++` of the play loop of `playGame`, for the player at index
`i`. -/
def playGameCount (game : game_t) (i : Nat) : game_t :=
  match game.players[i]? with
  | none => game
  | some player =>
    { game with
      players := game.players.set i { player with count := (player.count + 1) % UINT32_MOD } }

/-- The states reachable from `gameCreate`: by a `playTurn` of a player whose hand is not empty
in a game that is still on, by the `count++` of a player after its turn, and by the leader's
`gameLevelNext` once the round is finished.  A `turn` step is a whole `playTurn` run with no
other thread in between; the runs in which another player plays between the reading of the pile
(lines 236-240, without `pile_mtx`) and the locked section (lines 272-285) are not among these
steps, and are followed through `playTurnLocked`. -/
inductive Reachable : game_t → Prop where
  | create (n_players : Nat) (r r1 : Rng) (game : game_t) :
      gameCreate n_players r = .ok (game, r1) → Reachable game
  | count (game : game_t) (i : Nat) :
      Reachable game → Reachable (playGameCount game i)
  | turn (game game1 : game_t) (i : Nat) (r r1 : Rng) :
      Reachable game → game.level.n ≠ 0 → handNonEmpty game i →
      playTurn game i r = .ok (game1, r1) → Reachable game1
  | next (game game1 : game_t) (r r1 : Rng) :
      Reachable game → game.level.n ≠ 0 → roundFinished game →
      gameLevelNext game r = .ok (game1, r1) → Reachable game1

/-! ## Invariants -/

/-- The list `l` is an interleaving of `a` and `b`: it holds the cells of both, each list in its
own order. -/
inductive Interleave : List Nat → List Nat → List Nat → Prop where
  | nil : Interleave [] [] []
  | left (x : Nat) {a b l : List Nat} : Interleave a b l → Interleave (x :: a) b (x :: l)
  | right (x : Nat) {a b l : List Nat} : Interleave a b l → Interleave a (x :: b) (x :: l)

/-- The cards in the hands of the players, in the order of the players. -/
def handCards (players : List player_t) : List Nat :=
  (players.map (fun p => p.hand.contents)).flatten

/-- The number of cards in the hands of the players. -/
def handSizes (players : List player_t) : Nat :=
  (players.map (fun p => stackGetSize p.hand)).sum

/-- All the cards of a game: deck, pile, hands. -/
def allCards (game : game_t) : List Nat :=
  game.deck.contents ++ game.pile.contents ++ handCards game.players

/-- The card universe: `1 .. MIND_DECK_SIZE`. -/
def cardUniverse : List Nat := List.range' 1 MIND_DECK_SIZE

/-- A player as `playerCreate` and the turns keep it: the hand is a well-formed stack of
`MIND_MAX_LEVEL` cells, the skill lies in `MIND_MIN_SKILL .. MIND_MAX_SKILL`, the focus in
`0 .. 0.99`. -/
def player_t.wf (player : player_t) : Prop :=
  player.hand.wf ∧ player.hand.allocd = MIND_MAX_LEVEL ∧
  MIND_MIN_SKILL ≤ player.skill ∧ player.skill ≤ MIND_MAX_SKILL ∧
  0 ≤ player.focus ∧ player.focus ≤ 99 / 100

/-- The invariant of the game. -/
structure Inv (game : game_t) : Prop where
  players_len : game.players.length = game.n_players
  n_players_pos : 0 < game.n_players
  deck_wf : game.deck.wf ∧ game.deck.allocd = MIND_DECK_SIZE
  pile_wf : game.pile.wf ∧ game.pile.allocd = MIND_DECK_SIZE
  players_wf : ∀ player ∈ game.players, player.wf
  perm : (allCards game).Perm cardUniverse
  level_le : game.level.n ≤ MIND_MAX_LEVEL
  n_cards_eq : game.level.n_cards = handSizes game.players
  round_cards : stackGetSize game.pile + handSizes game.players = game.level.n * game.n_players
  hands_sorted : ∀ player ∈ game.players, player.hand.contents.Sorted (· ≥ ·)
  pile_sorted : game.pile.contents.Sorted (· < ·)
  status_over : game.level.status = true → game.level.is_over = true ∧ game.level.n_cards = 0

/-- A game ready for `gameLevelSetup`: the deck is full, every player is well-formed with an
empty hand. -/
def SetupReady (game : game_t) : Prop :=
  game.players.length = game.n_players ∧ 0 < game.n_players ∧
  game.deck.wf ∧ game.deck.allocd = MIND_DECK_SIZE ∧ game.deck.top = MIND_DECK_SIZE ∧
  ∀ p ∈ game.players, p.wf ∧ p.hand.top = 0

/-- The player `p1` holds the hand of `p` and is well-formed if `p` is. -/
def Keeps (p p1 : player_t) : Prop := p1.hand = p.hand ∧ (p.wf → p1.wf)

/-- The players `ps1` hold, one by one, the hands of `ps`, and are well-formed if those are. -/
def SameHands (ps ps1 : List player_t) : Prop :=
  ps1.map (fun p => p.hand) = ps.map (fun p => p.hand) ∧
  ((∀ p ∈ ps, p.wf) → ∀ p ∈ ps1, p.wf)

/-- The outcome of a turn in which a card was played: the round was not over, the lowest card
`c` of the player went on top of the pile and was counted, and the round is won exactly if no
card is left. -/
def Played (game game1 : game_t) (c : Nat) : Prop :=
  game.level.is_over = false ∧
  game1.pile.contents = game.pile.contents ++ [c] ∧
  stackGetSize game1.pile = stackGetSize game.pile + 1 ∧
  game1.level.n_cards + 1 = game.level.n_cards ∧
  handSizes game1.players + 1 = handSizes game.players ∧
  (game1.level.status = true ↔ game1.level.n_cards = 0) ∧
  (game1.level.is_over = true ↔ game1.level.n_cards = 0)

/-- The outcome of a turn in which no card moved: pile, hands, count of cards and the result of
the round are as before, and a round that was over stays over. -/
def NotPlayed (game game1 : game_t) : Prop :=
  game1.pile = game.pile ∧ SameHands game.players game1.players ∧
  game1.level.n_cards = game.level.n_cards ∧ game1.level.status = game.level.status ∧
  (game.level.is_over = true → game1.level.is_over = true)

instance (player : player_t) : Decidable player.wf := by
  unfold player_t.wf
  exact inferInstance

instance (game : game_t) : Decidable (SetupReady game) := by
  unfold SetupReady
  exact inferInstance

instance (game : game_t) (i : Nat) : Decidable (handNonEmpty game i) :=
  match h : game.players[i]? with
  | none => isFalse (fun ⟨_, hp, _⟩ => by rw [h] at hp; cases hp)
  | some p =>
    if hs : stackGetSize p.hand ≠ 0 then isTrue ⟨p, h, hs⟩
    else isFalse (fun ⟨_, hq, hqs⟩ => by rw [h] at hq; cases hq; exact hs hqs)

/-! ## Example states -/

/-- An empty hand, as `playerCreate` makes it. -/
def ex_hand : stack_t := stackCreate MIND_MAX_LEVEL

/-- A full deck in the order `gameCreate` fills it: 100 at the bottom, 1 on top. -/
def ex_deck : stack_t :=
  { cards := (List.range' 1 MIND_DECK_SIZE).reverse, top := MIND_DECK_SIZE
    allocd := MIND_DECK_SIZE }

/-- A stack of capacity 4 holding 9, 7, 4. -/
def ex_small : stack_t := { cards := [9, 7, 4, 0], top := 3, allocd := 4 }

/-- A player at the table before the first deal, with an empty hand. -/
def ex_player : player_t :=
  { hand := ex_hand, skill := 3 / 4, focus := 0, beat := 100, count := 0
    timeout := { ADJUST := 0, BORED := 0, HESITATE := 0, CONFUSED := 0 }
    pile_card := 0, last_card_played := 0, threshold := 0, n := 1 }

/-- A game of three players ready for `gameLevelSetup`: the deck, in the order of `gameCreate`,
is full and the hands are empty. -/
def ex_ready : game_t :=
  { deck := ex_deck, pile := stackCreate MIND_DECK_SIZE
    players := [ex_player, ex_player, ex_player]
    level := { n := 0, n_cards := 0, is_over := false, status := false }
    n_players := MIND_N_PLAYERS }

/-- The state `gameCreate(&game, MIND_N_PLAYERS)` returns when every `rand()` yields 0: level 1,
the hands hold 4, 76 and 49. -/
def ex_created : game_t :=
  { deck :=
      { cards := [69, 90, 29, 37, 16, 77, 79, 20, 98, 43, 54, 60, 41, 3, 24, 11, 64, 2, 5, 93,
                  15, 1, 45, 72, 97, 84, 87, 59, 74, 34, 23, 10, 63, 50, 27, 91, 67, 13, 70, 31,
                  18, 44, 80, 71, 100, 95, 55, 82, 42, 86, 26, 57, 66, 73, 6, 30, 17, 21, 46, 8,
                  99, 61, 88, 48, 75, 35, 25, 65, 36, 92, 12, 14, 94, 33, 39, 78, 81, 38, 52, 96,
                  56, 83, 85, 53, 28, 58, 51, 40, 7, 32, 19, 22, 47, 9, 68, 62, 89, 49, 76, 4]
        top := 97, allocd := 100 }
    pile := stackCreate MIND_DECK_SIZE
    players :=
      [{ hand := { cards := [4, 0, 0, 0, 0, 0, 0, 0, 0, 0, 0, 0], top := 1, allocd := 12 }
         skill := 33 / 50, focus := 1 / 2, beat := 85, count := 0
         timeout := { ADJUST := 0, BORED := 0, HESITATE := 0, CONFUSED := 0 }
         pile_card := 0, last_card_played := 0, threshold := 22, n := 0 },
       { hand := { cards := [76, 0, 0, 0, 0, 0, 0, 0, 0, 0, 0, 0], top := 1, allocd := 12 }
         skill := 33 / 50, focus := 1 / 2, beat := 85, count := 0
         timeout := { ADJUST := 0, BORED := 0, HESITATE := 0, CONFUSED := 0 }
         pile_card := 0, last_card_played := 0, threshold := 22, n := 1 },
       { hand := { cards := [49, 0, 0, 0, 0, 0, 0, 0, 0, 0, 0, 0], top := 1, allocd := 12 }
         skill := 33 / 50, focus := 1 / 2, beat := 85, count := 0
         timeout := { ADJUST := 0, BORED := 0, HESITATE := 0, CONFUSED := 0 }
         pile_card := 0, last_card_played := 0, threshold := 22, n := 2 }]
    level := { n := 1, n_cards := 3, is_over := false, status := false }
    n_players := 3 }

/-- The statement `player->count++` of player `i`, `k` times. -/
def countN : Nat → Nat → game_t → game_t
  | 0, _, game => game
  | k + 1, i, game => countN k i (playGameCount game i)

/-- The state after `playTurn` of player `i` (the state itself if the turn ends in a fault). -/
def turnOf (game : game_t) (i : Nat) (r : Rng) : game_t :=
  match playTurn game i r with
  | .ok (game1, _) => game1
  | .error _ => game

/-- A won round of level 1: from `ex_created` player 0 counts to 4 and plays the 4, player 2
counts to 49 and plays the 49, player 1 plays the last card, the 76. -/
def ex_won : game_t :=
  turnOf (turnOf (countN 49 2 (turnOf (countN 4 0 ex_created) 0 [])) 2 []) 1 []

/-- The player `p1` is `p` in every field but `beat` and `timeout[ADJUST]`: what `playerAdjust`
may change. -/
def AdjustedOnly (p p1 : player_t) : Prop :=
  p1 = { p with beat := p1.beat, timeout := { p.timeout with ADJUST := p1.timeout.ADJUST } }

/-- The steps of the play loop of `playGame`, for any players in any order: `playTurn` and
`count++`. -/
inductive RoundRun : game_t → game_t → Prop where
  | done (game : game_t) : RoundRun game game
  | count (game game1 : game_t) (i : Nat) :
      RoundRun game game1 → RoundRun game (playGameCount game1 i)
  | turn (game game1 game2 : game_t) (i : Nat) (r r1 : Rng) :
      RoundRun game game1 → playTurn game1 i r = .ok (game2, r1) → RoundRun game game2

/-- A round in which a card is played late: from `ex_created` player 1 counts to 76 and plays
the 76 while player 0 still holds the 4 and player 2 the 49. -/
def ex_late : game_t := turnOf (countN 76 1 ex_created) 1 []

/-- A round in which the last card comes late: from `ex_created` player 0 counts to 4 and plays
the 4, player 1 counts to 76 and plays the 76, and player 2, still holding the 49, has counted
to 49. -/
def ex_raced : game_t :=
  countN 49 2 (turnOf (countN 76 1 (turnOf (countN 4 0 ex_created) 0 [])) 1 [])

/-- A lost round: in `ex_late` player 2, holding the 49, sees the 76 on the pile. -/
def ex_lost : game_t := turnOf ex_late 2 []

/-- The draws of one repetition of `deckShmush` on a deck of `sz` cards: the block length `n`,
the offset of `src`, the offset of `dst` after the adjustment `dst += 2 * n`, and the rest of
the oracle. -/
def shmushDraw (sz : Nat) (r : Rng) : Nat × Nat × Nat × Rng :=
  let x1 := rand r
  let n := (x1.1 % (sz / 8) + 8) % UINT32_MOD
  let x2 := rand x1.2
  let src := x2.1 % u32_sub sz n
  let x3 := rand x2.2
  let dst := x3.1 % u32_sub sz ((3 * n) % UINT32_MOD)
  let diff := if src > dst then src - dst else dst - src
  let dst1 := if diff < n then dst + 2 * n else dst
  (n, src, dst1, x3.2)

/-- The three copies of one repetition of `deckShmush`, through `temp_deck`: the buffer of the
deck and `temp_deck` afterwards. -/
def shmushSwap (sz : Nat) (cards temp : List Nat) (n src dst : Nat) : List Nat × List Nat :=
  let temp1 := memcpy_s temp 0 sz cards dst n
  let cards1 := memcpy_s cards dst sz cards src n
  (memcpy_s cards1 src sz temp1 0 n, temp1)

/-- The buffer `l1` is `l` with the block of `n` cells at offset `a` and the block of `n` cells
at offset `b` exchanged, where the first block ends before the second begins. -/
def BlocksExchanged (l l1 : List Nat) (a b n : Nat) : Prop :=
  ∃ A X B Y C, l = A ++ X ++ B ++ Y ++ C ∧ l1 = A ++ Y ++ B ++ X ++ C ∧
    A.length = a ∧ X.length = n ∧ (A ++ X ++ B).length = b ∧ Y.length = n

/-- The copies of the loop of `deckMultiCut`, in the order they are made: for each `memcpy_s`
the offset written in `temp_deck`, the offset read in `deck->cards` and the number of cells. -/
def multiCutWrites (err : ℚ) (sz n_reps : Nat) : Nat → Nat → Nat → Rng → List (Nat × Nat × Nat)
  | fuel, acc, half_deck, r =>
    if acc < sz then
      match fuel with
      | 0 => []
      | fuel1 + 1 =>
        (sz - acc, acc - half_deck, half_deck) ::
          match randi (sz / n_reps) err r with
          | .error _ => []
          | .ok (half_deck1, r1) =>
            multiCutWrites err sz n_reps fuel1 ((acc + half_deck1) % UINT32_MOD) half_deck1 r1
    else []

/-! # Theorems -/

/-! ## Arithmetic of machine integers -/

theorem size_sub_of_le {a b : Nat} (hb : b ≤ a) (ha : a < SIZE_MOD) : size_sub a b = a - b := by
  unfold size_sub SIZE_MOD at *
  omega

theorem u32_sub_of_le {a b : Nat} (hb : b ≤ a) (ha : a < UINT32_MOD) : u32_sub a b = a - b := by
  unfold u32_sub UINT32_MOD at *
  omega

/-! ## Memory -/

theorem length_readN (buf : List Nat) (off n : Nat) :
    (readN buf off n).length = min n (buf.length - off) := by
  simp [readN]

theorem length_readN_of_le {buf : List Nat} {off n : Nat} (h : off + n ≤ buf.length) :
    (readN buf off n).length = n := by
  rw [length_readN]; omega

theorem length_writeN (buf : List Nat) (off : Nat) (vals : List Nat) :
    (writeN buf off vals).length = buf.length := by
  simp [writeN]
  omega

theorem writeN_eq {buf : List Nat} {off : Nat} {vals : List Nat}
    (h : off + vals.length ≤ buf.length) :
    writeN buf off vals = buf.take off ++ vals ++ buf.drop (off + vals.length) := by
  unfold writeN
  apply List.take_of_length_le
  simp
  omega

theorem writeN_nil (buf : List Nat) (off : Nat) : writeN buf off [] = buf := by
  simp [writeN]

theorem writeN_zero_full {buf vals : List Nat} (h : vals.length = buf.length) :
    writeN buf 0 vals = vals := by
  rw [writeN_eq (by omega)]
  simp [h]

theorem take_writeN {buf : List Nat} {off : Nat} {vals : List Nat}
    (h : off + vals.length ≤ buf.length) :
    (writeN buf off vals).take (off + vals.length) = buf.take off ++ vals := by
  rw [writeN_eq h]
  have hl : (buf.take off ++ vals).length = off + vals.length := by
    simp; omega
  rw [List.take_append_of_le_length (by omega), List.take_of_length_le (by omega)]

theorem take_writeN_below {buf : List Nat} {off k : Nat} {vals : List Nat} (hk : k ≤ off) :
    (writeN buf off vals).take k = buf.take k := by
  unfold writeN
  rw [List.take_take, List.append_assoc]
  by_cases hlen : off ≤ buf.length
  · rw [List.take_append_of_le_length (by simp; omega), List.take_take]
    congr 1; omega
  · have : buf.take off = buf := List.take_of_length_le (by omega)
    rw [this]
    by_cases hk2 : k ≤ buf.length
    · rw [List.take_append_of_le_length (by omega)]
      rw [Nat.min_eq_left hk2]
    · rw [Nat.min_eq_right (by omega), List.take_append_of_le_length (by omega),
        List.take_of_length_le (by omega), List.take_of_length_le (by omega)]

theorem readN_writeN_same {buf : List Nat} {off : Nat} {vals : List Nat}
    (h : off + vals.length ≤ buf.length) :
    readN (writeN buf off vals) off vals.length = vals := by
  unfold readN
  rw [writeN_eq h, List.append_assoc]
  have hl : (buf.take off).length = off := by simp; omega
  have := @List.drop_append _ (buf.take off) (vals ++ buf.drop (off + vals.length)) 0
  rw [hl] at this
  simp only [Nat.add_zero, List.drop_zero] at this
  rw [this]
  simp

theorem memcpy_s_of_le {dest : List Nat} {doff destsz : Nat} {src : List Nat} {soff count : Nat}
    (h : count ≤ destsz) :
    memcpy_s dest doff destsz src soff count = writeN dest doff (readN src soff count) := by
  unfold memcpy_s
  rw [if_neg (by omega)]

theorem length_memcpy_s (dest : List Nat) (doff destsz : Nat) (src : List Nat)
    (soff count : Nat) : (memcpy_s dest doff destsz src soff count).length = dest.length := by
  unfold memcpy_s
  split <;> exact length_writeN _ _ _

/-! ## Stack operations on well-formed stacks -/

theorem stackGetSize_of_wf {s : stack_t} (h : s.wf) : stackGetSize s = s.top := by
  obtain ⟨_, h2, h3⟩ := h
  unfold stackGetSize
  exact Nat.mod_eq_of_lt (by omega)

theorem length_contents {s : stack_t} (h : s.wf) : s.contents.length = s.top := by
  obtain ⟨h1, h2, _⟩ := h
  simp [stack_t.contents]; omega

theorem wf_stackCreate {sz : Nat} (h : sz < UINT32_MOD) : (stackCreate sz).wf := by
  simp [stackCreate, stack_t.wf, h]

theorem contents_stackCreate (sz : Nat) : (stackCreate sz).contents = [] := by
  simp [stackCreate, stack_t.contents]

theorem readN_top (s : stack_t) {n : Nat} (hn : n ≤ s.top) :
    readN s.cards (s.top - n) n = s.contents.drop (s.top - n) := by
  unfold readN stack_t.contents
  rw [List.drop_take]
  congr 1; omega

theorem length_readN_top {s : stack_t} (h : s.wf) {n : Nat} (hn : n ≤ s.top) :
    (readN s.cards (s.top - n) n).length = n := by
  obtain ⟨h1, h2, _⟩ := h
  apply length_readN_of_le; omega

theorem stackPushN_eq {s : stack_t} (h : s.wf) (values : List Nat) {n : Nat}
    (hn : n ≤ s.allocd) :
    stackPushN s values n =
      if s.top + n ≤ s.allocd then
        .ok { s with cards := writeN s.cards s.top (readN values 0 n), top := s.top + n }
      else .error (Fault.notEnoughMemory, s) := by
  have hsz := stackGetSize_of_wf h
  obtain ⟨h1, h2, h3⟩ := h
  have h4 : s.allocd < SIZE_MOD := by unfold UINT32_MOD at h3; unfold SIZE_MOD; omega
  unfold stackPushN
  simp only [hsz]
  rw [size_sub_of_le hn h4, size_sub_of_le h2 h4]
  by_cases hc : s.top + n ≤ s.allocd
  · rw [if_neg (by omega), if_pos hc, memcpy_s_of_le (by omega)]
  · rw [if_pos (by omega), if_neg hc]

theorem stackPopN_eq {s : stack_t} (h : s.wf) (res : List Nat) (roff n : Nat) :
    stackPopN s res roff n =
      if n ≤ s.top then
        .ok ({ s with top := s.top - n }, writeN res roff (readN s.cards (s.top - n) n))
      else .error (Fault.notEnoughItems, s, res) := by
  have hsz := stackGetSize_of_wf h
  unfold stackPopN
  simp only [hsz]
  by_cases hc : n ≤ s.top
  · rw [if_neg (by omega), if_pos hc, memcpy_s_of_le hc]
  · rw [if_pos (by omega), if_neg hc]

theorem stackMoveN_eq {dst src : stack_t} (hd : dst.wf) (hs : src.wf) {n : Nat}
    (hn : n ≤ dst.allocd) :
    stackMoveN dst src n =
      if dst.top + n ≤ dst.allocd then
        if n ≤ src.top then
          .ok ({ dst with cards := writeN dst.cards dst.top (readN src.cards (src.top - n) n)
                          top := dst.top + n },
               { src with top := src.top - n })
        else .error (Fault.notEnoughItems, dst, src)
      else .error (Fault.notEnoughMemory, dst, src) := by
  have hsz := stackGetSize_of_wf hd
  obtain ⟨h1, h2, h3⟩ := hd
  have h4 : dst.allocd < SIZE_MOD := by unfold UINT32_MOD at h3; unfold SIZE_MOD; omega
  unfold stackMoveN
  rw [hsz, size_sub_of_le hn h4, stackPopN_eq hs]
  by_cases hc : dst.top + n ≤ dst.allocd
  · rw [if_neg (by omega), if_pos hc]
    by_cases hc2 : n ≤ src.top
    · simp only [if_pos hc2]
    · simp only [if_neg hc2]
  · rw [if_pos (by omega), if_neg hc]

theorem contents_push {s : stack_t} (h : s.wf) {vals : List Nat}
    (hv : s.top + vals.length ≤ s.allocd) :
    ({ s with cards := writeN s.cards s.top vals, top := s.top + vals.length } :
      stack_t).contents = s.contents ++ vals := by
  obtain ⟨h1, h2, _⟩ := h
  simp only [stack_t.contents]
  exact take_writeN (by omega)

theorem wf_push {s : stack_t} (h : s.wf) {vals : List Nat} {k : Nat} (hv : s.top + k ≤ s.allocd) :
    ({ s with cards := writeN s.cards s.top vals, top := s.top + k } : stack_t).wf := by
  obtain ⟨h1, h2, h3⟩ := h
  exact ⟨by simp [length_writeN, h1], hv, h3⟩

theorem contents_pop (s : stack_t) (n : Nat) :
    ({ s with top := s.top - n } : stack_t).contents = s.contents.take (s.top - n) := by
  simp only [stack_t.contents, List.take_take]
  congr 1
  omega

theorem wf_pop {s : stack_t} (h : s.wf) (n : Nat) : ({ s with top := s.top - n } : stack_t).wf := by
  obtain ⟨h1, h2, h3⟩ := h
  exact ⟨h1, by simp; omega, h3⟩

theorem stackPeek_eq {s : stack_t} (h : s.wf) :
    stackPeek s = match s.contents.getLast? with
      | some c => .ok c
      | none => .error Fault.undefinedBehaviour := by
  obtain ⟨h1, h2, _⟩ := h
  unfold stackPeek stack_t.contents
  by_cases h0 : s.top = 0
  · simp [h0]
  · rw [if_neg h0]
    have hlt : s.top - 1 < s.cards.length := by omega
    rw [List.getLast?_eq_getElem?, List.getElem?_take]
    have hl : (List.take s.top s.cards).length = s.top := by simp; omega
    rw [hl, if_pos (by omega)]

theorem stackPeek_ok_iff {s : stack_t} (h : s.wf) (c : Nat) :
    stackPeek s = .ok c ↔ s.contents.getLast? = some c := by
  rw [stackPeek_eq h]
  cases s.contents.getLast? <;> simp

theorem getLast?_drop {l : List Nat} {k : Nat} (hk : k < l.length) :
    (l.drop k).getLast? = l.getLast? := by
  rw [List.getLast?_drop, if_neg (by omega)]

theorem lemma_moveN (dst src : stack_t) (hd : dst.wf) (hs : src.wf) (buf : List Nat) (n : Nat)
    (hbuf : n ≤ buf.length) (hn : n ≤ stackGetSize src)
    (hcap : stackGetSize dst + n ≤ dst.allocd) :
    ∃ dst1 src1 buf1,
      stackMoveN dst src n = .ok (dst1, src1) ∧
      stackPopN src buf 0 n = .ok (src1, buf1) ∧
      stackPushN dst buf1 n = .ok dst1 ∧
      dst1.wf ∧ src1.wf ∧
      dst1.allocd = dst.allocd ∧ src1.allocd = src.allocd ∧
      stackGetSize src1 = stackGetSize src - n ∧
      stackGetSize dst1 = stackGetSize dst + n ∧
      src1.contents = src.contents.take (stackGetSize src - n) ∧
      dst1.contents = dst.contents ++ src.contents.drop (stackGetSize src - n) ∧
      (src.contents.drop (stackGetSize src - n)).length = n ∧
      (0 < n → stackPeek dst1 = stackPeek src) ∧
      (src1.contents ++ dst1.contents).Perm (src.contents ++ dst.contents) := by
  have hszd := stackGetSize_of_wf hd
  have hszs := stackGetSize_of_wf hs
  rw [hszd] at hcap
  rw [hszs] at hn
  have hlen := length_readN_top hs hn
  have hrd := readN_top src hn
  have hnd : n ≤ dst.allocd := by omega
  have hb : readN (writeN buf 0 (readN src.cards (src.top - n) n)) 0 n
      = readN src.cards (src.top - n) n := by
    have := @readN_writeN_same buf 0 (readN src.cards (src.top - n) n) (by omega)
    rw [hlen] at this
    exact this
  have hwd : ({ dst with cards := writeN dst.cards dst.top (readN src.cards (src.top - n) n)
                         top := dst.top + n } : stack_t).wf := wf_push hd hcap
  have hws : ({ src with top := src.top - n } : stack_t).wf := wf_pop hs n
  have hcd : ({ dst with cards := writeN dst.cards dst.top (readN src.cards (src.top - n) n)
                         top := dst.top + n } : stack_t).contents
      = dst.contents ++ src.contents.drop (src.top - n) := by
    have := @contents_push dst hd (readN src.cards (src.top - n) n) (by omega)
    rw [hlen] at this
    rw [this, hrd]
  refine ⟨_, _, writeN buf 0 (readN src.cards (src.top - n) n),
    ?_, ?_, ?_, hwd, hws, rfl, rfl, ?_, ?_, ?_, ?_, ?_, ?_, ?_⟩
  · rw [stackMoveN_eq hd hs hnd, if_pos hcap, if_pos hn]
  · rw [stackPopN_eq hs, if_pos hn]
  · rw [stackPushN_eq hd _ hnd, if_pos hcap, hb]
  · rw [stackGetSize_of_wf hws, hszs]
  · rw [stackGetSize_of_wf hwd, hszd]
  · rw [hszs]; exact contents_pop src n
  · rw [hszs]; exact hcd
  · rw [hszs, ← hrd]; exact hlen
  · intro hpos
    rw [stackPeek_eq hwd, stackPeek_eq hs, hcd, List.getLast?_append]
    have hl := length_contents hs
    rw [getLast?_drop (by omega)]
    cases hg : src.contents.getLast? with
    | none =>
      rw [List.getLast?_eq_none_iff] at hg
      rw [hg] at hl; simp at hl; omega
    | some c => simp
  · rw [contents_pop, hcd]
    have := List.take_append_drop (src.top - n) src.contents
    calc (List.take (src.top - n) src.contents ++
            (dst.contents ++ List.drop (src.top - n) src.contents)).Perm
          (List.take (src.top - n) src.contents ++
            (List.drop (src.top - n) src.contents ++ dst.contents)) :=
            List.Perm.append_left _ List.perm_append_comm
      _ = src.contents ++ dst.contents := by rw [← List.append_assoc, this]

/-- C4: for well-formed stacks `dst` and `src` (two values, hence distinct objects) and `n` with
`n ≤ size(src)` and `size(dst) + n ≤ capacity(dst)`, `stackMoveN` returns what `stackPopN` into a
buffer followed by `stackPushN` from that buffer returns: `src` loses its top `n` cards, `dst`
gains them on top in the same order (the old top of `src` is the new top of `dst`), the cards
below keep their places, and the cards of both stacks together are a permutation of what they
were. -/
theorem C4_stackMoveN_is_pop_then_push (dst src : stack_t) (hd : dst.wf) (hs : src.wf)
    (buf : List Nat) (n : Nat) (hbuf : n ≤ buf.length) (hn : n ≤ stackGetSize src)
    (hcap : stackGetSize dst + n ≤ dst.allocd) :
    ∃ dst1 src1 buf1,
      stackMoveN dst src n = .ok (dst1, src1) ∧
      stackPopN src buf 0 n = .ok (src1, buf1) ∧
      stackPushN dst buf1 n = .ok dst1 ∧
      dst1.wf ∧ src1.wf ∧
      dst1.allocd = dst.allocd ∧ src1.allocd = src.allocd ∧
      stackGetSize src1 = stackGetSize src - n ∧
      stackGetSize dst1 = stackGetSize dst + n ∧
      src1.contents = src.contents.take (stackGetSize src - n) ∧
      dst1.contents = dst.contents ++ src.contents.drop (stackGetSize src - n) ∧
      (src.contents.drop (stackGetSize src - n)).length = n ∧
      (0 < n → stackPeek dst1 = stackPeek src) ∧
      (src1.contents ++ dst1.contents).Perm (src.contents ++ dst.contents) :=
  lemma_moveN dst src hd hs buf n hbuf hn hcap

theorem C4_witness :
    ex_small.wf ∧ ex_deck.wf ∧ 2 ≤ [0, 0].length ∧ 2 ≤ stackGetSize ex_deck ∧
    stackGetSize ex_small + 1 ≤ ex_small.allocd ∧
    ∃ dst1 src1 buf1,
      stackMoveN ex_small ex_deck 1 = .ok (dst1, src1) ∧
      stackPopN ex_deck [0, 0] 0 1 = .ok (src1, buf1) ∧
      stackPushN ex_small buf1 1 = .ok dst1 ∧
      dst1.contents = [9, 7, 4, 1] := by
  have h := C4_stackMoveN_is_pop_then_push ex_small ex_deck (by decide) (by decide) [0, 0] 1
    (by decide) (by decide) (by decide)
  obtain ⟨dst1, src1, buf1, h1, h2, h3, -, -, -, -, -, -, -, h4, -⟩ := h
  refine ⟨by decide, by decide, by decide, by decide, by decide, dst1, src1, buf1, h1, h2, h3, ?_⟩
  rw [h4]
  decide

/-- C7: on a well-formed stack `stackPopN` fails, with the underflow fault and the stack and the
result buffer as they were, exactly when `n > size`; otherwise it leaves the buffer of the stack
alone and lowers the size by `n`, so the cards below stay, and the result buffer receives the
removed cards bottom first: its last card is the old top, the card `stackPop` returns and
`stackPeek` shows. -/
theorem C7_stackPopN_underflow_or_top (s : stack_t) (hs : s.wf) (res : List Nat)
    (roff n : Nat) :
    ((∃ e, stackPopN s res roff n = .error e) ↔ stackGetSize s < n) ∧
    (stackGetSize s < n → stackPopN s res roff n = .error (Fault.notEnoughItems, s, res)) ∧
    (n ≤ stackGetSize s → ∃ s1 res1, stackPopN s res roff n = .ok (s1, res1) ∧ s1.wf ∧
      s1.cards = s.cards ∧ s1.allocd = s.allocd ∧
      stackGetSize s1 = stackGetSize s - n ∧
      s1.contents = s.contents.take (stackGetSize s - n) ∧
      s1.contents ++ s.contents.drop (stackGetSize s - n) = s.contents ∧
      (s.contents.drop (stackGetSize s - n)).length = n ∧
      (0 < n → (s.contents.drop (stackGetSize s - n)).getLast? = s.contents.getLast?) ∧
      (roff + n ≤ res.length → readN res1 roff n = s.contents.drop (stackGetSize s - n))) ∧
    (1 ≤ stackGetSize s → ∃ s1 c, stackPop s = .ok (s1, c) ∧ stackPeek s = .ok c ∧
      s.contents.getLast? = some c ∧ s1.contents = s.contents.dropLast) := by
  have hsz := stackGetSize_of_wf hs
  have hl := length_contents hs
  rw [hsz]
  have hok : n ≤ s.top → ∃ s1 res1, stackPopN s res roff n = .ok (s1, res1) ∧ s1.wf ∧
      s1.cards = s.cards ∧ s1.allocd = s.allocd ∧
      stackGetSize s1 = s.top - n ∧
      s1.contents = s.contents.take (s.top - n) ∧
      s1.contents ++ s.contents.drop (s.top - n) = s.contents ∧
      (s.contents.drop (s.top - n)).length = n ∧
      (0 < n → (s.contents.drop (s.top - n)).getLast? = s.contents.getLast?) ∧
      (roff + n ≤ res.length → readN res1 roff n = s.contents.drop (s.top - n)) := by
    intro hn
    have hlen := length_readN_top hs hn
    have hrd := readN_top s hn
    refine ⟨_, _, by rw [stackPopN_eq hs, if_pos hn], wf_pop hs n, rfl, rfl,
      stackGetSize_of_wf (wf_pop hs n), contents_pop s n, ?_, ?_, ?_, ?_⟩
    · rw [contents_pop]; exact List.take_append_drop _ _
    · rw [← hrd]; exact hlen
    · intro hpos; exact getLast?_drop (by omega)
    · intro hr
      have := @readN_writeN_same res roff (readN s.cards (s.top - n) n) (by omega)
      rw [hlen] at this
      rw [this, hrd]
  refine ⟨?_, ?_, hok, ?_⟩
  · rw [stackPopN_eq hs]
    by_cases hn : n ≤ s.top
    · rw [if_pos hn]; simp; omega
    · rw [if_neg hn]; simp; omega
  · intro hn
    rw [stackPopN_eq hs, if_neg (by omega)]
  · intro h1
    have hne : s.contents ≠ [] := by
      intro h; rw [h] at hl; simp at hl; omega
    obtain ⟨c, hc⟩ : ∃ c, s.contents.getLast? = some c := by
      cases hg : s.contents.getLast? with
      | none => exact absurd (List.getLast?_eq_none_iff.mp hg) hne
      | some c => exact ⟨c, rfl⟩
    have hrd := readN_top s h1
    have hd1 : s.contents.drop (s.top - 1) = [c] := by
      have h2 : (s.contents.drop (s.top - 1)).length = 1 := by simp; omega
      have h3 : (s.contents.drop (s.top - 1)).getLast? = some c := by
        rw [getLast?_drop (by omega)]; exact hc
      match hm : s.contents.drop (s.top - 1), h2, h3 with
      | [x], _, h3 => simp at h3; rw [h3]
    refine ⟨{ s with top := s.top - 1 }, c, ?_, ?_, hc, ?_⟩
    · unfold stackPop
      rw [stackPopN_eq hs, if_pos h1, hrd, hd1]
      rfl
    · rw [stackPeek_eq hs, hc]
    · rw [contents_pop, List.dropLast_eq_take, hl]

theorem C7_witness :
    ex_small.wf ∧
    stackPopN ex_small [0, 0] 0 4 = .error (Fault.notEnoughItems, ex_small, [0, 0]) ∧
    (∃ s1 c, stackPop ex_small = .ok (s1, c) ∧ stackPeek ex_small = .ok c ∧
      ex_small.contents.getLast? = some c ∧ s1.contents = ex_small.contents.dropLast) :=
  ⟨by decide,
   (C7_stackPopN_underflow_or_top ex_small (by decide) [0, 0] 0 4).2.1 (by decide),
   (C7_stackPopN_underflow_or_top ex_small (by decide) [0, 0] 0 4).2.2.2 (by decide)⟩

/-- C5: the code at a failing input.  Moving 13 cards from a full deck onto an empty hand of
capacity 12 exceeds the capacity of the hand, yet `stackMoveN` does not panic: in the check
`stackGetSize(dst) > dst->allocd - n` the difference `12 - 13` wraps around, and the call returns
with the top of the hand 13 cells up and the top of the deck 13 cells down. -/
theorem C5_stackMoveN_beyond_capacity :
    ex_hand.wf ∧ ex_deck.wf ∧ stackGetSize ex_hand + 13 > ex_hand.allocd ∧
    stackMoveN ex_hand ex_deck 13 =
      .ok ({ cards := [13, 12, 11, 10, 9, 8, 7, 6, 5, 4, 3, 2], top := 13, allocd := 12 },
           { ex_deck with top := 87 }) := by
  refine ⟨by decide, by decide, by decide, ?_⟩
  rfl

/-- C6: the code at a failing input.  Pushing 13 cards onto an empty stack of capacity 12 has
`size + n > capacity`, yet `stackPushN` does not fail: `allocd - n` wraps around in the check,
and the call returns with `top` 13 cells above `cards`. -/
theorem C6_stackPushN_beyond_capacity :
    ex_hand.wf ∧ stackGetSize ex_hand + 13 > ex_hand.allocd ∧
    stackPushN ex_hand (List.replicate 13 7) 13 =
      .ok { cards := List.replicate 12 0, top := 13, allocd := 12 } := by
  refine ⟨by decide, by decide, ?_⟩
  rfl

/-! ## Random numbers -/

theorem rand_lt (r : Rng) : (rand r).1 ≤ RAND_MAX := by
  unfold rand RAND_MAX
  simp only
  omega

theorem toUint32_le {n : Nat} {err : ℚ} (h1 : err ≤ 1) :
    toUint32 ((n : ℚ) * err) ≤ n := by
  unfold toUint32
  have hf : Rat.floor ((n : ℚ) * err) ≤ (n : Int) := by
    by_contra hc
    push_neg at hc
    have h2 : ((n : Int) + 1 : Int) ≤ Rat.floor ((n : ℚ) * err) := hc
    rw [Rat.le_floor] at h2
    have h3 : (n : ℚ) * err ≤ n := by
      have hn0 : (0 : ℚ) ≤ n := Nat.cast_nonneg n
      nlinarith
    push_cast at h2
    linarith
  have h2 : (Rat.floor ((n : ℚ) * err)).toNat ≤ n := by omega
  exact le_trans (Nat.mod_le _ _) h2

theorem toUint32_lt {n : Nat} {err : ℚ} (h1 : err < 1) (hn : 0 < n) :
    toUint32 ((n : ℚ) * err) < n := by
  unfold toUint32
  have hf : Rat.floor ((n : ℚ) * err) < (n : Int) := by
    by_contra hc
    push_neg at hc
    rw [Rat.le_floor] at hc
    have hn0 : (0 : ℚ) < n := Nat.cast_pos.mpr hn
    push_cast at hc
    nlinarith
  have h2 : (Rat.floor ((n : ℚ) * err)).toNat < n := by omega
  exact lt_of_le_of_lt (Nat.mod_le _ _) h2

/-- With an error in `0 .. 1` and `n` small, `randi` returns a value between `n - e` and
`n + e`, where `e ≤ n`; with an error below 1 and `n` positive the value is positive. -/
theorem randi_spec (n : Nat) (err : ℚ) (r : Rng) (h1 : err ≤ 1)
    (hn : n < 1000000) :
    ∃ v r1, randi n err r = .ok (v, r1) ∧ v ≤ 2 * n ∧ (err < 1 → 0 < n → 0 < v) := by
  have he := @toUint32_le n err h1
  unfold randi
  simp only
  by_cases hz : toUint32 ((n : ℚ) * err) = 0
  · rw [if_pos hz]
    exact ⟨n, r, rfl, by omega, fun _ h => h⟩
  · rw [if_neg hz]
    have hm : 2 * toUint32 ((n : ℚ) * err) % UINT32_MOD = 2 * toUint32 ((n : ℚ) * err) := by
      apply Nat.mod_eq_of_lt; unfold UINT32_MOD; omega
    rw [hm, if_neg (by omega)]
    refine ⟨_, _, rfl, ?_, ?_⟩
    · have hx := Nat.mod_lt (rand r).1 (show 2 * toUint32 ((n : ℚ) * err) > 0 by omega)
      unfold u32_sub UINT32_MOD
      omega
    · intro h1' hpos
      have he' := toUint32_lt h1' hpos
      have hx := Nat.mod_lt (rand r).1 (show 2 * toUint32 ((n : ℚ) * err) > 0 by omega)
      unfold u32_sub UINT32_MOD
      omega

theorem playerGetError_bounds {p : player_t} (h : p.wf) :
    0 ≤ playerGetError p ∧ playerGetError p < 1 := by
  obtain ⟨_, _, h1, h2, h3, h4⟩ := h
  unfold MIND_MIN_SKILL at h1
  unfold MIND_MAX_SKILL at h2
  unfold playerGetError
  constructor
  · apply mul_nonneg <;> linarith
  · nlinarith

/-! ## Blocks of a buffer -/

theorem readN_append (A X R : List Nat) : readN (A ++ X ++ R) A.length X.length = X := by
  unfold readN
  rw [List.append_assoc, List.drop_left, List.take_left]

theorem writeN_append (A X R Y : List Nat) (h : Y.length = X.length) :
    writeN (A ++ X ++ R) A.length Y = A ++ Y ++ R := by
  unfold writeN
  have h1 : List.take A.length (A ++ X ++ R) = A := by
    rw [List.append_assoc, List.take_left]
  have h2 : List.drop (A.length + Y.length) (A ++ X ++ R) = R := by
    rw [h, ← List.length_append, List.drop_left]
  rw [h1, h2]
  apply List.take_of_length_le
  simp [h]

theorem split_block (l : List Nat) (a n : Nat) (h : a + n ≤ l.length) :
    ∃ A X R, l = A ++ X ++ R ∧ A.length = a ∧ X.length = n := by
  refine ⟨l.take a, (l.drop a).take n, l.drop (a + n), ?_, ?_, ?_⟩
  · rw [List.append_assoc, ← List.drop_drop, List.take_append_drop, List.take_append_drop]
  · simp; omega
  · simp; omega

/-- Exchanging two blocks of `n` cells that do not overlap permutes the buffer, whichever of the
two is written first. -/
theorem blockSwap_perm (l : List Nat) (a b n : Nat) (hab : a + n ≤ b) (hb : b + n ≤ l.length) :
    (writeN (writeN l b (readN l a n)) a (readN l b n)).Perm l ∧
    (writeN (writeN l a (readN l b n)) b (readN l a n)).Perm l := by
  obtain ⟨A, X, R, hl, hA, hX⟩ := split_block l a n (by omega)
  have hR : (b - a - n) + n ≤ R.length := by
    have : l.length = A.length + X.length + R.length := by rw [hl]; simp; omega
    omega
  obtain ⟨B, Y, C, hR2, hB, hY⟩ := split_block R (b - a - n) n hR
  subst hR2
  have hb' : b = (A ++ X ++ B).length := by simp; omega
  have e1 : l = (A ++ X ++ B) ++ Y ++ C := by rw [hl]; simp
  have e2 : l = A ++ X ++ (B ++ Y ++ C) := hl
  have rX : readN l a n = X := by rw [e2, ← hA, ← hX]; exact readN_append _ _ _
  have rY : readN l b n = Y := by rw [e1, hb', ← hY]; exact readN_append _ _ _
  rw [rX, rY]
  have w1 : writeN l b X = (A ++ X ++ B) ++ X ++ C := by
    rw [e1, hb']; exact writeN_append _ _ _ _ (by omega)
  have w2 : writeN l a Y = A ++ Y ++ (B ++ Y ++ C) := by
    rw [e2, ← hA]; exact writeN_append _ _ _ _ (by omega)
  have w3 : writeN ((A ++ X ++ B) ++ X ++ C) a Y = A ++ Y ++ (B ++ X ++ C) := by
    have : (A ++ X ++ B) ++ X ++ C = A ++ X ++ (B ++ X ++ C) := by simp
    rw [this, ← hA]; exact writeN_append _ _ _ _ (by omega)
  have w4 : writeN (A ++ Y ++ (B ++ Y ++ C)) b X = (A ++ Y ++ B) ++ X ++ C := by
    have : A ++ Y ++ (B ++ Y ++ C) = (A ++ Y ++ B) ++ Y ++ C := by simp
    have hb2 : b = (A ++ Y ++ B).length := by simp; omega
    rw [this, hb2]; exact writeN_append _ _ _ _ (by omega)
  have hp : (A ++ Y ++ (B ++ X ++ C)).Perm l := by
    rw [e2]
    simp only [List.append_assoc]
    apply List.Perm.append_left
    have p1 : (Y ++ (B ++ (X ++ C))).Perm ((Y ++ B) ++ X ++ C) := by simp
    have p2 : (X ++ (B ++ (Y ++ C))).Perm ((X ++ B) ++ Y ++ C) := by simp
    refine p1.trans (List.Perm.trans ?_ p2.symm)
    apply List.Perm.append_right
    calc (Y ++ B ++ X).Perm (X ++ (Y ++ B)) := List.perm_append_comm
      _ = (X ++ Y) ++ B := by simp
      _ |>.Perm ((Y ++ X) ++ B) := List.Perm.append_right _ List.perm_append_comm
      _ = Y ++ (X ++ B) := by simp
      _ |>.Perm ((X ++ B) ++ Y) := List.perm_append_comm
  constructor
  · rw [w1, w3]; exact hp
  · rw [w2, w4]
    have : A ++ Y ++ B ++ X ++ C = A ++ Y ++ (B ++ X ++ C) := by simp
    rw [this]; exact hp

/-! ## deckShmush -/

theorem shmushLoop_spec (fuel : Nat) :
    ∀ (cards temp : List Nat) (r : Rng), cards.length = MIND_DECK_SIZE →
      temp.length = MIND_DECK_SIZE →
      ∃ cards1 r1, shmushLoop MIND_DECK_SIZE fuel cards temp r = .ok (cards1, r1) ∧
        cards1.Perm cards ∧ cards1.length = MIND_DECK_SIZE := by
  induction fuel with
  | zero =>
    intro cards temp r hc _
    exact ⟨cards, r, rfl, List.Perm.refl _, hc⟩
  | succ k ih =>
    intro cards temp r hc ht
    unfold shmushLoop
    simp only
    generalize hx1 : (rand r).1 = x1
    generalize hr1 : (rand r).2 = r1
    generalize hx2 : (rand r1).1 = x2
    generalize hr2 : (rand r1).2 = r2
    generalize hx3 : (rand r2).1 = x3
    generalize hr3 : (rand r2).2 = r3
    have h8 : MIND_DECK_SIZE / 8 = 12 := by decide
    rw [h8]
    have hn1 : x1 % 12 < 12 := Nat.mod_lt _ (by omega)
    have hn : (x1 % 12 + 8) % UINT32_MOD = x1 % 12 + 8 := by
      apply Nat.mod_eq_of_lt; unfold UINT32_MOD; omega
    rw [hn]
    generalize hnn : x1 % 12 + 8 = n at *
    have hm2 : u32_sub MIND_DECK_SIZE n = 100 - n := by
      unfold u32_sub UINT32_MOD MIND_DECK_SIZE; omega
    have h3n : 3 * n % UINT32_MOD = 3 * n := by
      apply Nat.mod_eq_of_lt; unfold UINT32_MOD; omega
    have hm3 : u32_sub MIND_DECK_SIZE (3 * n) = 100 - 3 * n := by
      unfold u32_sub UINT32_MOD MIND_DECK_SIZE; omega
    rw [h3n, hm2, hm3, if_neg (by omega), if_neg (by omega), if_neg (by omega)]
    have hsrc : x2 % (100 - n) < 100 - n := Nat.mod_lt _ (by omega)
    have hdst : x3 % (100 - 3 * n) < 100 - 3 * n := Nat.mod_lt _ (by omega)
    generalize x2 % (100 - n) = src at *
    generalize x3 % (100 - 3 * n) = dst at *
    generalize hd1 : (if (if src > dst then src - dst else dst - src) < n then dst + 2 * n
      else dst) = dst1
    have hdst1 : dst1 + n ≤ 100 ∧ (src + n ≤ dst1 ∨ dst1 + n ≤ src) := by
      rw [← hd1]
      split_ifs <;> omega
    have hD : MIND_DECK_SIZE = 100 := rfl
    have hlen1 : (memcpy_s temp 0 MIND_DECK_SIZE cards dst1 n).length = MIND_DECK_SIZE := by
      rw [length_memcpy_s]; exact ht
    have hrd : readN cards dst1 n = readN cards dst1 n := rfl
    have hlr : (readN cards dst1 n).length = n := length_readN_of_le (by omega)
    have hlr2 : (readN cards src n).length = n := length_readN_of_le (by omega)
    have ht1 : readN (memcpy_s temp 0 MIND_DECK_SIZE cards dst1 n) 0 n = readN cards dst1 n := by
      rw [memcpy_s_of_le (by omega)]
      have := @readN_writeN_same temp 0 (readN cards dst1 n) (by omega)
      rw [hlr] at this
      exact this
    have hc2 : memcpy_s (memcpy_s cards dst1 MIND_DECK_SIZE cards src n) src MIND_DECK_SIZE
        (memcpy_s temp 0 MIND_DECK_SIZE cards dst1 n) 0 n
        = writeN (writeN cards dst1 (readN cards src n)) src (readN cards dst1 n) := by
      rw [memcpy_s_of_le (by omega), memcpy_s_of_le (by omega), ht1]
    rw [hc2]
    have hperm : (writeN (writeN cards dst1 (readN cards src n)) src (readN cards dst1 n)).Perm
        cards := by
      rcases hdst1.2 with h | h
      · exact (blockSwap_perm cards src dst1 n h (by omega)).1
      · exact (blockSwap_perm cards dst1 src n h (by omega)).2
    have hlen2 : (writeN (writeN cards dst1 (readN cards src n)) src
        (readN cards dst1 n)).length = MIND_DECK_SIZE := by
      rw [length_writeN, length_writeN]; exact hc
    obtain ⟨cards1, r4, hok, hp, hl⟩ := ih _ _ r3 hlen2 hlen1
    exact ⟨cards1, r4, hok, hp.trans hperm, hl⟩

/-- On a full deck `deckShmush` returns, and the deck it returns holds a permutation of the
cards. -/
theorem deckShmush_spec (deck : stack_t) (r : Rng) (hw : deck.wf)
    (ha : deck.allocd = MIND_DECK_SIZE) (ht : deck.top = MIND_DECK_SIZE) :
    ∃ deck1 r1, deckShmush deck r = .ok (deck1, r1) ∧ deck1.wf ∧
      deck1.allocd = MIND_DECK_SIZE ∧ deck1.top = MIND_DECK_SIZE ∧
      deck1.contents.Perm deck.contents := by
  have hsz := stackGetSize_of_wf hw
  obtain ⟨h1, h2, h3⟩ := hw
  unfold deckShmush
  simp only
  rw [hsz, ht]
  obtain ⟨cards1, r1, hok, hp, hl⟩ := shmushLoop_spec (((rand r).1 % (16 - 8) + 8) % UINT8_MOD)
    deck.cards (List.replicate MIND_DECK_SIZE 0) (rand r).2 (by omega) (by simp)
  rw [hok]
  refine ⟨_, _, rfl, ⟨by simp; omega, by simp; omega, h3⟩, ha, rfl, ?_⟩
  simp only [stack_t.contents, ht]
  rw [List.take_of_length_le (by omega), List.take_of_length_le (by omega)]
  exact hp

/-! ## deckRuffle -/

theorem Interleave.perm {a b l : List Nat} (h : Interleave a b l) : l.Perm (a ++ b) := by
  induction h with
  | nil => exact List.Perm.refl _
  | left x _ ih => exact List.Perm.cons x ih
  | right x _ ih => exact (List.Perm.cons x ih).trans List.perm_middle.symm

theorem Interleave.nil_left (b : List Nat) : Interleave [] b b := by
  induction b with
  | nil => exact Interleave.nil
  | cons x b ih => exact Interleave.right x ih

theorem Interleave.nil_right (a : List Nat) : Interleave a [] a := by
  induction a with
  | nil => exact Interleave.nil
  | cons x a ih => exact Interleave.left x ih

theorem drop_append_length {A B : List Nat} {i : Nat} (h : A.length = i) :
    (A ++ B).drop i = B := by
  rw [← h, List.drop_left]

theorem take_set_self (l : List Nat) (i c : Nat) : (l.set i c).take i = l.take i :=
  List.ext_getElem? fun j => by
    rw [List.getElem?_take, List.getElem?_take]
    split
    · rw [List.getElem?_set_ne (by omega)]
    · rfl

theorem drop_of_take_succ {l t : List Nat} {i c : Nat} (hi : i < l.length)
    (hi2 : i < t.length) (h : l.take (i + 1) = (t.set i c).take (i + 1)) (n : Nat)
    (hn : i < n) :
    l.take i = t.take i ∧ (l.take n).drop i = c :: (l.take n).drop (i + 1) := by
  have hc : l[i]? = some c := by
    have h1 : (l.take (i + 1))[i]? = ((t.set i c).take (i + 1))[i]? := by rw [h]
    rw [List.getElem?_take, List.getElem?_take, if_pos (by omega), if_pos (by omega)] at h1
    rw [h1, List.getElem?_set_self hi2]
  constructor
  · have h1 : (l.take (i + 1)).take i = ((t.set i c).take (i + 1)).take i := by rw [h]
    rw [List.take_take, List.take_take, Nat.min_eq_left (by omega)] at h1
    rw [h1, take_set_self]
  · have hlt : i < (l.take n).length := by simp; omega
    rw [List.drop_eq_getElem_cons hlt]
    congr 1
    have h2 : (l.take n)[i]? = some c := by
      rw [List.getElem?_take, if_pos hn]; exact hc
    rw [List.getElem?_eq_getElem hlt] at h2
    exact Option.some.inj h2

theorem ruffleLoop_spec (deck : stack_t) (half_deck : Nat) (skill : ℚ)
    (hlen : deck.top ≤ deck.cards.length) (htop : deck.top ≤ MIND_DECK_SIZE)
    (hhalf : half_deck ≤ deck.top) (fuel : Nat) :
    ∀ (i h0 h1 i_halfs : Nat) (temp : List Nat) (r : Rng),
      h0 ≤ half_deck → half_deck ≤ h1 → h1 ≤ deck.top → i + half_deck = h0 + h1 →
      fuel + i = deck.top → temp.length = MIND_DECK_SIZE →
      (ruffleLoop deck half_deck skill deck.top fuel i h0 h1 i_halfs temp r).1.length
        = MIND_DECK_SIZE ∧
      (ruffleLoop deck half_deck skill deck.top fuel i h0 h1 i_halfs temp r).1.take i
        = temp.take i ∧
      Interleave ((deck.cards.take half_deck).drop h0) ((deck.cards.take deck.top).drop h1)
        (((ruffleLoop deck half_deck skill deck.top fuel i h0 h1 i_halfs temp r).1.take
          deck.top).drop i) := by
  have hD : MIND_DECK_SIZE = 100 := rfl
  induction fuel with
  | zero =>
    intro i h0 h1 i_halfs temp r hh0 hh1 hh1t hi hf ht
    have e0 : h0 = half_deck := by omega
    have e1 : h1 = deck.top := by omega
    have ei : i = deck.top := by omega
    subst e0 e1
    unfold ruffleLoop
    refine ⟨ht, rfl, ?_⟩
    rw [List.drop_eq_nil_of_le (by simp), List.drop_eq_nil_of_le (by simp),
      List.drop_eq_nil_of_le (by simp; omega)]
    exact Interleave.nil
  | succ k ih =>
    intro i h0 h1 i_halfs temp r hh0 hh1 hh1t hi hf ht
    unfold ruffleLoop
    by_cases c0 : h0 ≥ half_deck
    · rw [if_pos c0]
      simp only
      have ei : i = h1 := by omega
      subst ei
      have hu : u32_sub deck.top i = deck.top - i := by
        unfold u32_sub UINT32_MOD; omega
      have hs : size_sub deck.top i = deck.top - i := by
        unfold size_sub SIZE_MOD; omega
      rw [hu, hs, memcpy_s_of_le (le_refl _)]
      have hl : (readN deck.cards i (deck.top - i)).length = deck.top - i :=
        length_readN_of_le (by omega)
      refine ⟨by rw [length_writeN]; exact ht, take_writeN_below (le_refl _), ?_⟩
      have h1 : (writeN temp i (readN deck.cards i (deck.top - i))).take deck.top
          = temp.take i ++ readN deck.cards i (deck.top - i) := by
        have := @take_writeN temp i (readN deck.cards i (deck.top - i)) (by omega)
        rw [hl] at this
        rw [← this]; congr 1; omega
      have h2 : (temp.take i).length = i := by simp; omega
      rw [h1, drop_append_length h2]
      have h3 : readN deck.cards i (deck.top - i) = (deck.cards.take deck.top).drop i := by
        unfold readN; rw [List.drop_take]
      rw [h3, List.drop_eq_nil_of_le (by simp; omega)]
      exact Interleave.nil_left _
    · rw [if_neg c0]
      by_cases c1 : h1 ≥ deck.top
      · rw [if_pos c1]
        simp only
        have e1 : h1 = deck.top := by omega
        subst e1
        have hu : u32_sub deck.top i = half_deck - h0 := by
          unfold u32_sub UINT32_MOD; omega
        have hs : size_sub half_deck h0 = half_deck - h0 := by
          unfold size_sub SIZE_MOD; omega
        rw [hu, hs, memcpy_s_of_le (le_refl _)]
        have hl : (readN deck.cards h0 (half_deck - h0)).length = half_deck - h0 :=
          length_readN_of_le (by omega)
        refine ⟨by rw [length_writeN]; exact ht, take_writeN_below (le_refl _), ?_⟩
        have h1 : (writeN temp i (readN deck.cards h0 (half_deck - h0))).take deck.top
            = temp.take i ++ readN deck.cards h0 (half_deck - h0) := by
          have := @take_writeN temp i (readN deck.cards h0 (half_deck - h0)) (by omega)
          rw [hl] at this
          rw [← this]; congr 1; omega
        have h2 : (temp.take i).length = i := by simp; omega
        rw [h1, drop_append_length h2]
        have h3 : readN deck.cards h0 (half_deck - h0) = (deck.cards.take half_deck).drop h0 := by
          unfold readN; rw [List.drop_take]
        have hB : (deck.cards.take deck.top).drop deck.top = [] :=
          List.drop_eq_nil_of_le (by simp)
        rw [h3, hB]
        exact Interleave.nil_right _
      · rw [if_neg c1]
        simp only
        have hi_lt : i < deck.top := by omega
        generalize (i_halfs + if (randf 0 1 r).1 < skill then 1 else 0) % 2 = ih1
        by_cases hz : ih1 = 0
        · rw [if_pos hz]
          obtain ⟨hl, ht2, hint⟩ := ih (i + 1) (h0 + 1) h1 ih1
            (temp.set i (deck.cards.getD h0 0)) (randf 0 1 r).2
            (by omega) hh1 hh1t (by omega) (by omega) (by simp [ht])
          obtain ⟨e1, e2⟩ := drop_of_take_succ (by omega) (by omega) ht2 deck.top hi_lt
          refine ⟨hl, e1, ?_⟩
          rw [e2]
          have hh : h0 < (deck.cards.take half_deck).length := by simp; omega
          rw [List.drop_eq_getElem_cons hh]
          have hc : (deck.cards.take half_deck)[h0] = deck.cards.getD h0 0 := by
            rw [List.getElem_take, List.getD_eq_getElem?_getD,
              List.getElem?_eq_getElem (by omega)]
            rfl
          rw [hc]
          exact Interleave.left _ hint
        · rw [if_neg hz]
          obtain ⟨hl, ht2, hint⟩ := ih (i + 1) h0 (h1 + 1) ih1
            (temp.set i (deck.cards.getD h1 0)) (randf 0 1 r).2
            hh0 (by omega) (by omega) (by omega) (by omega) (by simp [ht])
          obtain ⟨e1, e2⟩ := drop_of_take_succ (by omega) (by omega) ht2 deck.top hi_lt
          refine ⟨hl, e1, ?_⟩
          rw [e2]
          have hh : h1 < (deck.cards.take deck.top).length := by simp; omega
          rw [List.drop_eq_getElem_cons hh]
          have hc : (deck.cards.take deck.top)[h1] = deck.cards.getD h1 0 := by
            rw [List.getElem_take, List.getD_eq_getElem?_getD,
              List.getElem?_eq_getElem (by omega)]
            rfl
          rw [hc]
          exact Interleave.right _ hint

/-- The riffle of a well-formed deck of at most `MIND_DECK_SIZE` cards at any cut point inside
it: the deck keeps its capacity and its size and holds an interleaving of the two parts. -/
theorem deckRuffleAt_general (deck : stack_t) (hw : deck.wf) (ht : deck.top ≤ MIND_DECK_SIZE)
    (half_deck : Nat) (hh : half_deck ≤ deck.top) (skill : ℚ) (r : Rng) :
    (deckRuffleAt deck half_deck skill r).1.wf ∧
    (deckRuffleAt deck half_deck skill r).1.allocd = deck.allocd ∧
    (deckRuffleAt deck half_deck skill r).1.top = deck.top ∧
    Interleave (deck.contents.take half_deck) (deck.contents.drop half_deck)
      (deckRuffleAt deck half_deck skill r).1.contents := by
  have hsz := stackGetSize_of_wf hw
  obtain ⟨h1, h2, h3⟩ := hw
  have hD : MIND_DECK_SIZE = 100 := rfl
  obtain ⟨hl, -, hint⟩ := ruffleLoop_spec deck half_deck skill (by omega) (by omega) hh deck.top
    0 0 half_deck 0 (List.replicate MIND_DECK_SIZE 0) r (by omega) (le_refl _) hh (by omega)
    (by omega) (by simp)
  unfold deckRuffleAt
  simp only [hsz]
  generalize ruffleLoop deck half_deck skill deck.top deck.top 0 0 half_deck 0
    (List.replicate MIND_DECK_SIZE 0) r = res at *
  rw [memcpy_s_of_le (by omega)]
  refine ⟨⟨by simp [length_writeN]; exact h1, h2, h3⟩, trivial, trivial, ?_⟩
  have hr : (readN res.1 0 deck.top).length = deck.top := length_readN_of_le (by omega)
  have hc : (writeN deck.cards 0 (readN res.1 0 deck.top)).take deck.top
      = readN res.1 0 deck.top := by
    have := @take_writeN deck.cards 0 (readN res.1 0 deck.top) (by omega)
    rw [hr] at this
    simpa using this
  simp only [stack_t.contents]
  rw [hc]
  simp only [List.drop_zero] at hint
  have e : readN res.1 0 deck.top = List.take deck.top res.1 := by simp [readN]
  rw [e, List.take_take, Nat.min_eq_left hh]
  exact hint

theorem deckRuffleAt_spec (deck : stack_t) (hw : deck.wf) (ha : deck.allocd = MIND_DECK_SIZE)
    (half_deck : Nat) (hh : half_deck ≤ deck.top) (skill : ℚ) (r : Rng) :
    (deckRuffleAt deck half_deck skill r).1.wf ∧
    (deckRuffleAt deck half_deck skill r).1.allocd = MIND_DECK_SIZE ∧
    (deckRuffleAt deck half_deck skill r).1.top = deck.top ∧
    Interleave (deck.contents.take half_deck) (deck.contents.drop half_deck)
      (deckRuffleAt deck half_deck skill r).1.contents := by
  obtain ⟨a, b, c, d⟩ := deckRuffleAt_general deck hw (by have := hw.2.1; omega) half_deck hh
    skill r
  exact ⟨a, b.trans ha, c, d⟩

/-- For a well-formed player `deckRuffle` returns, and the deck it returns is an interleaving
of a lower and an upper part of the deck it was given. -/
theorem deckRuffle_spec (deck : stack_t) (hw : deck.wf) (ha : deck.allocd = MIND_DECK_SIZE)
    (player : player_t) (hp : player.wf) (r : Rng) :
    ∃ deck1 r1, deckRuffle deck player r = .ok (deck1, r1) ∧ deck1.wf ∧
      deck1.allocd = MIND_DECK_SIZE ∧ deck1.top = deck.top ∧
      deck1.contents.Perm deck.contents := by
  have hsz := stackGetSize_of_wf hw
  have hD : MIND_DECK_SIZE = 100 := rfl
  obtain ⟨he0, he1⟩ := playerGetError_bounds hp
  obtain ⟨v, r1, hok, hv, -⟩ := randi_spec (stackGetSize deck / 2) (playerGetError player) r
    (le_of_lt he1) (by rw [hsz]; have := hw.2.1; omega)
  unfold deckRuffle
  rw [hok]
  have hh : v ≤ deck.top := by rw [hsz] at hv; omega
  obtain ⟨g1, g2, g3, g4⟩ := deckRuffleAt_spec deck hw ha v hh player.skill r1
  refine ⟨_, _, rfl, g1, g2, g3, ?_⟩
  have := g4.perm
  rw [List.take_append_drop] at this
  exact this

/-! ## deckMultiCut -/

theorem take_drop_append (A B : List Nat) (s a : Nat) (hA : A.length = a) :
    ((A ++ B).take s).drop a = B.take (s - a) := by
  rw [List.drop_take, drop_append_length hA]

theorem take_readN_append (cards : List Nat) (p h : Nat) :
    cards.take p ++ readN cards p h = cards.take (p + h) := by
  unfold readN
  rw [List.take_add]

theorem multiCutLoop_spec (deck : stack_t) (err : ℚ) (n_reps : Nat)
    (hlen : deck.top ≤ deck.cards.length) (htop : deck.top ≤ MIND_DECK_SIZE)
    (he1 : err < 1) (hn : 0 < deck.top / n_reps) (fuel : Nat) :
    ∀ (acc half_deck : Nat) (temp : List Nat) (r : Rng),
      half_deck ≤ acc → acc - half_deck ≤ deck.top → acc ≤ 3 * deck.top →
      temp.length = MIND_DECK_SIZE → deck.top < fuel + acc →
      ((temp.take deck.top).drop (deck.top - (acc - half_deck))).Perm
        (deck.cards.take (acc - half_deck)) →
      ∃ acc1 half1 temp1 r1,
        multiCutLoop deck err deck.top n_reps fuel acc half_deck temp r
          = .ok (acc1, half1, temp1, r1) ∧
        half1 ≤ acc1 ∧ acc1 - half1 ≤ deck.top ∧ acc1 ≤ 3 * deck.top ∧
        temp1.length = MIND_DECK_SIZE ∧
        ((temp1.take deck.top).drop (deck.top - (acc1 - half1))).Perm
          (deck.cards.take (acc1 - half1)) := by
  have hD : MIND_DECK_SIZE = 100 := rfl
  induction fuel with
  | zero =>
    intro acc half_deck temp r h1 h2 h3 ht hf hp
    unfold multiCutLoop
    rw [if_neg (by omega)]
    exact ⟨_, _, _, _, rfl, h1, h2, h3, ht, hp⟩
  | succ k ih =>
    intro acc half_deck temp r h1 h2 h3 ht hf hp
    unfold multiCutLoop
    by_cases hc : acc < deck.top
    · rw [if_pos hc]
      simp only
      obtain ⟨v, r1, hok, hv, hpos⟩ := randi_spec (deck.top / n_reps) err r (le_of_lt he1)
        (by have := Nat.div_le_self deck.top n_reps; omega)
      have hvpos := hpos he1 hn
      rw [hok]
      simp only
      have hmod : (acc + v) % UINT32_MOD = acc + v := by
        apply Nat.mod_eq_of_lt
        have := Nat.div_le_self deck.top n_reps
        unfold UINT32_MOD; omega
      rw [hmod, memcpy_s_of_le (by omega)]
      have hX : (readN deck.cards (acc - half_deck) half_deck).length = half_deck :=
        length_readN_of_le (by omega)
      obtain ⟨A, X0, R, hsplit, hA, hX0⟩ := split_block temp (deck.top - acc) half_deck (by omega)
      have hw : writeN temp (deck.top - acc) (readN deck.cards (acc - half_deck) half_deck)
          = A ++ readN deck.cards (acc - half_deck) half_deck ++ R := by
        rw [hsplit, ← hA]; exact writeN_append _ _ _ _ (by omega)
      have hold : (temp.take deck.top).drop (deck.top - (acc - half_deck))
          = R.take (acc - half_deck) := by
        rw [hsplit, take_drop_append (A ++ X0) R deck.top _ (by simp; omega)]
        congr 1; omega
      rw [hold] at hp
      apply ih (acc + v) v _ r1 (by omega) (by omega)
        (by have := Nat.div_le_self deck.top n_reps; omega)
        (by rw [length_writeN]; exact ht) (by omega)
      rw [hw, List.append_assoc, take_drop_append A _ deck.top _ (by omega)]
      have e2 : deck.cards.take (acc + v - v)
          = deck.cards.take (acc - half_deck) ++ readN deck.cards (acc - half_deck) half_deck := by
        rw [take_readN_append deck.cards (acc - half_deck) half_deck]
        congr 1; omega
      rw [e2]
      generalize readN deck.cards (acc - half_deck) half_deck = X at *
      have e1 : deck.top - (deck.top - (acc + v - v)) = X.length + (acc - half_deck) := by
        omega
      rw [e1, List.take_append]
      exact List.perm_append_comm.trans (List.Perm.append_right _ hp)
    · rw [if_neg hc]
      exact ⟨_, _, _, _, rfl, h1, h2, h3, ht, hp⟩

/-- On a full deck and for a well-formed player `deckMultiCut` returns, and the deck it returns
holds a permutation of the cards. -/
theorem deckMultiCut_spec (deck : stack_t) (hw : deck.wf) (ha : deck.allocd = MIND_DECK_SIZE)
    (ht : deck.top = MIND_DECK_SIZE) (player : player_t) (hp : player.wf) (r : Rng) :
    ∃ deck1 r1, deckMultiCut deck player r = .ok (deck1, r1) ∧ deck1.wf ∧
      deck1.allocd = MIND_DECK_SIZE ∧ deck1.top = MIND_DECK_SIZE ∧
      deck1.contents.Perm deck.contents := by
  have hsz := stackGetSize_of_wf hw
  have hD : MIND_DECK_SIZE = 100 := rfl
  obtain ⟨he0, he1⟩ := playerGetError_bounds hp
  obtain ⟨h1, h2, h3⟩ := hw
  unfold deckMultiCut
  simp only [hsz]
  generalize hnr : ((rand r).1 % (6 - 2) + 2) % UINT8_MOD = n_reps
  have hnr2 : 2 ≤ n_reps ∧ n_reps ≤ 5 := by
    rw [← hnr]; unfold UINT8_MOD; omega
  have hdiv : 0 < deck.top / n_reps := by
    rw [ht, hD]; apply Nat.div_pos <;> omega
  obtain ⟨v, r1, hok, hv, -⟩ := randi_spec (deck.top / n_reps) (playerGetError player)
    (rand r).2 (le_of_lt he1) (by have := Nat.div_le_self deck.top n_reps; omega)
  rw [hok]
  simp only
  have hv2 : v ≤ 3 * deck.top := by have := Nat.div_le_self deck.top n_reps; omega
  obtain ⟨acc1, half1, temp1, r2, hloop, g1, g2, g3, g4, g5⟩ :=
    multiCutLoop_spec deck (playerGetError player) n_reps (by omega) (by omega) he1 hdiv
      (deck.top + r1.length + 1) v v (List.replicate MIND_DECK_SIZE 0) r1 (le_refl _)
      (by omega) hv2 (by simp) (by omega) (by simp)
  rw [hloop]
  simp only
  have hu : u32_sub acc1 half1 = acc1 - half1 := by
    unfold u32_sub UINT32_MOD; omega
  rw [hu]
  generalize hP : acc1 - half1 = P at *
  have hu2 : u32_sub deck.top P = deck.top - P := by
    unfold u32_sub UINT32_MOD; omega
  rw [hu2, memcpy_s_of_le (le_refl _), memcpy_s_of_le (by omega)]
  have hY : (readN deck.cards P (deck.top - P)).length = deck.top - P :=
    length_readN_of_le (by omega)
  obtain ⟨A, Y0, R, hsplit, hA, hY0⟩ := split_block temp1 0 (deck.top - P) (by omega)
  have hA0 : A = [] := List.length_eq_zero.mp hA
  subst hA0
  have hw1 : writeN temp1 0 (readN deck.cards P (deck.top - P))
      = [] ++ readN deck.cards P (deck.top - P) ++ R := by
    rw [hsplit]; exact writeN_append [] _ _ _ (by omega)
  have hold : (temp1.take deck.top).drop (deck.top - P) = R.take P := by
    rw [hsplit, take_drop_append ([] ++ Y0) R deck.top _ (by simp; omega)]
    congr 1; omega
  rw [hold] at g5
  have hlen1 : ([] ++ readN deck.cards P (deck.top - P) ++ R).length = MIND_DECK_SIZE := by
    rw [← hw1, length_writeN]; exact g4
  rw [hw1]
  generalize hT : [] ++ readN deck.cards P (deck.top - P) ++ R = T at *
  have hr : (readN T 0 deck.top).length = deck.top := length_readN_of_le (by omega)
  refine ⟨_, _, rfl, ⟨by simp [length_writeN]; exact h1, h2, h3⟩, ha, ht, ?_⟩
  simp only [stack_t.contents]
  have hc : (writeN deck.cards 0 (readN T 0 deck.top)).take deck.top = readN T 0 deck.top := by
    have := @take_writeN deck.cards 0 (readN T 0 deck.top) (by omega)
    rw [hr] at this
    simpa using this
  rw [hc]
  have e : readN T 0 deck.top = T.take deck.top := by simp [readN]
  rw [e, ← hT, List.nil_append]
  have e4 : deck.cards.take deck.top = deck.cards.take P ++ readN deck.cards P (deck.top - P) := by
    rw [take_readN_append deck.cards P (deck.top - P)]
    congr 1; omega
  rw [e4]
  generalize readN deck.cards P (deck.top - P) = Y at *
  have e3 : deck.top = Y.length + P := by omega
  have e5 : List.take deck.top (Y ++ R) = Y ++ List.take P R := by
    rw [e3, List.take_append]
  rw [e5]
  exact List.perm_append_comm.trans (List.Perm.append_right _ g5)

/-! ## playerDeckShuffle -/

theorem shuffleLoop_spec (player : player_t) (hp : player.wf) (fuel : Nat) :
    ∀ (deck : stack_t) (r : Rng), deck.wf → deck.allocd = MIND_DECK_SIZE →
      deck.top = MIND_DECK_SIZE →
      ∃ deck1 r1, shuffleLoop player fuel deck r = .ok (deck1, r1) ∧ deck1.wf ∧
        deck1.allocd = MIND_DECK_SIZE ∧ deck1.top = MIND_DECK_SIZE ∧
        deck1.contents.Perm deck.contents := by
  induction fuel with
  | zero =>
    intro deck r hw ha ht
    exact ⟨deck, r, rfl, hw, ha, ht, List.Perm.refl _⟩
  | succ k ih =>
    intro deck r hw ha ht
    obtain ⟨d1, r1, e1, w1, a1, t1, p1⟩ := deckRuffle_spec deck hw ha player hp r
    obtain ⟨d2, r2, e2, w2, a2, t2, p2⟩ := deckMultiCut_spec d1 w1 a1 (t1.trans ht) player hp r1
    obtain ⟨d3, r3, e3, w3, a3, t3, p3⟩ := deckShmush_spec d2 r2 w2 a2 t2
    obtain ⟨d4, r4, e4, w4, a4, t4, p4⟩ := ih d3 r3 w3 a3 t3
    unfold shuffleLoop
    rw [e1]; simp only
    rw [e2]; simp only
    rw [e3]; simp only
    exact ⟨d4, r4, e4, w4, a4, t4, p4.trans (p3.trans (p2.trans p1))⟩

/-- On a full deck and for a well-formed player `playerDeckShuffle` returns, and the deck it
returns is full and holds a permutation of the cards. -/
theorem playerDeckShuffle_spec (deck : stack_t) (player : player_t) (r : Rng) (hw : deck.wf)
    (ha : deck.allocd = MIND_DECK_SIZE) (ht : deck.top = MIND_DECK_SIZE) (hp : player.wf) :
    ∃ deck1 r1, playerDeckShuffle deck player r = .ok (deck1, r1) ∧ deck1.wf ∧
      deck1.allocd = MIND_DECK_SIZE ∧ deck1.top = MIND_DECK_SIZE ∧
      deck1.contents.Perm deck.contents :=
  shuffleLoop_spec player hp 7 deck r hw ha ht

/-! ## Sorting -/

theorem reverseCompare_le (a b : Nat) : reverseCompare a b ≤ 0 ↔ a ≥ b := by
  unfold reverseCompare; omega

theorem qsort_spec (temp : List Nat) (n : Nat) (h : temp.length = n) :
    (qsort temp n reverseCompare).Perm temp ∧ (qsort temp n reverseCompare).length = n ∧
    (qsort temp n reverseCompare).Sorted (· ≥ ·) := by
  unfold qsort
  rw [List.take_of_length_le (by omega), List.drop_eq_nil_of_le (by omega), List.append_nil]
  haveI : IsTotal Nat (fun a b => reverseCompare a b ≤ 0) :=
    ⟨fun a b => by simp only [reverseCompare_le]; exact le_total b a⟩
  haveI : IsTrans Nat (fun a b => reverseCompare a b ≤ 0) :=
    ⟨fun a b c => by simp only [reverseCompare_le]; intro h1 h2; exact le_trans h2 h1⟩
  refine ⟨List.perm_insertionSort _ _, ?_, ?_⟩
  · rw [List.length_insertionSort]; exact h
  · have := List.sorted_insertionSort (fun a b => reverseCompare a b ≤ 0) temp
    exact List.Pairwise.imp (fun {a b} hab => (reverseCompare_le a b).mp hab) this

theorem sorted_ge_getLast {l : List Nat} (h : l.Sorted (· ≥ ·)) {c : Nat}
    (hc : l.getLast? = some c) : ∀ x ∈ l, c ≤ x := by
  intro x hx
  obtain ⟨l1, rfl⟩ : ∃ l1, l = l1 ++ [c] := by
    have hne : l ≠ [] := by intro h0; rw [h0] at hc; simp at hc
    refine ⟨l.dropLast, ?_⟩
    have := List.dropLast_append_getLast? c hc
    exact this.symm
  rw [List.mem_append] at hx
  rcases hx with hx | hx
  · have := (List.pairwise_append.mp h).2.2 x hx c (by simp)
    exact this
  · simp at hx; omega

/-! ## Dealing -/

theorem handCards_nil : handCards [] = [] := rfl

theorem handCards_cons (p : player_t) (ps : List player_t) :
    handCards (p :: ps) = p.hand.contents ++ handCards ps := by
  simp [handCards]

theorem handSizes_nil : handSizes [] = 0 := rfl

theorem handSizes_cons (p : player_t) (ps : List player_t) :
    handSizes (p :: ps) = stackGetSize p.hand + handSizes ps := by
  simp [handSizes]

theorem readN_zero_full {l : List Nat} {n : Nat} (h : l.length = n) : readN l 0 n = l := by
  unfold readN
  rw [List.drop_zero, List.take_of_length_le (by omega)]

theorem dealLoop_spec (n_level n_players deck_size : Nat) (hn2 : n_level ≤ MIND_MAX_LEVEL)
    (hnp : n_level * n_players ≠ 0) (hds : deck_size ≤ MIND_DECK_SIZE) :
    ∀ (players : List player_t) (i : Nat) (deck : stack_t) (temp : List Nat) (r : Rng),
      deck.wf → temp.length = n_level → (∀ p ∈ players, p.wf ∧ p.hand.top = 0) →
      n_level * players.length ≤ deck.top →
      ∃ players1 deck1 temp1 r1,
        dealLoop n_level n_players deck_size players i deck temp r
          = .ok (players1, deck1, temp1, r1) ∧
        deck1.wf ∧ deck1.allocd = deck.allocd ∧
        deck1.top + n_level * players.length = deck.top ∧
        players1.length = players.length ∧
        (∀ p ∈ players1, p.wf ∧ p.hand.top = n_level ∧ p.hand.contents.Sorted (· ≥ ·)) ∧
        (deck1.contents ++ handCards players1).Perm deck.contents := by
  have hM : MIND_MAX_LEVEL = 12 := rfl
  have hD : MIND_DECK_SIZE = 100 := rfl
  intro players
  induction players with
  | nil =>
    intro i deck temp r hw ht hp hcap
    refine ⟨[], deck, temp, r, rfl, hw, rfl, by simp, rfl, by simp, ?_⟩
    simp [handCards_nil]
  | cons p ps ih =>
    intro i deck temp r hw ht hp hcap
    obtain ⟨⟨hpw, hpa, hs1, hs2, hf1, hf2⟩, hp0⟩ := hp p (List.mem_cons_self _ _)
    have hlen : (p :: ps).length = ps.length + 1 := rfl
    have hnt : n_level ≤ deck.top := by
      rw [hlen, Nat.mul_add] at hcap; omega
    have hX : (readN deck.cards (deck.top - n_level) n_level).length = n_level :=
      length_readN_top hw hnt
    have hXc := readN_top deck hnt
    obtain ⟨q1, q2, q3⟩ := qsort_spec (readN deck.cards (deck.top - n_level) n_level) n_level hX
    obtain ⟨he0, he1⟩ := playerGetError_bounds ⟨hpw, hpa, hs1, hs2, hf1, hf2⟩
    obtain ⟨v, r1, hok, -, -⟩ := randi_spec ((deck_size / (n_level * n_players)) % UINT32_MOD)
      (playerGetError p) r (le_of_lt he1)
      (by have := Nat.mod_le (deck_size / (n_level * n_players)) UINT32_MOD
          have := Nat.div_le_self deck_size (n_level * n_players)
          omega)
    have hw1 : ({ deck with top := deck.top - n_level } : stack_t).wf := wf_pop hw n_level
    obtain ⟨rest1, deck2, temp3, r2, hrec, g1, g2, g3, g4, g5, g6⟩ :=
      ih (i + 1) { deck with top := deck.top - n_level }
        (qsort (readN deck.cards (deck.top - n_level) n_level) n_level reverseCompare) r1
        hw1 q2 (fun q hq => hp q (List.mem_cons_of_mem _ hq))
        (by simp only; rw [hlen, Nat.mul_add] at hcap; omega)
    have hpush : stackPushN p.hand
        (qsort (readN deck.cards (deck.top - n_level) n_level) n_level reverseCompare) n_level
        = .ok { p.hand with
                cards := writeN p.hand.cards p.hand.top
                  (qsort (readN deck.cards (deck.top - n_level) n_level) n_level reverseCompare)
                top := p.hand.top + n_level } := by
      rw [stackPushN_eq hpw _ (by omega), if_pos (by omega)]
      rw [readN_zero_full q2]
    unfold dealLoop
    rw [stackPopN_eq hw, if_pos hnt]
    simp only [dropState]
    rw [writeN_zero_full (by omega), hpush]
    simp only [dropState]
    rw [if_neg hnp, hok]
    simp only
    rw [hrec]
    simp only
    generalize hS : qsort (readN deck.cards (deck.top - n_level) n_level) n_level
      reverseCompare = S at *
    have hhw : ({ p.hand with cards := writeN p.hand.cards p.hand.top S,
                              top := p.hand.top + n_level } : stack_t).wf :=
      wf_push hpw (by omega)
    have hhc : ({ p.hand with cards := writeN p.hand.cards p.hand.top S,
                              top := p.hand.top + n_level } : stack_t).contents = S := by
      have := @contents_push p.hand hpw S (by omega)
      rw [q2] at this
      rw [this]
      simp [stack_t.contents, hp0]
    refine ⟨_, _, _, _, rfl, g1, g2, ?_, by simp [g4], ?_, ?_⟩
    · simp only at g3; rw [hlen, Nat.mul_add]; omega
    · intro q hq
      rcases List.mem_cons.mp hq with rfl | hq
      · refine ⟨⟨hhw, hpa, hs1, hs2, by norm_num, by norm_num⟩, by simp [hp0], ?_⟩
        simp only
        rw [hhc]; exact q3
      · exact g5 q hq
    · rw [handCards_cons]
      simp only
      rw [hhc]
      have e1 : ({ deck with top := deck.top - n_level } : stack_t).contents
          = deck.contents.take (deck.top - n_level) := contents_pop deck n_level
      rw [e1] at g6
      have e2 : deck.contents
          = deck.contents.take (deck.top - n_level) ++ deck.contents.drop (deck.top - n_level) :=
        (List.take_append_drop _ _).symm
      rw [hXc] at q1
      calc (deck2.contents ++ (S ++ handCards rest1)).Perm
            ((deck2.contents ++ handCards rest1) ++ S) := by
              rw [List.append_assoc]
              exact List.Perm.append_left _ List.perm_append_comm
        _ |>.Perm (deck.contents.take (deck.top - n_level)
              ++ deck.contents.drop (deck.top - n_level)) := List.Perm.append g6 q1
        _ = deck.contents := e2.symm

theorem dealLoop_ok_le (n_level n_players deck_size : Nat) :
    ∀ (players : List player_t) (i : Nat) (deck : stack_t) (temp : List Nat) (r : Rng)
      (res : List player_t × stack_t × List Nat × Rng),
      deck.wf → dealLoop n_level n_players deck_size players i deck temp r = .ok res →
      n_level * players.length ≤ deck.top := by
  intro players
  induction players with
  | nil => intro i deck temp r res _ _; simp
  | cons p ps ih =>
    intro i deck temp r res hw h
    unfold dealLoop at h
    rw [stackPopN_eq hw] at h
    by_cases hnt : n_level ≤ deck.top
    · rw [if_pos hnt] at h
      simp only [dropState] at h
      split at h
      · exact absurd h (by simp)
      · split at h
        · exact absurd h (by simp)
        · split at h
          · exact absurd h (by simp)
          · split at h
            · exact absurd h (by simp)
            · rename_i heq
              have := ih _ _ _ _ _ (wf_pop hw n_level) heq
              simp only at this
              have hlen : (p :: ps).length = ps.length + 1 := rfl
              rw [hlen, Nat.mul_add]; omega
    · rw [if_neg hnt] at h
      simp [dropState] at h

/-! ## gameLevelSetup -/

theorem handSizes_const (players : List player_t) (n : Nat)
    (h : ∀ p ∈ players, p.wf ∧ p.hand.top = n) : handSizes players = n * players.length := by
  induction players with
  | nil => simp [handSizes_nil]
  | cons p ps ih =>
    rw [handSizes_cons, ih (fun q hq => h q (List.mem_cons_of_mem _ hq))]
    obtain ⟨hw, ht⟩ := h p (List.mem_cons_self _ _)
    rw [stackGetSize_of_wf hw.1, ht, List.length_cons, Nat.mul_add]
    omega

theorem gameLevelSetup_core (game : game_t) (n_level : Nat) (r : Rng) (hg : SetupReady game)
    (hn1 : 1 ≤ n_level) (hn2 : n_level ≤ MIND_MAX_LEVEL) :
    (n_level * game.n_players ≤ MIND_DECK_SIZE →
      ∃ game1 r1, gameLevelSetup game n_level r = .ok (game1, r1) ∧
        game1.pile = game.pile ∧ game1.n_players = game.n_players ∧
        game1.players.length = game.n_players ∧
        game1.deck.wf ∧ game1.deck.allocd = MIND_DECK_SIZE ∧
        game1.deck.top + n_level * game.n_players = MIND_DECK_SIZE ∧
        (∀ p ∈ game1.players, p.wf ∧ p.hand.top = n_level ∧ p.hand.contents.Sorted (· ≥ ·)) ∧
        (game1.deck.contents ++ handCards game1.players).Perm game.deck.contents ∧
        game1.level = { n := n_level, n_cards := n_level * game.n_players,
                        is_over := false, status := false }) ∧
    (∀ res, gameLevelSetup game n_level r = .ok res →
      n_level * game.n_players ≤ MIND_DECK_SIZE) := by
  obtain ⟨hlen, hpos, hw, ha, ht, hp⟩ := hg
  have hD : MIND_DECK_SIZE = 100 := rfl
  have hidx : n_level % game.n_players < game.players.length := by
    rw [hlen]; exact Nat.mod_lt _ hpos
  have hsh : game.players[n_level % game.n_players]?
      = some (game.players[n_level % game.n_players]) := List.getElem?_eq_getElem hidx
  have hshw := (hp _ (List.getElem_mem hidx)).1
  obtain ⟨d1, r1, e1, w1, a1, t1, p1⟩ := playerDeckShuffle_spec game.deck
    (game.players[n_level % game.n_players]) r hw ha ht hshw
  have hsz1 : stackGetSize d1 = MIND_DECK_SIZE := by rw [stackGetSize_of_wf w1, t1]
  have hnp : n_level * game.n_players ≠ 0 := Nat.mul_ne_zero (by omega) (by omega)
  unfold gameLevelSetup
  rw [if_neg (by omega), hsh]
  simp only
  rw [e1]
  simp only
  rw [hsz1]
  constructor
  · intro hcap
    obtain ⟨ps1, d2, t2, r2, e2, g1, g2, g3, g4, g5, g6⟩ :=
      dealLoop_spec n_level game.n_players MIND_DECK_SIZE hn2 hnp (le_refl _) game.players 0 d1
        (List.replicate n_level 0) r1 w1 (by simp) hp (by rw [hlen, t1]; exact hcap)
    rw [e2]
    simp only
    refine ⟨_, _, rfl, rfl, rfl, by simp only; rw [g4, hlen], g1, by rw [g2, a1], ?_, g5,
      g6.trans p1, ?_⟩
    · simp only; rw [hlen, t1] at g3; exact g3
    · simp only
      congr 1
      apply Nat.mod_eq_of_lt
      unfold UINT16_MOD; omega
  · intro res h
    split at h
    · exact absurd h (by simp)
    · rename_i heq
      have := dealLoop_ok_le _ _ _ _ _ _ _ _ _ w1 heq
      rw [hlen, t1] at this
      exact this

theorem gameLevelSetup_sound (game : game_t) (n_level : Nat) (r : Rng) (hg : SetupReady game)
    (hn1 : 1 ≤ n_level) (hn2 : n_level ≤ MIND_MAX_LEVEL) (game1 : game_t) (r1 : Rng)
    (h : gameLevelSetup game n_level r = .ok (game1, r1)) :
    n_level * game.n_players ≤ MIND_DECK_SIZE ∧
    game1.pile = game.pile ∧ game1.n_players = game.n_players ∧
    game1.players.length = game.n_players ∧
    game1.deck.wf ∧ game1.deck.allocd = MIND_DECK_SIZE ∧
    game1.deck.top + n_level * game.n_players = MIND_DECK_SIZE ∧
    (∀ p ∈ game1.players, p.wf ∧ p.hand.top = n_level ∧ p.hand.contents.Sorted (· ≥ ·)) ∧
    (game1.deck.contents ++ handCards game1.players).Perm game.deck.contents ∧
    game1.level = { n := n_level, n_cards := n_level * game.n_players,
                    is_over := false, status := false } := by
  obtain ⟨c1, c2⟩ := gameLevelSetup_core game n_level r hg hn1 hn2
  have hcap := c2 _ h
  obtain ⟨g2, r2, e, rest⟩ := c1 hcap
  rw [h] at e
  have e1 : game1 = g2 := by injection e with e; exact (Prod.mk.inj e).1
  subst e1
  exact ⟨hcap, rest⟩

/-- After `gameLevelSetup` from a ready game with an empty pile the invariant holds. -/
theorem inv_of_setup (game : game_t) (n_level : Nat) (r : Rng) (hg : SetupReady game)
    (hpile : game.pile.wf ∧ game.pile.allocd = MIND_DECK_SIZE ∧ game.pile.top = 0)
    (hperm : game.deck.contents.Perm cardUniverse)
    (hn1 : 1 ≤ n_level) (hn2 : n_level ≤ MIND_MAX_LEVEL) (game1 : game_t) (r1 : Rng)
    (h : gameLevelSetup game n_level r = .ok (game1, r1)) : Inv game1 := by
  obtain ⟨hcap, g1, g2, g3, g4, g5, g6, g7, g8, g9⟩ :=
    gameLevelSetup_sound game n_level r hg hn1 hn2 game1 r1 h
  obtain ⟨hlen, hpos, hw, ha, ht, hp⟩ := hg
  have hpc : game.pile.contents = [] := by
    simp [stack_t.contents, hpile.2.2]
  have hs : handSizes game1.players = n_level * game.n_players := by
    rw [handSizes_const game1.players n_level (fun p hp => ⟨(g7 p hp).1, (g7 p hp).2.1⟩), g3]
  refine ⟨g3.trans g2.symm, by rw [g2]; exact hpos, ⟨g4, g5⟩, by rw [g1]; exact ⟨hpile.1, hpile.2.1⟩,
    fun p hp => (g7 p hp).1, ?_, by rw [g9]; exact hn2, by rw [g9, hs], ?_,
    fun p hp => (g7 p hp).2.2, ?_, ?_⟩
  · unfold allCards
    rw [g1, hpc, List.append_nil]
    exact g8.trans hperm
  · rw [g1, stackGetSize_of_wf hpile.1, hpile.2.2, hs, g9, g2]
    simp
  · rw [g1, hpc]; exact List.sorted_nil
  · rw [g9]; simp

/-! ## gameCreate -/

theorem randf_skill_bounds (r : Rng) :
    MIND_MIN_SKILL ≤ (randf MIND_MIN_SKILL MIND_MAX_SKILL r).1 ∧
    (randf MIND_MIN_SKILL MIND_MAX_SKILL r).1 ≤ MIND_MAX_SKILL := by
  have hx := rand_lt r
  unfold randf
  simp only
  generalize (rand r).1 = x at *
  unfold RAND_MAX at *
  unfold MIND_MIN_SKILL MIND_MAX_SKILL
  have h0 : (0 : ℚ) ≤ (x : ℚ) := Nat.cast_nonneg x
  have h1 : (x : ℚ) ≤ 32767 := by exact_mod_cast hx
  have h2 : (0 : ℚ) ≤ (x : ℚ) / ((32767 : ℕ) + 1) := by positivity
  have h3 : (x : ℚ) / ((32767 : ℕ) + 1) ≤ 1 := by
    rw [div_le_one (by positivity)]
    push_cast
    linarith
  constructor <;> nlinarith

theorem playerCreate_spec (i : Nat) (r : Rng) :
    ∃ p r1, playerCreate i r = .ok (p, r1) ∧ p.wf ∧ p.hand.top = 0 := by
  obtain ⟨b1, b2⟩ := randf_skill_bounds r
  obtain ⟨v, r1, hok, -, -⟩ := randi_spec MIND_AVERAGE_BEAT (15 / 100)
    (randf MIND_MIN_SKILL MIND_MAX_SKILL r).2 (by norm_num) (by decide)
  unfold playerCreate
  simp only
  rw [hok]
  refine ⟨_, _, rfl, ⟨wf_stackCreate (by decide), rfl, b1, b2, le_refl _, by norm_num⟩, rfl⟩

theorem createPlayers_spec (k : Nat) :
    ∀ (i : Nat) (r : Rng), ∃ ps r1, createPlayers k i r = .ok (ps, r1) ∧ ps.length = k ∧
      ∀ p ∈ ps, p.wf ∧ p.hand.top = 0 := by
  induction k with
  | zero => intro i r; exact ⟨[], r, rfl, rfl, by simp⟩
  | succ k ih =>
    intro i r
    obtain ⟨p, r1, e1, hw, ht⟩ := playerCreate_spec i r
    obtain ⟨ps, r2, e2, hl, hps⟩ := ih (i + 1) r1
    unfold createPlayers
    rw [e1]; simp only
    rw [e2]; simp only
    refine ⟨_, _, rfl, by simp [hl], ?_⟩
    intro q hq
    rcases List.mem_cons.mp hq with rfl | hq
    · exact ⟨hw, ht⟩
    · exact hps q hq

set_option maxRecDepth 100000 in
theorem fillDeck_eq : fillDeck MIND_DECK_SIZE (stackCreate MIND_DECK_SIZE) = .ok ex_deck := by
  decide

theorem ex_deck_wf : ex_deck.wf := by decide

theorem ex_deck_perm : ex_deck.contents.Perm cardUniverse := by
  have : ex_deck.contents = cardUniverse.reverse := by
    unfold ex_deck stack_t.contents cardUniverse
    simp
  rw [this]
  exact List.reverse_perm _

/-- The invariant holds in every state `gameCreate` returns. -/
theorem inv_of_create (n_players : Nat) (r r1 : Rng) (game : game_t)
    (h : gameCreate n_players r = .ok (game, r1)) : Inv game := by
  obtain ⟨ps, r2, e1, hl, hps⟩ := createPlayers_spec n_players 0 r
  unfold gameCreate at h
  rw [e1] at h
  simp only at h
  rw [fillDeck_eq] at h
  simp only at h
  by_cases hn : n_players = 0
  · subst hn
    unfold gameLevelSetup at h
    simp at h
  · refine inv_of_setup _ 1 r2 ⟨hl, by simp only; omega, ex_deck_wf, rfl, rfl, hps⟩
      ⟨wf_stackCreate (by decide), rfl, rfl⟩ ex_deck_perm (le_refl _) (by decide) game r1 h

/-! ## gameLevelNext -/

theorem collectLoop_spec :
    ∀ (players : List player_t) (deck : stack_t), deck.wf → deck.allocd = MIND_DECK_SIZE →
      (∀ p ∈ players, p.wf) → deck.top + handSizes players ≤ MIND_DECK_SIZE →
      ∃ players1 deck1, collectLoop players deck = .ok (players1, deck1) ∧ deck1.wf ∧
        deck1.allocd = MIND_DECK_SIZE ∧
        deck1.contents = deck.contents ++ handCards players ∧
        players1.length = players.length ∧ ∀ p ∈ players1, p.wf ∧ p.hand.top = 0 := by
  intro players
  induction players with
  | nil =>
    intro deck hw ha _ _
    exact ⟨[], deck, rfl, hw, ha, by simp [handCards_nil], rfl, by simp⟩
  | cons p ps ih =>
    intro deck hw ha hp hcap
    obtain ⟨hpw, hpa, hs1, hs2, hf1, hf2⟩ := hp p (List.mem_cons_self _ _)
    rw [handSizes_cons] at hcap
    have hszd := stackGetSize_of_wf hw
    have hszp := stackGetSize_of_wf hpw
    obtain ⟨d1, h1, b1, e1, -, -, wd, wh, ad, ah, sh, sd, -, cd, -, -, -⟩ :=
      lemma_moveN deck p.hand hw hpw (List.replicate (stackGetSize p.hand) 0)
        (stackGetSize p.hand) (by simp) (le_refl _) (by rw [hszd, ha]; omega)
    rw [Nat.sub_self, List.drop_zero] at cd
    rw [Nat.sub_self] at sh
    have hd1top : d1.top = deck.top + stackGetSize p.hand := by
      rw [← stackGetSize_of_wf wd, sd, hszd]
    have hh1top : h1.top = 0 := by rw [← stackGetSize_of_wf wh, sh]
    obtain ⟨ps1, d2, e2, w2, a2, c2, l2, q2⟩ := ih d1 wd (ad.trans ha)
      (fun q hq => hp q (List.mem_cons_of_mem _ hq)) (by rw [hd1top]; omega)
    unfold collectLoop
    rw [e1]
    simp only [dropState]
    rw [e2]
    simp only
    refine ⟨_, _, rfl, w2, a2, ?_, by simp [l2], ?_⟩
    · rw [c2, cd, handCards_cons, List.append_assoc]
    · intro q hq
      rcases List.mem_cons.mp hq with rfl | hq
      · exact ⟨⟨wh, ah.trans hpa, hs1, hs2, hf1, hf2⟩, hh1top⟩
      · exact q2 q hq

theorem length_handCards (players : List player_t) (h : ∀ p ∈ players, p.wf) :
    (handCards players).length = handSizes players := by
  induction players with
  | nil => rfl
  | cons p ps ih =>
    rw [handCards_cons, handSizes_cons, List.length_append,
      ih (fun q hq => h q (List.mem_cons_of_mem _ hq)),
      length_contents (h p (List.mem_cons_self _ _)).1,
      stackGetSize_of_wf (h p (List.mem_cons_self _ _)).1]

theorem length_cardUniverse : cardUniverse.length = MIND_DECK_SIZE := by
  simp [cardUniverse]

theorem Inv.sizes {game : game_t} (h : Inv game) :
    game.deck.top + game.pile.top + handSizes game.players = MIND_DECK_SIZE := by
  have := h.perm.length_eq
  rw [length_cardUniverse] at this
  unfold allCards at this
  rw [List.length_append, List.length_append, length_contents h.deck_wf.1,
    length_contents h.pile_wf.1, length_handCards _ h.players_wf] at this
  exact this

/-- The first half of `gameLevelNext` from a state with the invariant: every card comes back
to the deck, and the game is ready for the next setup. -/
theorem collect_spec (game : game_t) (h : Inv game) :
    ∃ players1 deck1 deck2 pile1,
      collectLoop game.players game.deck = .ok (players1, deck1) ∧
      stackMoveN deck1 game.pile (stackGetSize game.pile) = .ok (deck2, pile1) ∧
      SetupReady { game with deck := deck2, pile := pile1, players := players1 } ∧
      pile1.wf ∧ pile1.allocd = MIND_DECK_SIZE ∧ pile1.top = 0 ∧
      deck2.contents.Perm cardUniverse := by
  have hsz := h.sizes
  obtain ⟨ps1, d1, e1, w1, a1, c1, l1, q1⟩ := collectLoop_spec game.players game.deck
    h.deck_wf.1 h.deck_wf.2 h.players_wf (by omega)
  have hd1top : d1.top = game.deck.top + handSizes game.players := by
    rw [← length_contents w1, c1, List.length_append, length_contents h.deck_wf.1,
      length_handCards _ h.players_wf]
  have hszp := stackGetSize_of_wf h.pile_wf.1
  obtain ⟨d2, p1, b1, e2, -, -, wd, wp, ad, ap, sp, sd, -, cd, -, -, -⟩ :=
    lemma_moveN d1 game.pile w1 h.pile_wf.1 (List.replicate (stackGetSize game.pile) 0)
      (stackGetSize game.pile) (by simp) (le_refl _)
      (by rw [stackGetSize_of_wf w1, hd1top, hszp, a1]; omega)
  rw [Nat.sub_self, List.drop_zero] at cd
  rw [Nat.sub_self] at sp
  have hp1top : p1.top = 0 := by rw [← stackGetSize_of_wf wp, sp]
  have hperm : d2.contents.Perm cardUniverse := by
    rw [cd, c1]
    refine List.Perm.trans ?_ h.perm
    unfold allCards
    rw [List.append_assoc, List.append_assoc]
    exact List.Perm.append_left _ List.perm_append_comm
  have hd2top : d2.top = MIND_DECK_SIZE := by
    rw [← length_contents wd, hperm.length_eq, length_cardUniverse]
  exact ⟨ps1, d1, d2, p1, e1, e2,
    ⟨l1.trans h.players_len, h.n_players_pos, wd, ad.trans a1, hd2top, q1⟩,
    wp, ap.trans h.pile_wf.2, hp1top, hperm⟩

theorem handCards_empty (players : List player_t) (h : ∀ p ∈ players, p.wf ∧ p.hand.top = 0) :
    handCards players = [] := by
  induction players with
  | nil => rfl
  | cons p ps ih =>
    rw [handCards_cons, ih (fun q hq => h q (List.mem_cons_of_mem _ hq))]
    simp [stack_t.contents, (h p (List.mem_cons_self _ _)).2]

/-- The level `gameLevelNext` sets up next: one more after a win, 1 after a loss. -/
theorem nextLevel_eq (game : game_t) (h : game.level.n ≤ MIND_MAX_LEVEL) :
    (game.level.n * (if game.level.status then 1 else 0) + 1) % UINT8_MOD
      = if game.level.status = true then game.level.n + 1 else 1 := by
  unfold MIND_MAX_LEVEL at h
  unfold UINT8_MOD
  cases game.level.status
  · simp
  · simp; omega

theorem gameLevelNext_spec (game : game_t) (h : Inv game) (r : Rng) :
    (∀ game1 r1, gameLevelNext game r = .ok (game1, r1) →
      Inv game1 ∧ game1.n_players = game.n_players ∧
      (game.level.n = MIND_MAX_LEVEL ∧ game.level.status = true →
        game1.level.n = 0 ∧ game1.level.status = true ∧ game1.deck.top = MIND_DECK_SIZE ∧
        game1.pile.top = 0 ∧ ∀ p ∈ game1.players, p.hand.top = 0) ∧
      (¬(game.level.n = MIND_MAX_LEVEL ∧ game.level.status = true) →
        game1.level =
          { n := if game.level.status = true then game.level.n + 1 else 1
            n_cards := (if game.level.status = true then game.level.n + 1 else 1)
              * game.n_players
            is_over := false, status := false } ∧
        game1.pile.top = 0 ∧
        ∀ p ∈ game1.players,
          p.hand.top = if game.level.status = true then game.level.n + 1 else 1)) ∧
    (game.n_players * MIND_MAX_LEVEL ≤ MIND_DECK_SIZE →
      ∃ game1 r1, gameLevelNext game r = .ok (game1, r1)) := by
  obtain ⟨ps1, d1, d2, p1, e1, e2, hready, wp, ap, tp, hperm⟩ := collect_spec game h
  have hM : MIND_MAX_LEVEL = 12 := rfl
  have hnl := nextLevel_eq game h.level_le
  have hlv := h.level_le
  unfold gameLevelNext
  rw [e1]
  simp only
  rw [e2]
  simp only [dropState]
  by_cases hfin : game.level.n = MIND_MAX_LEVEL ∧ game.level.status = true
  · rw [if_pos hfin]
    constructor
    · intro game1 r1 heq
      injection heq with heq
      have hg : game1 = { game with deck := d2, pile := p1, players := ps1,
                                    level := { game.level with n := 0 } } :=
        ((Prod.mk.inj heq).1).symm
      subst hg
      obtain ⟨hlen, hpos, hw, ha, ht, hp⟩ := hready
      have hhc := handCards_empty ps1 hp
      have hhs : handSizes ps1 = 0 := by
        rw [handSizes_const ps1 0 hp]; simp
      have hpc : p1.contents = [] := by simp [stack_t.contents, tp]
      have hso := h.status_over hfin.2
      refine ⟨⟨hlen, hpos, ⟨hw, ha⟩, ⟨wp, ap⟩, fun p hp' => (hp p hp').1, ?_, by simp, ?_, ?_,
        ?_, ?_, ?_⟩, rfl, fun _ => ⟨rfl, hfin.2, ht, tp, fun p hp' => (hp p hp').2⟩,
        fun hc => absurd hfin hc⟩
      · unfold allCards
        simp only
        rw [hpc, hhc, List.append_nil, List.append_nil]
        exact hperm
      · simp only; rw [hhs]; exact hso.2
      · simp only; rw [hhs, stackGetSize_of_wf wp, tp]; simp
      · intro p hp'
        simp only at hp'
        have := hp p hp'
        simp [stack_t.contents, this.2]
      · simp only; rw [hpc]; exact List.sorted_nil
      · intro _; exact hso
    · intro _; exact ⟨_, _, rfl⟩
  · rw [if_neg hfin, hnl]
    have hn1 : 1 ≤ (if game.level.status = true then game.level.n + 1 else 1) := by
      split <;> omega
    have hn2 : (if game.level.status = true then game.level.n + 1 else 1) ≤ MIND_MAX_LEVEL := by
      split
      · rename_i hs
        have : game.level.n ≠ MIND_MAX_LEVEL := fun hc => hfin ⟨hc, hs⟩
        omega
      · omega
    constructor
    · intro game1 r1 heq
      have hinv := inv_of_setup _ _ r hready ⟨wp, ap, tp⟩ hperm hn1 hn2 game1 r1 heq
      obtain ⟨-, g1, g2, g3, g4, g5, g6, g7, g8, g9⟩ :=
        gameLevelSetup_sound _ _ r hready hn1 hn2 game1 r1 heq
      refine ⟨hinv, g2, fun hc => absurd hc hfin, fun _ => ⟨g9, by rw [g1]; exact tp,
        fun p hp => (g7 p hp).2.1⟩⟩
    · intro hcap
      obtain ⟨c1, -⟩ := gameLevelSetup_core
        { game with deck := d2, pile := p1, players := ps1 }
        (if game.level.status = true then game.level.n + 1 else 1) r hready hn1 hn2
      obtain ⟨g, r1, hok, -⟩ := c1 (by
        simp only
        have : (if game.level.status = true then game.level.n + 1 else 1) * game.n_players
            ≤ MIND_MAX_LEVEL * game.n_players := Nat.mul_le_mul_right _ hn2
        rw [Nat.mul_comm] at hcap
        omega)
      exact ⟨g, r1, hok⟩

/-! ## The turn of a player keeps its hand -/

theorem keeps_refl (p : player_t) : Keeps p p := ⟨rfl, id⟩

theorem keeps_trans {p p1 p2 : player_t} (h1 : Keeps p p1) (h2 : Keeps p1 p2) : Keeps p p2 :=
  ⟨h2.1.trans h1.1, fun h => h2.2 (h1.2 h)⟩

theorem keeps_of_fields {p p1 : player_t} (hh : p1.hand = p.hand) (hs : p1.skill = p.skill)
    (hf : p1.focus = p.focus) : Keeps p p1 := by
  refine ⟨hh, ?_⟩
  rintro ⟨a, b, c, d, e, f⟩
  exact ⟨hh ▸ a, hh ▸ b, hs ▸ c, hs ▸ d, hf ▸ e, hf ▸ f⟩

theorem keeps_of_focus {p p1 : player_t} (hh : p1.hand = p.hand) (hs : p1.skill = p.skill)
    (hf : 0 ≤ p1.focus ∧ p1.focus ≤ 99 / 100) : Keeps p p1 := by
  refine ⟨hh, ?_⟩
  rintro ⟨a, b, c, d, -, -⟩
  exact ⟨hh ▸ a, hh ▸ b, hs ▸ c, hs ▸ d, hf.1, hf.2⟩

theorem playerFixBeat_fields (p : player_t) :
    (playerFixBeat p).hand = p.hand ∧ (playerFixBeat p).skill = p.skill ∧
    (playerFixBeat p).focus = p.focus := by
  unfold playerFixBeat
  split_ifs <;> exact ⟨rfl, rfl, rfl⟩

theorem playerFixFocus_fields (p : player_t) (h0 : 0 ≤ p.focus) :
    (playerFixFocus p).hand = p.hand ∧ (playerFixFocus p).skill = p.skill ∧
    0 ≤ (playerFixFocus p).focus ∧ (playerFixFocus p).focus ≤ 99 / 100 := by
  unfold playerFixFocus
  split_ifs with h1 h2
  · exact ⟨rfl, rfl, by norm_num, by norm_num⟩
  · exact ⟨rfl, rfl, by norm_num, by norm_num⟩
  · exact ⟨rfl, rfl, h0, not_lt.mp h1⟩

theorem playerAdjust_keeps {p p1 : player_t} {c : Nat} {r r1 : Rng}
    (h : playerAdjust p c r = .ok (p1, r1)) : Keeps p p1 := by
  unfold playerAdjust at h
  split_ifs at h with h1
  · injection h with h
    rw [← (Prod.mk.inj h).1]
    exact keeps_of_fields rfl rfl rfl
  · simp only at h
    split at h
    · exact absurd h (by simp)
    · injection h with h
      rw [← (Prod.mk.inj h).1]
      obtain ⟨a, b, c⟩ := playerFixBeat_fields
        { p with timeout := { p.timeout with ADJUST := 2 }, beat := _ }
      exact keeps_of_fields a b c

theorem playerBored_keeps {p p1 : player_t} {r r1 : Rng} (hp : 0 ≤ p.focus)
    (h : playerBored p r = .ok (p1, r1)) : Keeps p p1 := by
  unfold playerBored at h
  split_ifs at h with h1
  · injection h with h
    rw [← (Prod.mk.inj h).1]
    exact keeps_of_fields rfl rfl rfl
  · simp only at h
    split at h
    · exact absurd h (by simp)
    · injection h with h
      rw [← (Prod.mk.inj h).1]
      obtain ⟨a, b, c⟩ := playerFixBeat_fields
        { p with timeout := { p.timeout with BORED := p.threshold },
                 focus := p.focus * (95 / 100), beat := _ }
      obtain ⟨a1, b1, c1, d1⟩ := playerFixFocus_fields (playerFixBeat
        { p with timeout := { p.timeout with BORED := p.threshold },
                 focus := p.focus * (95 / 100), beat := _ })
        (by rw [c]; simp only; positivity)
      exact keeps_of_focus (a1.trans a) (b1.trans b) ⟨c1, d1⟩

theorem playerHesitate_keeps {p p1 : player_t} {r r1 : Rng} (hp : 0 ≤ p.focus)
    (h : playerHesitate p r = .ok (p1, r1)) : Keeps p p1 := by
  unfold playerHesitate at h
  split_ifs at h with h1
  · injection h with h
    rw [← (Prod.mk.inj h).1]
    exact keeps_of_fields rfl rfl rfl
  · simp only at h
    split at h
    · exact absurd h (by simp)
    · injection h with h
      rw [← (Prod.mk.inj h).1]
      obtain ⟨a, b, c⟩ := playerFixBeat_fields
        { p with timeout := { p.timeout with HESITATE := p.threshold },
                 focus := (p.focus + 1 / 100) * (105 / 100), beat := _ }
      obtain ⟨a1, b1, c1, d1⟩ := playerFixFocus_fields (playerFixBeat
        { p with timeout := { p.timeout with HESITATE := p.threshold },
                 focus := (p.focus + 1 / 100) * (105 / 100), beat := _ })
        (by rw [c]; simp only; positivity)
      exact keeps_of_focus (a1.trans a) (b1.trans b) ⟨c1, d1⟩

theorem playerConfused_keeps {p p1 : player_t} {r r1 : Rng} (hp : 0 ≤ p.focus)
    (h : playerConfused p r = .ok (p1, r1)) : Keeps p p1 := by
  unfold playerConfused at h
  split_ifs at h with h1
  · injection h with h
    rw [← (Prod.mk.inj h).1]
    exact keeps_of_fields rfl rfl rfl
  · simp only at h
    split at h
    · exact absurd h (by simp)
    · injection h with h
      rw [← (Prod.mk.inj h).1]
      obtain ⟨a1, b1, c1, d1⟩ := playerFixFocus_fields
        { p with timeout := { p.timeout with CONFUSED := 3 },
                 focus := p.focus * (9 / 10), count := _ }
        (by simp only; positivity)
      exact keeps_of_focus a1 b1 ⟨c1, d1⟩

theorem playerMood_keeps {p p1 : player_t} {lowest_card pile_card : Nat} {r r1 : Rng}
    (hp : 0 ≤ p.focus) (h : playerMood p lowest_card pile_card r = .ok (p1, r1)) :
    Keeps p p1 := by
  unfold playerMood at h
  split_ifs at h
  · exact playerHesitate_keeps hp h
  · simp only at h
    split_ifs at h
    · exact playerConfused_keeps hp h
    · exact playerBored_keeps hp h

/-! ## Players that keep their hands -/

theorem set_same {α : Type} (l : List α) (i : Nat) (a : α) (h : l[i]? = some a) :
    l.set i a = l := by
  apply List.ext_getElem?
  intro j
  by_cases hj : i = j
  · subst hj
    rw [List.getElem?_set_self', h]
    simp
  · rw [List.getElem?_set_ne hj]

theorem sameHands_refl (ps : List player_t) : SameHands ps ps := ⟨rfl, id⟩

theorem sameHands_trans {ps ps1 ps2 : List player_t} (h1 : SameHands ps ps1)
    (h2 : SameHands ps1 ps2) : SameHands ps ps2 :=
  ⟨h2.1.trans h1.1, fun h => h2.2 (h1.2 h)⟩

theorem sameHands_set {ps : List player_t} {i : Nat} {p p1 : player_t}
    (hi : ps[i]? = some p) (hk : Keeps p p1) : SameHands ps (ps.set i p1) := by
  constructor
  · rw [List.map_set, hk.1]
    apply set_same
    rw [List.getElem?_map, hi]
    rfl
  · intro hw q hq
    rcases List.mem_or_eq_of_mem_set hq with hq | rfl
    · exact hw q hq
    · exact hk.2 (hw p (List.getElem?_mem hi))

theorem sameHands_handCards {ps ps1 : List player_t} (h : SameHands ps ps1) :
    handCards ps1 = handCards ps := by
  have e : ∀ l : List player_t, handCards l
      = ((l.map (fun p => p.hand)).map (fun s => s.contents)).flatten := by
    intro l; unfold handCards; rw [List.map_map]; rfl
  rw [e, e, h.1]

theorem sameHands_handSizes {ps ps1 : List player_t} (h : SameHands ps ps1) :
    handSizes ps1 = handSizes ps := by
  have e : ∀ l : List player_t, handSizes l
      = ((l.map (fun p => p.hand)).map (fun s => stackGetSize s)).sum := by
    intro l; unfold handSizes; rw [List.map_map]; rfl
  rw [e, e, h.1]

theorem sameHands_length {ps ps1 : List player_t} (h : SameHands ps ps1) :
    ps1.length = ps.length := by
  have := congrArg List.length h.1
  simpa using this

theorem sameHands_hand_mem {ps ps1 : List player_t} (h : SameHands ps ps1) {p : player_t}
    (hp : p ∈ ps1) : ∃ q ∈ ps, q.hand = p.hand := by
  have : p.hand ∈ ps1.map (fun p => p.hand) := List.mem_map_of_mem _ hp
  rw [h.1] at this
  obtain ⟨q, hq, e⟩ := List.mem_map.mp this
  exact ⟨q, hq, e⟩

theorem Inv.of_sameHands {game : game_t} (h : Inv game) {ps1 : List player_t}
    (hs : SameHands game.players ps1) : Inv { game with players := ps1 } := by
  refine ⟨(sameHands_length hs).trans h.players_len, h.n_players_pos, h.deck_wf, h.pile_wf,
    hs.2 h.players_wf, ?_, h.level_le, ?_, ?_, ?_, h.pile_sorted, h.status_over⟩
  · have := h.perm
    unfold allCards at *
    simp only
    rw [sameHands_handCards hs]; exact this
  · simp only; rw [sameHands_handSizes hs]; exact h.n_cards_eq
  · simp only; rw [sameHands_handSizes hs]; exact h.round_cards
  · intro p hp
    obtain ⟨q, hq, e⟩ := sameHands_hand_mem hs hp
    rw [← e]; exact h.hands_sorted q hq

theorem Inv.set_over {game : game_t} (h : Inv game) (hs : game.level.status = false) :
    Inv { game with level := { game.level with is_over := true } } := by
  refine ⟨h.players_len, h.n_players_pos, h.deck_wf, h.pile_wf, h.players_wf, h.perm,
    h.level_le, h.n_cards_eq, h.round_cards, h.hands_sorted, h.pile_sorted, ?_⟩
  intro hc
  simp only at hc
  rw [hs] at hc
  exact absurd hc (by simp)

theorem adjustAt_spec {game game1 : game_t} {i c : Nat} {r r1 : Rng}
    (h : adjustAt game i c r = .ok (game1, r1)) :
    ∃ ps1, game1 = { game with players := ps1 } ∧ SameHands game.players ps1 := by
  unfold adjustAt at h
  split at h
  · exact absurd h (by simp)
  · rename_i p hp
    split at h
    · exact absurd h (by simp)
    · rename_i p1 r2 hadj
      injection h with h
      exact ⟨_, ((Prod.mk.inj h).1).symm, sameHands_set hp (playerAdjust_keeps hadj)⟩

theorem gameAssignBlame_spec {game game1 : game_t} {r r1 : Rng}
    (h : gameAssignBlame game r = .ok (game1, r1)) :
    ∃ ps1, game1 = { game with players := ps1 } ∧ SameHands game.players ps1 := by
  unfold gameAssignBlame at h
  split at h
  · exact absurd h (by simp)
  · split at h
    · exact absurd h (by simp)
    · simp only at h
      split at h
      · exact absurd h (by simp)
      · rename_i g2 r2 h1
        obtain ⟨ps1, e1, s1⟩ := adjustAt_spec h1
        obtain ⟨ps2, e2, s2⟩ := adjustAt_spec h
        subst e1
        exact ⟨ps2, e2, sameHands_trans s1 s2⟩

/-! ## Playing a card -/

theorem handCards_append (A B : List player_t) :
    handCards (A ++ B) = handCards A ++ handCards B := by
  simp [handCards]

theorem handSizes_append (A B : List player_t) :
    handSizes (A ++ B) = handSizes A + handSizes B := by
  simp [handSizes]

theorem split_at {α : Type} (l : List α) (i : Nat) (a : α) (h : l[i]? = some a) (b : α) :
    l = l.take i ++ a :: l.drop (i + 1) ∧ l.set i b = l.take i ++ b :: l.drop (i + 1) := by
  have hi : i < l.length := by
    by_contra hc
    rw [List.getElem?_eq_none (by omega)] at h
    exact absurd h (by simp)
  have ha : l[i] = a := by
    rw [List.getElem?_eq_getElem hi] at h
    exact Option.some.inj h
  constructor
  · conv_lhs => rw [← List.take_append_drop i l, List.drop_eq_getElem_cons hi, ha]
  · rw [List.set_eq_take_append_cons_drop, if_pos hi]

theorem sorted_lt_getLast {l : List Nat} (h : l.Sorted (· < ·)) {c : Nat}
    (hc : l.getLast? = some c) : ∀ x ∈ l, x ≤ c := by
  intro x hx
  obtain ⟨l1, rfl⟩ : ∃ l1, l = l1 ++ [c] :=
    ⟨l.dropLast, (List.dropLast_append_getLast? c hc).symm⟩
  rw [List.mem_append] at hx
  rcases hx with hx | hx
  · exact le_of_lt ((List.pairwise_append.mp h).2.2 x hx c (by simp))
  · simp at hx; omega

theorem nodup_cardUniverse : cardUniverse.Nodup := List.nodup_range' _ _

/-- What `playerTryPlay` does in a state with the invariant in which the round is not won and
no card of the pile is above the lowest card of the player: it leaves the game alone, or it
moves that card from the hand to the top of the pile and counts it; the invariant holds
afterwards. -/
theorem playerTryPlay_spec (game : game_t) (h : Inv game) (hst : game.level.status = false)
    (i : Nat) (p : player_t) (hp : game.players[i]? = some p) (c : Nat)
    (hc : stackPeek p.hand = .ok c) (hle : ∀ x ∈ game.pile.contents, x ≤ c)
    (game1 : game_t) (heq : playerTryPlay game i = .ok game1) :
    Inv game1 ∧ game1.level.is_over = game.level.is_over ∧
    game1.level.status = game.level.status ∧ game1.level.n = game.level.n ∧
    game1.n_players = game.n_players ∧ game1.deck = game.deck ∧
    ((game1 = game ∧ 1 < game.level.n_cards) ∨
     (game1.pile.contents = game.pile.contents ++ [c] ∧
      stackGetSize game1.pile = stackGetSize game.pile + 1 ∧
      game1.level.n_cards + 1 = game.level.n_cards ∧
      handSizes game1.players + 1 = handSizes game.players ∧
      ∃ p1, game1.players = game.players.set i p1 ∧
        p1.hand.contents = p.hand.contents.dropLast)) := by
  have hD : MIND_DECK_SIZE = 100 := rfl
  unfold playerTryPlay at heq
  rw [hp] at heq
  simp only [hc] at heq
  split_ifs at heq with hdecl
  · injection heq with heq
    subst heq
    exact ⟨h, rfl, rfl, rfl, rfl, rfl, Or.inl ⟨rfl, hdecl.1⟩⟩
  · have hpm : p ∈ game.players := List.getElem?_mem hp
    have hpw := h.players_wf p hpm
    have hcl := (stackPeek_ok_iff hpw.1 c).mp hc
    have hne : p.hand.contents ≠ [] := by
      intro h0; rw [h0] at hcl; simp at hcl
    have hlenp := length_contents hpw.1
    have htop : 1 ≤ p.hand.top := by
      rw [← hlenp]
      exact Nat.pos_of_ne_zero (fun h0 => hne (List.length_eq_zero.mp h0))
    obtain ⟨e1, e2⟩ := split_at game.players i p hp
      { p with hand := { p.hand with top := p.hand.top - 1 } }
    have hszs := h.sizes
    have hsplit : handSizes game.players
        = handSizes (game.players.take i) + (p.hand.top
          + handSizes (game.players.drop (i + 1))) := by
      conv_lhs => rw [e1]
      rw [handSizes_append, handSizes_cons, stackGetSize_of_wf hpw.1]
    have hszpile := stackGetSize_of_wf h.pile_wf.1
    have hszhand := stackGetSize_of_wf hpw.1
    obtain ⟨pile1, hand1, b1, em, -, -, wd, wh, ad, ah, sh, sd, ch, cd, -, -, -⟩ :=
      lemma_moveN game.pile p.hand h.pile_wf.1 hpw.1 [0] 1 (by simp)
        (by rw [hszhand]; exact htop) (by rw [hszpile, h.pile_wf.2]; omega)
    rw [hszhand] at ch cd sh
    have hdrop : p.hand.contents.drop (p.hand.top - 1) = [c] := by
      have h2 : (p.hand.contents.drop (p.hand.top - 1)).length = 1 := by simp; omega
      have h3 : (p.hand.contents.drop (p.hand.top - 1)).getLast? = some c := by
        rw [getLast?_drop (by omega)]; exact hcl
      match hm : p.hand.contents.drop (p.hand.top - 1), h2, h3 with
      | [x], _, h3 => simp at h3; rw [h3]
    rw [hdrop] at cd
    have hhc : p.hand.contents = hand1.contents ++ [c] := by
      rw [ch, ← hdrop, List.take_append_drop]
    have hdl : hand1.contents = p.hand.contents.dropLast := by
      rw [ch, List.dropLast_eq_take, hlenp]
    unfold stackMove at heq
    rw [em] at heq
    simp only [dropState] at heq
    injection heq with heq
    subst heq
    obtain ⟨e1', e2'⟩ := split_at game.players i p hp
      { p with hand := hand1, last_card_played := c % UINT8_MOD, count := c,
               pile_card := c % UINT8_MOD }
    have hp1w : ({ p with hand := hand1, last_card_played := c % UINT8_MOD, count := c,
                          pile_card := c % UINT8_MOD } : player_t).wf :=
      ⟨wh, ah.trans hpw.2.1, hpw.2.2.1, hpw.2.2.2.1, hpw.2.2.2.2.1, hpw.2.2.2.2.2⟩
    have hsz1 : handSizes (game.players.set i
        { p with hand := hand1, last_card_played := c % UINT8_MOD, count := c,
                 pile_card := c % UINT8_MOD }) + 1 = handSizes game.players := by
      rw [e2', hsplit, handSizes_append, handSizes_cons]
      simp only
      rw [sh]; omega
    have hnc := h.n_cards_eq
    have hncards : (game.level.n_cards + UINT16_MOD - 1) % UINT16_MOD + 1
        = game.level.n_cards := by
      unfold UINT16_MOD; omega
    have hnodup : (allCards game).Nodup := (h.perm.nodup_iff).mpr nodup_cardUniverse
    have hcin : c ∈ handCards game.players := by
      rw [e1, handCards_append, handCards_cons, hhc]
      simp
    refine ⟨⟨?_, h.n_players_pos, h.deck_wf, ⟨wd, ad.trans h.pile_wf.2⟩, ?_, ?_, h.level_le,
      ?_, ?_, ?_, ?_, ?_⟩, rfl, rfl, rfl, rfl, rfl, Or.inr ⟨cd, ?_, hncards, hsz1, _, rfl, hdl⟩⟩
    · simp only [List.length_set]; exact h.players_len
    · intro q hq
      rcases List.mem_or_eq_of_mem_set hq with hq | rfl
      · exact h.players_wf q hq
      · exact hp1w
    · refine List.Perm.trans ?_ h.perm
      unfold allCards
      simp only
      rw [e2', cd]
      conv_rhs => rw [e1]
      rw [handCards_append, handCards_cons, handCards_append, handCards_cons, hhc]
      simp only
      rw [List.perm_iff_count]
      intro a
      simp only [List.count_append]
      omega
    · simp only; omega
    · have hrc := h.round_cards
      simp only; rw [sd]; omega
    · intro q hq
      rcases List.mem_or_eq_of_mem_set hq with hq | rfl
      · exact h.hands_sorted q hq
      · simp only
        rw [ch]
        exact List.Pairwise.sublist (List.take_sublist _ _) (h.hands_sorted p hpm)
    · simp only
      rw [cd]
      apply List.pairwise_append.mpr
      refine ⟨h.pile_sorted, List.pairwise_singleton _ _, ?_⟩
      intro x hx y hy
      simp at hy
      subst hy
      have hxc := hle x hx
      have hxne : x ≠ y := by
        intro hxy
        subst hxy
        unfold allCards at hnodup
        have := (List.nodup_append.mp hnodup).2.2
        exact this (List.mem_append_right _ hx) hcin
      omega
    · intro hs; simp only at hs; rw [hst] at hs; exact absurd hs (by simp)
    · exact sd

/-! ## playTurn -/

theorem playTurnLocked_spec (game : game_t) (h : Inv game) (i : Nat) (p : player_t)
    (hp : game.players[i]? = some p) (c : Nat) (hc : stackPeek p.hand = .ok c)
    (hle : ∀ x ∈ game.pile.contents, x ≤ c)
    (game1 : game_t) (heq : playTurnLocked game i = .ok game1) :
    Inv game1 ∧ game1.level.n = game.level.n ∧ game1.n_players = game.n_players ∧
    game1.deck = game.deck ∧ (game1 = game ∨ Played game game1 c) := by
  unfold playTurnLocked at heq
  by_cases hov : game.level.is_over = true
  · rw [if_pos hov] at heq
    injection heq with heq
    subst heq
    exact ⟨h, rfl, rfl, rfl, Or.inl rfl⟩
  · rw [if_neg hov] at heq
    have hst : game.level.status = false := by
      cases hs : game.level.status
      · rfl
      · exact absurd (h.status_over hs).1 hov
    have hov' : game.level.is_over = false := by
      cases ho : game.level.is_over
      · rfl
      · exact absurd ho hov
    split at heq
    · exact absurd heq (by simp)
    · rename_i g2 htry
      obtain ⟨hinv, k1, k2, k3, k4, k5, hcase⟩ :=
        playerTryPlay_spec game h hst i p hp c hc hle g2 htry
      rcases hcase with ⟨rfl, hn⟩ | ⟨c1, c2, c3, c4, -⟩
      · rw [if_neg (by omega)] at heq
        injection heq with heq
        subst heq
        exact ⟨h, rfl, rfl, rfl, Or.inl rfl⟩
      · by_cases hz : g2.level.n_cards = 0
        · rw [if_pos hz] at heq
          injection heq with heq
          subst heq
          refine ⟨⟨hinv.players_len, hinv.n_players_pos, hinv.deck_wf, hinv.pile_wf,
            hinv.players_wf, hinv.perm, hinv.level_le, hinv.n_cards_eq, hinv.round_cards,
            hinv.hands_sorted, hinv.pile_sorted, fun _ => ⟨rfl, hz⟩⟩, k3, k4, k5,
            Or.inr ⟨hov', c1, c2, c3, c4, ?_, ?_⟩⟩
          · exact ⟨fun _ => hz, fun _ => rfl⟩
          · exact ⟨fun _ => hz, fun _ => rfl⟩
        · rw [if_neg hz] at heq
          injection heq with heq
          subst heq
          refine ⟨hinv, k3, k4, k5, Or.inr ⟨hov', c1, c2, c3, c4, ?_, ?_⟩⟩
          · rw [k2, hst]; exact ⟨fun hc => absurd hc (by simp), fun hc => absurd hc hz⟩
          · rw [k1, hov']; exact ⟨fun hc => absurd hc (by simp), fun hc => absurd hc hz⟩

theorem pile_le_card (game : game_t) (h : Inv game) (pile_card : Nat)
    (hpc : (if stackGetSize game.pile ≠ 0 then stackPeek game.pile else .ok 0)
      = .ok pile_card) : ∀ x ∈ game.pile.contents, x ≤ pile_card := by
  intro x hx
  by_cases hz : stackGetSize game.pile ≠ 0
  · rw [if_pos hz] at hpc
    exact sorted_lt_getLast h.pile_sorted ((stackPeek_ok_iff h.pile_wf.1 _).mp hpc) x hx
  · rw [stackGetSize_of_wf h.pile_wf.1] at hz
    have : game.pile.contents = [] := by
      simp only [stack_t.contents]
      rw [show game.pile.top = 0 by omega]; rfl
    rw [this] at hx
    exact absurd hx (List.not_mem_nil _)

/-- One `playTurn` from a state with the invariant: the invariant holds afterwards, level and
deck are as before, and either no card moved or the lowest card of the player was played. -/
theorem playTurn_spec (game : game_t) (h : Inv game) (i : Nat) (r : Rng) (game1 : game_t)
    (r1 : Rng) (heq : playTurn game i r = .ok (game1, r1)) :
    Inv game1 ∧ game1.level.n = game.level.n ∧ game1.n_players = game.n_players ∧
    game1.deck = game.deck ∧ (NotPlayed game game1 ∨ ∃ c, Played game game1 c) := by
  unfold playTurn at heq
  split at heq
  · exact absurd heq (by simp)
  · rename_i p hp
    split at heq
    · exact absurd heq (by simp)
    · rename_i pile_card hpc
      have hple := pile_le_card game h pile_card hpc
      split at heq
      · exact absurd heq (by simp)
      · rename_i lowest_card hlc
        have hpw := h.players_wf p (List.getElem?_mem hp)
        by_cases hlt : lowest_card < pile_card
        · rw [if_pos hlt] at heq
          by_cases hov : game.level.is_over = true
          · rw [if_pos hov] at heq
            injection heq with heq
            rw [← (Prod.mk.inj heq).1]
            exact ⟨h, rfl, rfl, rfl, Or.inl ⟨rfl, sameHands_refl _, rfl, rfl, id⟩⟩
          · rw [if_neg hov] at heq
            have hst : game.level.status = false := by
              cases hs : game.level.status
              · rfl
              · exact absurd (h.status_over hs).1 hov
            obtain ⟨ps1, e, hs⟩ := gameAssignBlame_spec heq
            subst e
            exact ⟨(h.set_over hst).of_sameHands hs, rfl, rfl, rfl,
              Or.inl ⟨rfl, hs, rfl, rfl, fun _ => rfl⟩⟩
        · rw [if_neg hlt] at heq
          by_cases hadj : p.pile_card < pile_card ∧ game.level.is_over = true
          · rw [if_pos hadj] at heq
            injection heq with heq
            rw [← (Prod.mk.inj heq).1]
            exact ⟨h, rfl, rfl, rfl, Or.inl ⟨rfl, sameHands_refl _, rfl, rfl, id⟩⟩
          · rw [if_neg hadj] at heq
            split at heq
            · exact absurd heq (by simp)
            rename_i player1 r2 hadj1
            have hk1 : Keeps p player1 := by
              by_cases hpc2 : p.pile_card < pile_card
              · rw [if_pos hpc2] at hadj1
                exact playerAdjust_keeps hadj1
              · rw [if_neg hpc2] at hadj1
                injection hadj1 with hadj1
                rw [← (Prod.mk.inj hadj1).1]
                exact keeps_refl p
            split at heq
            · exact absurd heq (by simp)
            · rename_i player2 r3 hmood
              have hk2 : Keeps { player1 with pile_card := pile_card % UINT8_MOD } player2 :=
                playerMood_keeps (hk1.2 hpw).2.2.2.2.1 hmood
              have hk3 : Keeps player1 { player1 with pile_card := pile_card % UINT8_MOD } :=
                keeps_of_fields rfl rfl rfl
              have hk : Keeps p player2 := keeps_trans hk1 (keeps_trans hk3 hk2)
              have hsh : SameHands game.players (game.players.set i player2) :=
                sameHands_set hp hk
              have hinv2 := h.of_sameHands hsh
              split at heq
              · exact absurd heq (by simp)
              · rename_i g3 hlock
                injection heq with heq
                rw [← (Prod.mk.inj heq).1]
                have hi : i < game.players.length := by
                  by_contra hcon
                  rw [List.getElem?_eq_none (by omega)] at hp
                  exact absurd hp (by simp)
                have hp2 : (game.players.set i player2)[i]? = some player2 :=
                  List.getElem?_set_self hi
                have hc2 : stackPeek player2.hand = .ok lowest_card := by
                  rw [hk.1]; exact hlc
                obtain ⟨hinv3, k1, k2, k3, hcase⟩ := playTurnLocked_spec
                  { game with players := game.players.set i player2 } hinv2 i player2 hp2
                  lowest_card hc2 (fun x hx => le_trans (hple x hx) (not_lt.mp hlt)) g3 hlock
                refine ⟨hinv3, k1, k2, k3, ?_⟩
                rcases hcase with rfl | ⟨c1, c2, c3, c4, c5, c6, c7⟩
                · exact Or.inl ⟨rfl, hsh, rfl, rfl, id⟩
                · refine Or.inr ⟨lowest_card, c1, c2, c3, c4, ?_, c6, c7⟩
                  rw [c5]
                  exact sameHands_handSizes hsh

/-! ## Example runs -/

set_option maxRecDepth 100000 in
theorem ex_created_eq : gameCreate MIND_N_PLAYERS [] = .ok (ex_created, []) := by
  decide!

theorem ex_created_reachable : Reachable ex_created :=
  Reachable.create _ _ _ _ ex_created_eq

theorem reachable_countN (k : Nat) :
    ∀ (i : Nat) (game : game_t), Reachable game → Reachable (countN k i game) := by
  induction k with
  | zero => intro i game h; exact h
  | succ k ih => intro i game h; exact ih i _ (Reachable.count game i h)

theorem reachable_turnOf (game : game_t) (i : Nat) (r : Rng) (h : Reachable game)
    (hn : game.level.n ≠ 0) (hh : handNonEmpty game i) : Reachable (turnOf game i r) := by
  unfold turnOf
  split
  · rename_i game1 r1 heq
    exact Reachable.turn game game1 i r r1 h hn hh heq
  · exact h

set_option maxRecDepth 100000 in
theorem ex_won_reachable : Reachable ex_won := by
  have h1 : Reachable (countN 4 0 ex_created) := reachable_countN 4 0 _ ex_created_reachable
  have h2 : Reachable (turnOf (countN 4 0 ex_created) 0 []) :=
    reachable_turnOf _ 0 [] h1 (by decide!) (by decide!)
  have h3 : Reachable (countN 49 2 (turnOf (countN 4 0 ex_created) 0 [])) :=
    reachable_countN 49 2 _ h2
  have h4 : Reachable (turnOf (countN 49 2 (turnOf (countN 4 0 ex_created) 0 [])) 2 []) :=
    reachable_turnOf _ 2 [] h3 (by decide!) (by decide!)
  exact reachable_turnOf _ 1 [] h4 (by decide!) (by decide!)

set_option maxRecDepth 100000 in
theorem ex_won_status : ex_won.level.status = true := by decide!

/-! ## The invariant in every reachable state -/

theorem playGameCount_sameHands (game : game_t) (i : Nat) :
    ∃ ps1, playGameCount game i = { game with players := ps1 } ∧
      SameHands game.players ps1 := by
  unfold playGameCount
  split
  · exact ⟨game.players, rfl, sameHands_refl _⟩
  · rename_i p hp
    exact ⟨_, rfl, sameHands_set hp (keeps_of_fields rfl rfl rfl)⟩

theorem inv_of_reachable {game : game_t} (h : Reachable game) : Inv game := by
  induction h with
  | create n_players r r1 game heq => exact inv_of_create n_players r r1 game heq
  | count game i _ ih =>
    obtain ⟨ps1, e, hs⟩ := playGameCount_sameHands game i
    rw [e]
    exact ih.of_sameHands hs
  | turn game game1 i r r1 _ _ _ heq ih => exact (playTurn_spec game ih i r game1 r1 heq).1
  | next game game1 r r1 _ _ _ heq ih => exact ((gameLevelNext_spec game ih r).1 game1 r1 heq).1

theorem handSizes_zero {players : List player_t} (h : handSizes players = 0) :
    ∀ p ∈ players, stackGetSize p.hand = 0 := by
  induction players with
  | nil => intro p hp; exact absurd hp (List.not_mem_nil _)
  | cons q qs ih =>
    rw [handSizes_cons] at h
    intro p hp
    rcases List.mem_cons.mp hp with rfl | hp
    · omega
    · exact ih (by omega) p hp

/-- A reachable state has level 0 only after the last level was won. -/
theorem level_zero_of_reachable {game : game_t} (h : Reachable game) :
    game.level.n = 0 → game.level.status = true := by
  induction h with
  | create n_players r r1 game heq =>
    intro hz
    obtain ⟨ps, r2, e1, hl, hps⟩ := createPlayers_spec n_players 0 r
    unfold gameCreate at heq
    rw [e1] at heq
    simp only at heq
    rw [fillDeck_eq] at heq
    simp only at heq
    by_cases hn : n_players = 0
    · subst hn
      unfold gameLevelSetup at heq
      simp at heq
    · obtain ⟨-, -, -, -, -, -, -, -, -, g9⟩ := gameLevelSetup_sound _ 1 r2
        ⟨hl, by simp only; omega, ex_deck_wf, rfl, rfl, hps⟩ (le_refl _) (by decide) game r1 heq
      rw [g9] at hz
      exact absurd hz (by simp)
  | count game i _ ih =>
    obtain ⟨ps1, e, -⟩ := playGameCount_sameHands game i
    rw [e]
    exact ih
  | turn game game1 i r r1 hr hn _ heq _ =>
    intro hz
    have := (playTurn_spec game (inv_of_reachable hr) i r game1 r1 heq).2.1
    rw [this] at hz
    exact absurd hz hn
  | next game game1 r r1 hr hn _ heq _ =>
    intro hz
    obtain ⟨-, -, c1, c2⟩ := (gameLevelNext_spec game (inv_of_reachable hr) r).1 game1 r1 heq
    by_cases hfin : game.level.n = MIND_MAX_LEVEL ∧ game.level.status = true
    · exact (c1 hfin).2.1
    · have := (c2 hfin).1
      rw [this] at hz
      simp only at hz
      split at hz <;> omega

/-! ## The claims about the game -/

theorem playerTryPlay_sorted (game : game_t) (i : Nat) (game1 : game_t)
    (hh : ∀ p ∈ game.players, p.hand.wf ∧ p.hand.contents.Sorted (· ≥ ·))
    (hp : game.pile.wf) (hcap : 1 ≤ game.pile.allocd)
    (heq : playerTryPlay game i = .ok game1) :
    ∀ p ∈ game1.players, p.hand.wf ∧ p.hand.contents.Sorted (· ≥ ·) := by
  unfold playerTryPlay at heq
  split at heq
  · exact absurd heq (by simp)
  · rename_i p hpi
    split at heq
    · exact absurd heq (by simp)
    · split_ifs at heq
      · injection heq with heq
        subst heq
        exact hh
      · have hpw := hh p (List.getElem?_mem hpi)
        unfold stackMove at heq
        rw [stackMoveN_eq hp hpw.1 hcap] at heq
        split_ifs at heq
        · simp only [dropState] at heq
          injection heq with heq
          subst heq
          intro q hq
          rcases List.mem_or_eq_of_mem_set hq with hq | rfl
          · exact hh q hq
          · refine ⟨wf_pop hpw.1 1, ?_⟩
            simp only
            rw [contents_pop]
            exact List.Pairwise.sublist (List.take_sublist _ _) hpw.2
        · simp [dropState] at heq
        · simp [dropState] at heq

theorem setup_hands (game : game_t) (n_level : Nat) (r : Rng) (hg : SetupReady game)
    (h1 : 1 ≤ n_level) (h2 : n_level ≤ MIND_MAX_LEVEL)
    (hcap : n_level * game.n_players ≤ MIND_DECK_SIZE) :
    ∃ game1 r1, gameLevelSetup game n_level r = .ok (game1, r1) ∧
      game1.players.length = game.n_players ∧
      ∀ p ∈ game1.players, stackGetSize p.hand = n_level ∧
        p.hand.contents.length = n_level ∧ p.hand.contents.Sorted (· ≥ ·) ∧
        ∃ c, stackPeek p.hand = .ok c ∧ ∀ x ∈ p.hand.contents, c ≤ x := by
  obtain ⟨c1, -⟩ := gameLevelSetup_core game n_level r hg h1 h2
  obtain ⟨game1, r1, hok, -, -, g3, -, -, -, g7, -, -⟩ := c1 hcap
  refine ⟨game1, r1, hok, g3, ?_⟩
  intro p hp
  obtain ⟨hw, ht, hs⟩ := g7 p hp
  have hl := length_contents hw.1
  rw [ht] at hl
  obtain ⟨c, hc⟩ : ∃ c, p.hand.contents.getLast? = some c := by
    cases hg : p.hand.contents.getLast? with
    | none =>
      rw [List.getLast?_eq_none_iff] at hg
      rw [hg] at hl
      simp at hl; omega
    | some c => exact ⟨c, rfl⟩
  exact ⟨by rw [stackGetSize_of_wf hw.1, ht], hl, hs, c,
    (stackPeek_ok_iff hw.1 c).mpr hc, sorted_ge_getLast hs hc⟩

/-- C1: in every state reachable from `gameCreate` by `playTurn`, `count++` and `gameLevelNext`
steps the sizes of the deck, the pile and all hands add up to `MIND_DECK_SIZE`. -/
theorem C1_sizes_add_up_to_deck_size (game : game_t) (h : Reachable game) :
    stackGetSize game.deck + stackGetSize game.pile + handSizes game.players
      = MIND_DECK_SIZE := by
  have hi := inv_of_reachable h
  rw [stackGetSize_of_wf hi.deck_wf.1, stackGetSize_of_wf hi.pile_wf.1]
  exact hi.sizes

theorem C1_witness :
    Reachable ex_won ∧
    stackGetSize ex_won.deck + stackGetSize ex_won.pile + handSizes ex_won.players
      = MIND_DECK_SIZE :=
  ⟨ex_won_reachable, C1_sizes_add_up_to_deck_size ex_won ex_won_reachable⟩

/-- C3: for a game ready for the deal (full well-formed deck in any order, well-formed players
with empty hands) and a level `1 ≤ n_level ≤ MIND_MAX_LEVEL` with enough cards for all players,
`gameLevelSetup` returns, and every hand then holds exactly `n_level` cards sorted descending
from the bottom up, so that `stackPeek` shows a card no other card of the hand is below; and
`playerTryPlay` leaves every hand well-formed and sorted descending. -/
theorem C3_hands_sorted_descending (game : game_t) (n_level : Nat) (r : Rng)
    (hg : SetupReady game) (h1 : 1 ≤ n_level) (h2 : n_level ≤ MIND_MAX_LEVEL)
    (hcap : n_level * game.n_players ≤ MIND_DECK_SIZE) :
    (∃ game1 r1, gameLevelSetup game n_level r = .ok (game1, r1) ∧
      game1.players.length = game.n_players ∧
      ∀ p ∈ game1.players, stackGetSize p.hand = n_level ∧
        p.hand.contents.length = n_level ∧ p.hand.contents.Sorted (· ≥ ·) ∧
        ∃ c, stackPeek p.hand = .ok c ∧ ∀ x ∈ p.hand.contents, c ≤ x) ∧
    (∀ (g g1 : game_t) (i : Nat),
      (∀ p ∈ g.players, p.hand.wf ∧ p.hand.contents.Sorted (· ≥ ·)) →
      g.pile.wf → 1 ≤ g.pile.allocd → playerTryPlay g i = .ok g1 →
      ∀ p ∈ g1.players, p.hand.wf ∧ p.hand.contents.Sorted (· ≥ ·)) :=
  ⟨setup_hands game n_level r hg h1 h2 hcap,
   fun g g1 i hh hp hc heq => playerTryPlay_sorted g i g1 hh hp hc heq⟩

theorem C3_witness :
    SetupReady ex_ready ∧ 1 ≤ 2 ∧ 2 ≤ MIND_MAX_LEVEL ∧
    2 * ex_ready.n_players ≤ MIND_DECK_SIZE ∧
    ∃ game1 r1, gameLevelSetup ex_ready 2 [] = .ok (game1, r1) ∧
      game1.players.length = ex_ready.n_players ∧
      ∀ p ∈ game1.players, stackGetSize p.hand = 2 ∧
        p.hand.contents.length = 2 ∧ p.hand.contents.Sorted (· ≥ ·) ∧
        ∃ c, stackPeek p.hand = .ok c ∧ ∀ x ∈ p.hand.contents, c ≤ x :=
  ⟨by decide!, by decide, by decide, by decide,
   (C3_hands_sorted_descending ex_ready 2 [] (by decide!) (by decide) (by decide)
     (by decide)).1⟩

/-- C9: in every reachable state the pile is strictly ascending from the bottom up, so the card
`stackPeek` shows on the pile is the highest card of the pile. -/
theorem C9_pile_ascending (game : game_t) (h : Reachable game) :
    game.pile.contents.Sorted (· < ·) ∧
    ∀ c, stackPeek game.pile = .ok c → ∀ x ∈ game.pile.contents, x ≤ c := by
  have hi := inv_of_reachable h
  exact ⟨hi.pile_sorted, fun c hc =>
    sorted_lt_getLast hi.pile_sorted ((stackPeek_ok_iff hi.pile_wf.1 c).mp hc)⟩

theorem C9_witness :
    Reachable ex_won ∧ ex_won.pile.contents.Sorted (· < ·) :=
  ⟨ex_won_reachable, (C9_pile_ascending ex_won ex_won_reachable).1⟩

/-- The counters of a won round, for the states reached by whole `playTurn` steps: with
`status = true` the round is over, `n_cards` is 0, every hand is empty and the pile holds
`level.n * n_players` cards; `status` is not true while a hand holds a card; and a `playTurn`
from such a state with `status = false` ends with `status = true` exactly if it put a card on
the pile and `n_cards` is then 0.  The order of the cards on the pile is not part of this: the
locked section of `playTurn` does not look at the pile. -/
theorem won_state_counters (game : game_t) (h : Reachable game) :
    (game.level.status = true →
      game.level.is_over = true ∧ game.level.n_cards = 0 ∧
      (∀ p ∈ game.players, stackGetSize p.hand = 0) ∧
      stackGetSize game.pile = game.level.n * game.n_players ∧
      game.pile.contents.length = game.level.n * game.n_players) ∧
    ((∃ p ∈ game.players, stackGetSize p.hand ≠ 0) → game.level.status = false) ∧
    (∀ (i : Nat) (r r1 : Rng) (game1 : game_t), game.level.status = false →
      playTurn game i r = .ok (game1, r1) →
      (game1.level.status = true ↔
        stackGetSize game1.pile = stackGetSize game.pile + 1 ∧ game1.level.n_cards = 0)) := by
  have hi := inv_of_reachable h
  have hwon : game.level.status = true →
      game.level.is_over = true ∧ game.level.n_cards = 0 ∧
      (∀ p ∈ game.players, stackGetSize p.hand = 0) ∧
      stackGetSize game.pile = game.level.n * game.n_players ∧
      game.pile.contents.length = game.level.n * game.n_players := by
    intro hs
    obtain ⟨a1, a2⟩ := hi.status_over hs
    have hz : handSizes game.players = 0 := by rw [← hi.n_cards_eq]; exact a2
    have hrc := hi.round_cards
    rw [hz, Nat.add_zero] at hrc
    refine ⟨a1, a2, handSizes_zero hz, hrc, ?_⟩
    rw [length_contents hi.pile_wf.1, ← stackGetSize_of_wf hi.pile_wf.1]
    exact hrc
  refine ⟨hwon, ?_, ?_⟩
  · rintro ⟨p, hp, hne⟩
    cases hs : game.level.status with
    | false => rfl
    | true => exact absurd ((hwon hs).2.2.1 p hp) hne
  · intro i r r1 game1 hs heq
    obtain ⟨-, -, -, -, hcase⟩ := playTurn_spec game hi i r game1 r1 heq
    rcases hcase with ⟨n1, -, -, n4, -⟩ | ⟨c, -, -, p3, -, -, p6, -⟩
    · constructor
      · intro h1; rw [n4, hs] at h1; exact absurd h1 (by simp)
      · rintro ⟨h1, -⟩; rw [n1] at h1; omega
    · exact ⟨fun h1 => ⟨p3, p6.mp h1⟩, fun h1 => p6.mpr h1.2⟩

theorem won_state_counters_ex_won :
    Reachable ex_won ∧ ex_won.level.status = true ∧
    (ex_won.level.is_over = true ∧ ex_won.level.n_cards = 0 ∧
      (∀ p ∈ ex_won.players, stackGetSize p.hand = 0) ∧
      stackGetSize ex_won.pile = ex_won.level.n * ex_won.n_players ∧
      ex_won.pile.contents.length = ex_won.level.n * ex_won.n_players) :=
  ⟨ex_won_reachable, ex_won_status,
   (won_state_counters ex_won ex_won_reachable).1 ex_won_status⟩

/-! ## The capacity check within its range -/

/-- For a request `n` that does not exceed the capacity, `stackPushN` fails exactly when
`size + n > capacity`, with the stack as it was. -/
theorem stackPushN_capacity (s : stack_t) (hw : s.wf) (values : List Nat) (n : Nat)
    (hn : n ≤ s.allocd) :
    ((∃ e, stackPushN s values n = .error e) ↔ stackGetSize s + n > s.allocd) ∧
    (stackGetSize s + n > s.allocd →
      stackPushN s values n = .error (Fault.notEnoughMemory, s)) := by
  rw [stackPushN_eq hw values hn, stackGetSize_of_wf hw]
  by_cases hc : s.top + n ≤ s.allocd
  · rw [if_pos hc]
    exact ⟨⟨fun ⟨e, he⟩ => absurd he (by simp), fun h => absurd hc (by omega)⟩,
      fun h => absurd hc (by omega)⟩
  · rw [if_neg hc]
    exact ⟨⟨fun _ => by omega, fun _ => ⟨_, rfl⟩⟩, fun _ => rfl⟩

/-- For a request `n` that does not exceed the capacity of `dst`, `stackMoveN` fails with both
stacks as they were when `src` cannot supply `n` cards or `dst` cannot take them. -/
theorem stackMoveN_capacity (dst src : stack_t) (hd : dst.wf) (hs : src.wf) (n : Nat)
    (hn : n ≤ dst.allocd) (h : stackGetSize src < n ∨ stackGetSize dst + n > dst.allocd) :
    ∃ f, stackMoveN dst src n = .error (f, dst, src) := by
  rw [stackMoveN_eq hd hs hn]
  rw [stackGetSize_of_wf hd, stackGetSize_of_wf hs] at h
  by_cases hc : dst.top + n ≤ dst.allocd
  · rw [if_pos hc, if_neg (by omega)]
    exact ⟨_, rfl⟩
  · rw [if_neg hc]
    exact ⟨_, rfl⟩

/-! ## What a turn changes in the players -/

theorem adjustedOnly_refl (p : player_t) : AdjustedOnly p p := rfl

theorem adjustedOnly_trans {p p1 p2 : player_t} (h1 : AdjustedOnly p p1)
    (h2 : AdjustedOnly p1 p2) : AdjustedOnly p p2 := by
  unfold AdjustedOnly at *
  rw [h2, h1]

theorem playerFixBeat_adjusted (p : player_t) : AdjustedOnly p (playerFixBeat p) := by
  unfold playerFixBeat
  split_ifs <;> rfl

theorem playerAdjust_adjusted {p p1 : player_t} {c : Nat} {r r1 : Rng}
    (h : playerAdjust p c r = .ok (p1, r1)) : AdjustedOnly p p1 := by
  unfold playerAdjust at h
  split_ifs at h with h1
  · injection h with h
    rw [← (Prod.mk.inj h).1]
    rfl
  · simp only at h
    split at h
    · exact absurd h (by simp)
    · injection h with h
      rw [← (Prod.mk.inj h).1]
      rename_i b r2 _
      have e : AdjustedOnly p { p with timeout := { p.timeout with ADJUST := 2 }, beat := b } :=
        rfl
      exact adjustedOnly_trans e (playerFixBeat_adjusted _)

theorem getElem?_lt {α : Type} {l : List α} {i : Nat} {a : α} (h : l[i]? = some a) :
    i < l.length := by
  by_contra hc
  rw [List.getElem?_eq_none (by omega)] at h
  exact absurd h (by simp)

/-- The players after `adjustAt`: as many, each as before but for `beat` and
`timeout[ADJUST]`. -/
theorem adjustAt_adjusted {game game1 : game_t} {i c : Nat} {r r1 : Rng}
    (h : adjustAt game i c r = .ok (game1, r1)) :
    game1.players.length = game.players.length ∧
    ∀ (j : Nat) (q : player_t), game.players[j]? = some q →
      ∃ q1, game1.players[j]? = some q1 ∧ AdjustedOnly q q1 := by
  unfold adjustAt at h
  split at h
  · exact absurd h (by simp)
  · rename_i p hp
    split at h
    · exact absurd h (by simp)
    · rename_i p1 r2 hadj
      injection h with h
      rw [← (Prod.mk.inj h).1]
      refine ⟨List.length_set _ _ _, ?_⟩
      intro j q hq
      by_cases hj : i = j
      · subst hj
        rw [hp] at hq
        rw [← Option.some.inj hq]
        exact ⟨p1, List.getElem?_set_self (getElem?_lt hp), playerAdjust_adjusted hadj⟩
      · exact ⟨q, by simp only; rw [List.getElem?_set_ne hj]; exact hq, adjustedOnly_refl q⟩

theorem gameAssignBlame_adjusted {game game1 : game_t} {r r1 : Rng}
    (h : gameAssignBlame game r = .ok (game1, r1)) :
    game1.players.length = game.players.length ∧
    ∀ (j : Nat) (q : player_t), game.players[j]? = some q →
      ∃ q1, game1.players[j]? = some q1 ∧ AdjustedOnly q q1 := by
  unfold gameAssignBlame at h
  split at h
  · exact absurd h (by simp)
  · split at h
    · exact absurd h (by simp)
    · simp only at h
      split at h
      · exact absurd h (by simp)
      · rename_i g2 r2 h1
        obtain ⟨l1, a1⟩ := adjustAt_adjusted h1
        obtain ⟨l2, a2⟩ := adjustAt_adjusted h
        refine ⟨l2.trans l1, ?_⟩
        intro j q hq
        obtain ⟨q1, e1, b1⟩ := a1 j q hq
        obtain ⟨q2, e2, b2⟩ := a2 j q1 e1
        exact ⟨q2, e2, adjustedOnly_trans b1 b2⟩

/-- The locked section of `playTurn` writes no player but the one at index `i`. -/
theorem playTurnLocked_others {game game1 : game_t} {i : Nat}
    (h : playTurnLocked game i = .ok game1) :
    game1.players.length = game.players.length ∧
    ∀ j : Nat, j ≠ i → game1.players[j]? = game.players[j]? := by
  have key : ∀ g2, playerTryPlay game i = .ok g2 →
      g2.players.length = game.players.length ∧
      ∀ j : Nat, j ≠ i → g2.players[j]? = game.players[j]? := by
    intro g2 h2
    unfold playerTryPlay at h2
    split at h2
    · exact absurd h2 (by simp)
    · split at h2
      · exact absurd h2 (by simp)
      · split_ifs at h2
        · injection h2 with h2
          rw [← h2]
          exact ⟨rfl, fun _ _ => rfl⟩
        · split at h2
          · exact absurd h2 (by simp)
          · injection h2 with h2
            rw [← h2]
            exact ⟨List.length_set _ _ _, fun j hj => List.getElem?_set_ne (Ne.symm hj)⟩
  unfold playTurnLocked at h
  split_ifs at h
  · injection h with h
    rw [← h]
    exact ⟨rfl, fun _ _ => rfl⟩
  · split at h
    · exact absurd h (by simp)
    · rename_i g2 h2
      split_ifs at h <;>
      · injection h with h
        rw [← h]
        exact key g2 h2

theorem adjustedOnly_hand {p p1 : player_t} (h : AdjustedOnly p p1) : p1.hand = p.hand := by
  unfold AdjustedOnly at h
  rw [h]

theorem playerFixBeat_hand (p : player_t) : (playerFixBeat p).hand = p.hand :=
  (playerFixBeat_fields p).1

theorem playerFixFocus_hand (p : player_t) : (playerFixFocus p).hand = p.hand := by
  unfold playerFixFocus
  split_ifs <;> rfl

/-- The mood of a turn leaves the hand alone. -/
theorem playerMood_hand {p p1 : player_t} {lowest_card pile_card : Nat} {r r1 : Rng}
    (h : playerMood p lowest_card pile_card r = .ok (p1, r1)) : p1.hand = p.hand := by
  unfold playerMood at h
  split_ifs at h
  · unfold playerHesitate at h
    split_ifs at h
    · injection h with h
      rw [← (Prod.mk.inj h).1]
    · simp only at h
      split at h
      · exact absurd h (by simp)
      · injection h with h
        rw [← (Prod.mk.inj h).1, playerFixFocus_hand, playerFixBeat_hand]
  · simp only at h
    split_ifs at h
    · unfold playerConfused at h
      split_ifs at h
      · injection h with h
        rw [← (Prod.mk.inj h).1]
      · simp only at h
        split at h
        · exact absurd h (by simp)
        · injection h with h
          rw [← (Prod.mk.inj h).1, playerFixFocus_hand]
    · unfold playerBored at h
      split_ifs at h
      · injection h with h
        rw [← (Prod.mk.inj h).1]
      · simp only at h
        split at h
        · exact absurd h (by simp)
        · injection h with h
          rw [← (Prod.mk.inj h).1, playerFixFocus_hand, playerFixBeat_hand]

theorem map_hand_set {ps : List player_t} {i : Nat} {p p1 : player_t}
    (hi : ps[i]? = some p) (hh : p1.hand = p.hand) :
    (ps.set i p1).map (fun p => p.hand) = ps.map (fun p => p.hand) := by
  rw [List.map_set, hh]
  apply set_same
  rw [List.getElem?_map, hi]
  rfl

/-- The cases of `playTurn`: the caller holds a card `c`, the pile shows `t` (0 when empty),
and the turn is one of: a loss seen in a round that is over already; a loss detected, with the
blame assigned; a new pile card seen in a round that is over; or the mood of the caller
followed by the locked section. -/
theorem playTurn_cases {game game1 : game_t} {i : Nat} {r r1 : Rng}
    (h : playTurn game i r = .ok (game1, r1)) :
    ∃ p c t, game.players[i]? = some p ∧ stackPeek p.hand = .ok c ∧
      (if stackGetSize game.pile ≠ 0 then stackPeek game.pile else .ok 0) = .ok t ∧
      ((c < t ∧ game.level.is_over = true ∧ game1 = game) ∨
       (c < t ∧ game.level.is_over = false ∧
         gameAssignBlame { game with level := { game.level with is_over := true } } r
           = .ok (game1, r1)) ∨
       (t ≤ c ∧ game.level.is_over = true ∧ game1 = game) ∨
       (t ≤ c ∧ ∃ p2, p2.hand = p.hand ∧
         playTurnLocked { game with players := game.players.set i p2 } i = .ok game1)) := by
  unfold playTurn at h
  split at h
  · exact absurd h (by simp)
  · rename_i p hp
    split at h
    · exact absurd h (by simp)
    · rename_i t ht
      split at h
      · exact absurd h (by simp)
      · rename_i c hc
        refine ⟨p, c, t, hp, hc, ht, ?_⟩
        by_cases hlt : c < t
        · rw [if_pos hlt] at h
          by_cases hov : game.level.is_over = true
          · rw [if_pos hov] at h
            injection h with h
            exact Or.inl ⟨hlt, hov, ((Prod.mk.inj h).1).symm⟩
          · rw [if_neg hov] at h
            exact Or.inr (Or.inl ⟨hlt, by simpa using hov, h⟩)
        · rw [if_neg hlt] at h
          by_cases hadj : p.pile_card < t ∧ game.level.is_over = true
          · rw [if_pos hadj] at h
            injection h with h
            exact Or.inr (Or.inr (Or.inl ⟨not_lt.mp hlt, hadj.2, ((Prod.mk.inj h).1).symm⟩))
          · rw [if_neg hadj] at h
            split at h
            · exact absurd h (by simp)
            rename_i player1 r2 hadj1
            have hh1 : player1.hand = p.hand := by
              by_cases hpc2 : p.pile_card < t
              · rw [if_pos hpc2] at hadj1
                exact adjustedOnly_hand (playerAdjust_adjusted hadj1)
              · rw [if_neg hpc2] at hadj1
                injection hadj1 with hadj1
                rw [← (Prod.mk.inj hadj1).1]
            split at h
            · exact absurd h (by simp)
            · rename_i player2 r3 hmood
              have hh2 := playerMood_hand hmood
              split at h
              · exact absurd h (by simp)
              · rename_i g3 hlock
                injection h with h
                rw [← (Prod.mk.inj h).1]
                exact Or.inr (Or.inr (Or.inr ⟨not_lt.mp hlt, player2, hh2.trans hh1, hlock⟩))

/-- A turn in a round that is over moves no card and rewrites no result. -/
theorem playTurn_over {game game1 : game_t} {i : Nat} {r r1 : Rng}
    (hov : game.level.is_over = true) (h : playTurn game i r = .ok (game1, r1)) :
    game1.pile = game.pile ∧ game1.deck = game.deck ∧ game1.level = game.level ∧
    game1.n_players = game.n_players ∧
    game1.players.map (fun p => p.hand) = game.players.map (fun p => p.hand) := by
  obtain ⟨p, c, t, hp, hc, ht, hcase⟩ := playTurn_cases h
  rcases hcase with ⟨-, -, e⟩ | ⟨-, hf, -⟩ | ⟨-, -, e⟩ | ⟨-, p2, hh, hl⟩
  · rw [e]; exact ⟨rfl, rfl, rfl, rfl, rfl⟩
  · rw [hov] at hf; exact absurd hf (by simp)
  · rw [e]; exact ⟨rfl, rfl, rfl, rfl, rfl⟩
  · unfold playTurnLocked at hl
    rw [if_pos (by simpa using hov)] at hl
    injection hl with hl
    rw [← hl]
    exact ⟨rfl, rfl, rfl, rfl, map_hand_set hp hh⟩

/-- The players other than the caller after a turn: as before but for `beat` and
`timeout[ADJUST]`, and exactly as before when the turn does not detect the loss. -/
theorem playTurn_others {game game1 : game_t} {i : Nat} {r r1 : Rng}
    (h : playTurn game i r = .ok (game1, r1)) :
    game1.players.length = game.players.length ∧
    (∀ (j : Nat) (q : player_t), j ≠ i → game.players[j]? = some q →
      ∃ q1, game1.players[j]? = some q1 ∧ AdjustedOnly q q1) ∧
    ((game.level.is_over = true ∨
      ∀ (p : player_t) (c t : Nat), game.players[i]? = some p → stackPeek p.hand = .ok c →
        stackPeek game.pile = .ok t → t ≤ c) →
      ∀ j : Nat, j ≠ i → game1.players[j]? = game.players[j]?) := by
  obtain ⟨p, c, t, hp, hc, ht, hcase⟩ := playTurn_cases h
  have hsame : game1.players.length = game.players.length →
      (∀ j : Nat, j ≠ i → game1.players[j]? = game.players[j]?) →
      game1.players.length = game.players.length ∧
      (∀ (j : Nat) (q : player_t), j ≠ i → game.players[j]? = some q →
        ∃ q1, game1.players[j]? = some q1 ∧ AdjustedOnly q q1) ∧
      ((game.level.is_over = true ∨
        ∀ (p : player_t) (c t : Nat), game.players[i]? = some p → stackPeek p.hand = .ok c →
          stackPeek game.pile = .ok t → t ≤ c) →
        ∀ j : Nat, j ≠ i → game1.players[j]? = game.players[j]?) := by
    intro hl hs
    exact ⟨hl, fun j q hj hq => ⟨q, (hs j hj).trans hq, adjustedOnly_refl q⟩, fun _ => hs⟩
  rcases hcase with ⟨-, -, e⟩ | ⟨hlt, hf, hb⟩ | ⟨-, -, e⟩ | ⟨-, p2, hh, hl⟩
  · exact hsame (by rw [e]) (fun _ _ => by rw [e])
  · obtain ⟨l1, a1⟩ := gameAssignBlame_adjusted hb
    refine ⟨l1, fun j q _ hq => a1 j q hq, ?_⟩
    intro hno
    rcases hno with hno | hno
    · rw [hf] at hno; exact absurd hno (by simp)
    · by_cases hz : stackGetSize game.pile ≠ 0
      · rw [if_pos hz] at ht
        exact absurd (hno p c t hp hc ht) (by omega)
      · rw [if_neg hz] at ht
        injection ht with ht
        omega
  · exact hsame (by rw [e]) (fun _ _ => by rw [e])
  · obtain ⟨l1, a1⟩ := playTurnLocked_others hl
    apply hsame
    · rw [l1]; exact List.length_set _ _ _
    · intro j hj
      rw [a1 j hj]
      exact List.getElem?_set_ne (Ne.symm hj)

/-! ## Turns that return -/

theorem toUint32_lt_mod (q : ℚ) : toUint32 q < UINT32_MOD :=
  Nat.mod_lt _ (by unfold UINT32_MOD; omega)

theorem toUint32_half {n : Nat} {err : ℚ} (h1 : err ≤ 1 / 2) :
    2 * toUint32 ((n : ℚ) * err) ≤ n := by
  unfold toUint32
  have hf : 2 * Rat.floor ((n : ℚ) * err) ≤ (n : Int) := by
    have h2 : ((Rat.floor ((n : ℚ) * err) : Int) : ℚ) ≤ (n : ℚ) * err :=
      Rat.le_floor.mp (le_refl _)
    have h3 : (n : ℚ) * err ≤ (n : ℚ) * (1 / 2) :=
      mul_le_mul_of_nonneg_left h1 (Nat.cast_nonneg n)
    have h4 : ((2 * Rat.floor ((n : ℚ) * err) : Int) : ℚ) ≤ ((n : Int) : ℚ) := by
      push_cast
      linarith
    exact_mod_cast h4
  have h2 : 2 * (Rat.floor ((n : ℚ) * err)).toNat ≤ n := by omega
  have := Nat.mod_le (Rat.floor ((n : ℚ) * err)).toNat UINT32_MOD
  omega

/-- With an error of at most one half, `randi` returns for every `uint32_t` value `n`: the
modulus `2 * e` is neither zero nor wrapped. -/
theorem randi_total (n : Nat) (err : ℚ) (r : Rng) (hn : n < UINT32_MOD) (he : err ≤ 1 / 2) :
    ∃ v r1, randi n err r = .ok (v, r1) := by
  have h2 := @toUint32_half n err he
  unfold randi
  simp only
  by_cases hz : toUint32 ((n : ℚ) * err) = 0
  · rw [if_pos hz]
    exact ⟨_, _, rfl⟩
  · rw [if_neg hz]
    have hm : 2 * toUint32 ((n : ℚ) * err) % UINT32_MOD = 2 * toUint32 ((n : ℚ) * err) := by
      apply Nat.mod_eq_of_lt; omega
    rw [hm, if_neg (by omega)]
    exact ⟨_, _, rfl⟩

theorem playerAdjust_total (p : player_t) (c : Nat) (r : Rng) (h : playerGetError p ≤ 1) :
    ∃ p1 r1, playerAdjust p c r = .ok (p1, r1) := by
  unfold playerAdjust
  split_ifs
  · exact ⟨_, _, rfl⟩
  · simp only
    have he : playerGetError { p with timeout := { p.timeout with ADJUST := 2 } } * (1 / 2)
        ≤ 1 / 2 := by
      have : playerGetError { p with timeout := { p.timeout with ADJUST := 2 } }
          = playerGetError p := rfl
      rw [this]; linarith
    obtain ⟨v, r1, e⟩ := randi_total (toUint32 (((p.beat : ℚ) * ((u32_sub p.count p.pile_card
      : Nat) : ℚ) / (((c : Int) - (p.pile_card : Int) : Int) : ℚ) + (p.beat : ℚ)) * (1 / 2)))
      (playerGetError { p with timeout := { p.timeout with ADJUST := 2 } } * (1 / 2)) r
      (toUint32_lt_mod _) he
    rw [e]
    exact ⟨_, _, rfl⟩

theorem div_one_add_le_half {e : ℚ} (h0 : -1 < e) (h1 : e ≤ 1) : e / (1 + e) ≤ 1 / 2 := by
  rw [div_le_iff₀ (by linarith)]
  linarith

theorem randf_unit (r : Rng) : 0 ≤ (randf 0 1 r).1 ∧ (randf 0 1 r).1 < 1 := by
  have hx := rand_lt r
  unfold randf
  simp only
  generalize (rand r).1 = x at *
  unfold RAND_MAX at *
  have h0 : (0 : ℚ) ≤ (x : ℚ) := Nat.cast_nonneg x
  have h1 : (x : ℚ) ≤ 32767 := by exact_mod_cast hx
  constructor
  · have : (0 : ℚ) ≤ (x : ℚ) / ((32767 : ℕ) + 1) := by positivity
    linarith
  · have : (x : ℚ) / ((32767 : ℕ) + 1) < 1 := by
      rw [div_lt_one (by positivity)]
      push_cast
      linarith
    linarith

/-- The error of a well-formed player whose focus moved to `f`, `-1/20 ≤ 1 - f ≤ 1`. -/
theorem mood_error_bounds {p : player_t} (h : p.wf) (f : ℚ) (h0 : 0 ≤ f) (h1 : f ≤ 21 / 20) :
    -1 < (1 - p.skill) * (1 - f) * (1 / 4) ∧ (1 - p.skill) * (1 - f) * (1 / 4) ≤ 1 := by
  obtain ⟨_, _, h2, h3, _, _⟩ := h
  unfold MIND_MIN_SKILL at h2
  unfold MIND_MAX_SKILL at h3
  constructor <;> nlinarith

theorem playerBored_total (p : player_t) (r : Rng) (h : p.wf) :
    ∃ p1 r1, playerBored p r = .ok (p1, r1) := by
  unfold playerBored
  split_ifs
  · exact ⟨_, _, rfl⟩
  · simp only
    obtain ⟨b0, b1⟩ := mood_error_bounds h (p.focus * (95 / 100))
      (by have := h.2.2.2.2.1; positivity) (by have := h.2.2.2.2.2; linarith)
    generalize hn : toUint32 _ = n
    obtain ⟨v, r1, e⟩ := randi_total n
      (playerGetError { p with timeout := { p.timeout with BORED := p.threshold },
                               focus := p.focus * (95 / 100) } * (1 / 4) /
        (1 + playerGetError { p with timeout := { p.timeout with BORED := p.threshold },
                                     focus := p.focus * (95 / 100) } * (1 / 4))) r
      (by rw [← hn]; exact toUint32_lt_mod _) (div_one_add_le_half b0 b1)
    rw [e]
    exact ⟨_, _, rfl⟩

theorem playerHesitate_total (p : player_t) (r : Rng) (h : p.wf) :
    ∃ p1 r1, playerHesitate p r = .ok (p1, r1) := by
  unfold playerHesitate
  split_ifs
  · exact ⟨_, _, rfl⟩
  · simp only
    obtain ⟨b0, b1⟩ := mood_error_bounds h ((p.focus + 1 / 100) * (105 / 100))
      (by have := h.2.2.2.2.1; positivity) (by have := h.2.2.2.2.2; linarith)
    generalize hn : toUint32 _ = n
    obtain ⟨v, r1, e⟩ := randi_total n
      (playerGetError { p with timeout := { p.timeout with HESITATE := p.threshold },
                               focus := (p.focus + 1 / 100) * (105 / 100) } * (1 / 4) /
        (1 + playerGetError { p with timeout := { p.timeout with HESITATE := p.threshold },
                                     focus := (p.focus + 1 / 100) * (105 / 100) } * (1 / 4))) r
      (by rw [← hn]; exact toUint32_lt_mod _) (div_one_add_le_half b0 b1)
    rw [e]
    exact ⟨_, _, rfl⟩

/-- The mood of a well-formed player returns; the confused branch is never taken, as
`randf(0, 1) * (1 - skill)` stays below `0.34`. -/
theorem playerMood_total (p : player_t) (lowest_card pile_card : Nat) (r : Rng) (h : p.wf) :
    ∃ p1 r1, playerMood p lowest_card pile_card r = .ok (p1, r1) := by
  unfold playerMood
  split_ifs with h1
  · exact playerHesitate_total p r h
  · simp only
    split_ifs with h2
    · exfalso
      obtain ⟨x0, x1⟩ := randf_unit r
      obtain ⟨_, _, h3, h4, _, _⟩ := h
      unfold MIND_MIN_SKILL at h3
      unfold MIND_MAX_SKILL at h4
      nlinarith
    · exact playerBored_total p _ h

theorem stackPeek_total (s : stack_t) (hw : s.wf) (hz : stackGetSize s ≠ 0) :
    ∃ c, stackPeek s = .ok c := by
  rw [stackGetSize_of_wf hw] at hz
  obtain ⟨h1, h2, _⟩ := hw
  unfold stackPeek
  rw [if_neg hz, List.getElem?_eq_getElem (by omega)]
  exact ⟨_, rfl⟩

theorem stackPeek_size {s : stack_t} (hw : s.wf) {c : Nat} (h : stackPeek s = .ok c) :
    stackGetSize s ≠ 0 := by
  rw [stackGetSize_of_wf hw]
  intro h0
  unfold stackPeek at h
  rw [if_pos h0] at h
  exact absurd h (by simp)

/-- The first loop of `gameAssignBlame` returns on well-formed hands, with the index of a
player. -/
theorem blameSlow_total (N : Nat) : ∀ (ps : List player_t) (i : Nat) (acc : Nat × Nat),
    (∀ p ∈ ps, p.hand.wf) → acc.2 < N → i + ps.length ≤ N →
    ∃ res, blameSlow ps i acc = .ok res ∧ res.2 < N := by
  intro ps
  induction ps with
  | nil => intro i acc _ ha _; exact ⟨acc, rfl, ha⟩
  | cons q qs ih =>
    intro i acc hw ha hl
    have hq := hw q (List.mem_cons_self _ _)
    have hqs : ∀ p ∈ qs, p.hand.wf := fun p hp => hw p (List.mem_cons_of_mem _ hp)
    simp only [List.length_cons] at hl
    unfold blameSlow
    split_ifs with hz
    · exact ih (i + 1) acc hqs ha (by omega)
    · obtain ⟨c, hc⟩ := stackPeek_total q.hand hq hz
      rw [hc]
      simp only
      split_ifs
      · refine ih (i + 1) (c, i % UINT8_MOD) hqs ?_ (by omega)
        have := Nat.mod_le i UINT8_MOD
        simp only
        omega
      · exact ih (i + 1) acc hqs ha (by omega)

theorem blameFast_lt (lowest N : Nat) : ∀ (ps : List player_t) (i : Nat) (acc : Nat × Nat),
    acc.2 < N → i + ps.length ≤ N → (blameFast lowest ps i acc).2 < N := by
  intro ps
  induction ps with
  | nil => intro i acc ha _; exact ha
  | cons q qs ih =>
    intro i acc ha hl
    simp only [List.length_cons] at hl
    unfold blameFast
    split_ifs
    · refine ih (i + 1) (q.last_card_played, i % UINT8_MOD) ?_ (by omega)
      have := Nat.mod_le i UINT8_MOD
      simp only
      omega
    · exact ih (i + 1) acc ha (by omega)

theorem adjustAt_total (game : game_t) (i c : Nat) (r : Rng) (hi : i < game.players.length)
    (hw : ∀ p ∈ game.players, p.wf) : ∃ game1 r1, adjustAt game i c r = .ok (game1, r1) := by
  unfold adjustAt
  rw [List.getElem?_eq_getElem hi]
  simp only
  obtain ⟨p1, r1, e⟩ := playerAdjust_total game.players[i] c r
    (le_of_lt (playerGetError_bounds (hw _ (List.getElem_mem _))).2)
  rw [e]
  exact ⟨_, _, rfl⟩

/-- The blame assignment returns when the pile is not empty and the players, at least one, are
well-formed. -/
theorem gameAssignBlame_total (game : game_t) (r : Rng) (hne : 0 < game.players.length)
    (hw : ∀ p ∈ game.players, p.wf) (t : Nat) (ht : stackPeek game.pile = .ok t) :
    ∃ game1 r1, gameAssignBlame game r = .ok (game1, r1) := by
  unfold gameAssignBlame
  rw [ht]
  simp only
  obtain ⟨res, e1, hres⟩ := blameSlow_total game.players.length game.players 0
    (MIND_DECK_SIZE, 0) (fun p hp => (hw p hp).1) hne (by omega)
  rw [e1]
  simp only
  have hfast := blameFast_lt res.1 game.players.length game.players 0 (t, 0) hne (by omega)
  obtain ⟨g1, r1, e2⟩ := adjustAt_total game res.2
    (blameFast res.1 game.players 0 (t, 0)).1 r hres hw
  rw [e2]
  simp only
  obtain ⟨ps1, e3, hs⟩ := adjustAt_spec e2
  have hl : g1.players.length = game.players.length := by
    rw [e3]; exact sameHands_length hs
  exact adjustAt_total g1 _ _ r1 (by rw [hl]; exact hfast) (by rw [e3]; exact hs.2 hw)

/-! ## The end of a round -/

theorem playerTryPlay_result {game game1 : game_t} {i : Nat}
    (h : playerTryPlay game i = .ok game1) :
    game1.level.is_over = game.level.is_over ∧ game1.level.status = game.level.status := by
  unfold playerTryPlay at h
  split at h
  · exact absurd h (by simp)
  · split at h
    · exact absurd h (by simp)
    · split_ifs at h
      · injection h with h
        rw [← h]
        exact ⟨rfl, rfl⟩
      · split at h
        · exact absurd h (by simp)
        · injection h with h
          rw [← h]
          exact ⟨rfl, rfl⟩

/-- The locked section ends a round only by winning it. -/
theorem playTurnLocked_result {game game1 : game_t} {i : Nat}
    (h : playTurnLocked game i = .ok game1) (hov : game.level.is_over = false)
    (h1 : game1.level.is_over = true) : game1.level.status = true := by
  unfold playTurnLocked at h
  rw [if_neg (by rw [hov]; simp)] at h
  split at h
  · exact absurd h (by simp)
  · rename_i g2 h2
    obtain ⟨e1, -⟩ := playerTryPlay_result h2
    split_ifs at h
    · injection h with h
      rw [← h]
    · injection h with h
      rw [← h, e1] at h1
      exact absurd (hov.symm.trans h1) (by simp)

/-- In a round that is not over, a turn of a player whose lowest card is below the top of the
pile is the blame assignment on the game with `is_over` set. -/
theorem playTurn_loss {game : game_t} {i : Nat} (r : Rng) {p : player_t} {c t : Nat}
    (hov : game.level.is_over = false) (hpw : game.pile.wf)
    (hp : game.players[i]? = some p) (hc : stackPeek p.hand = .ok c)
    (ht : stackPeek game.pile = .ok t) (hlt : c < t) :
    playTurn game i r
      = gameAssignBlame { game with level := { game.level with is_over := true } } r := by
  have hsz := stackPeek_size hpw ht
  unfold playTurn
  rw [hp]
  simp only
  rw [if_pos hsz, ht]
  simp only
  rw [hc]
  simp only
  rw [if_pos hlt, if_neg (by rw [hov]; simp)]

/-- A turn in a round that is over returns, for a player with a card in a well-formed game. -/
theorem playTurn_over_total (game : game_t) (i : Nat) (r : Rng)
    (hov : game.level.is_over = true) (hpw : game.pile.wf) (hw : ∀ q ∈ game.players, q.wf)
    (hh : handNonEmpty game i) : ∃ game1 r1, playTurn game i r = .ok (game1, r1) := by
  obtain ⟨p, hp, hz⟩ := hh
  have hpwf := hw p (List.getElem?_mem hp)
  obtain ⟨c, hc⟩ := stackPeek_total p.hand hpwf.1 hz
  obtain ⟨t, ht⟩ : ∃ t, (if stackGetSize game.pile ≠ 0 then stackPeek game.pile else .ok 0)
      = .ok t := by
    by_cases hs : stackGetSize game.pile ≠ 0
    · rw [if_pos hs]; exact stackPeek_total game.pile hpw hs
    · rw [if_neg hs]; exact ⟨0, rfl⟩
  unfold playTurn
  rw [hp]
  simp only
  rw [ht]
  simp only
  rw [hc]
  simp only
  by_cases hlt : c < t
  · rw [if_pos hlt, if_pos hov]
    exact ⟨_, _, rfl⟩
  · rw [if_neg hlt]
    by_cases hadj : p.pile_card < t
    · rw [if_pos ⟨hadj, hov⟩]
      exact ⟨_, _, rfl⟩
    · rw [if_neg (fun hc => hadj hc.1), if_neg hadj]
      simp only
      obtain ⟨p2, r2, e⟩ := playerMood_total { p with pile_card := t % UINT8_MOD } c t r
        ((keeps_of_fields rfl rfl rfl : Keeps p { p with pile_card := t % UINT8_MOD }).2 hpwf)
      rw [e]
      simp only
      unfold playTurnLocked
      rw [if_pos (by simpa using hov)]
      exact ⟨_, _, rfl⟩

/-- From a state in which the round is over, the steps of the play loop change neither the
level record nor a card. -/
theorem roundRun_over {game game1 : game_t} (h : RoundRun game game1)
    (hov : game.level.is_over = true) :
    game1.level = game.level ∧ game1.pile = game.pile ∧ game1.deck = game.deck ∧
    game1.players.map (fun p => p.hand) = game.players.map (fun p => p.hand) := by
  induction h with
  | done => exact ⟨rfl, rfl, rfl, rfl⟩
  | count g1 i _ ih =>
    obtain ⟨a, b, c, d⟩ := ih
    obtain ⟨ps1, e, hs⟩ := playGameCount_sameHands g1 i
    rw [e]
    exact ⟨a, b, c, hs.1.trans d⟩
  | turn g1 g2 i r r1 _ heq ih =>
    obtain ⟨a, b, c, d⟩ := ih
    obtain ⟨a1, b1, c1, -, d1⟩ := playTurn_over (by rw [a]; exact hov) heq
    exact ⟨c1.trans a, a1.trans b, b1.trans c, d1.trans d⟩

theorem gameLevelSetup_resets {game game1 : game_t} {n_level : Nat} {r r1 : Rng}
    (h : gameLevelSetup game n_level r = .ok (game1, r1)) :
    game1.level.is_over = false ∧ game1.level.status = false := by
  unfold gameLevelSetup at h
  split_ifs at h
  split at h
  · exact absurd h (by simp)
  · split at h
    · exact absurd h (by simp)
    · simp only at h
      split at h
      · exact absurd h (by simp)
      · injection h with h
        rw [← (Prod.mk.inj h).1]
        exact ⟨rfl, rfl⟩

set_option maxRecDepth 100000 in
theorem ex_late_reachable : Reachable ex_late :=
  reachable_turnOf _ 1 [] (reachable_countN 76 1 _ ex_created_reachable)
    (by decide!) (by decide!)

/-- **C11** In a round that is not over (`is_over = false`), `playTurn` of a player whose lowest
card, the top of its hand, is below the top card of the pile returns with `is_over = true`,
the status as it was (false in every reachable state whose round is not over) and no card
moved: pile, deck, hands and `n_cards` are unchanged. Conversely a turn that starts with
`is_over = false` and ends with `is_over = true` and `status = false` is such a turn. -/
theorem C11_loss_is_detected (game : game_t) (i : Nat) (r : Rng)
    (hov : game.level.is_over = false) :
    (∀ (p : player_t) (c t : Nat), game.pile.wf → (∀ q ∈ game.players, q.wf) →
      game.players[i]? = some p → stackPeek p.hand = .ok c → stackPeek game.pile = .ok t →
      c < t →
      ∃ game1 r1, playTurn game i r = .ok (game1, r1) ∧
        game1.level.is_over = true ∧ game1.level.status = game.level.status ∧
        game1.level.n_cards = game.level.n_cards ∧ game1.level.n = game.level.n ∧
        game1.pile = game.pile ∧ game1.deck = game.deck ∧
        game1.players.map (fun q => q.hand) = game.players.map (fun q => q.hand)) ∧
    (Reachable game → game.level.status = false) ∧
    (∀ (game1 : game_t) (r1 : Rng), playTurn game i r = .ok (game1, r1) →
      game1.level.is_over = true → game1.level.status = false →
      ∃ p c t, game.players[i]? = some p ∧ stackPeek p.hand = .ok c ∧
        stackPeek game.pile = .ok t ∧ c < t) := by
  refine ⟨?_, ?_, ?_⟩
  · intro p c t hpw hw hp hc ht hlt
    rw [playTurn_loss r hov hpw hp hc ht hlt]
    obtain ⟨game1, r1, e⟩ := gameAssignBlame_total
      { game with level := { game.level with is_over := true } } r
      (Nat.lt_of_le_of_lt (Nat.zero_le i) (getElem?_lt hp)) hw t ht
    obtain ⟨ps1, e1, hs⟩ := gameAssignBlame_spec e
    refine ⟨game1, r1, e, ?_⟩
    rw [e1]
    exact ⟨rfl, rfl, rfl, rfl, rfl, rfl, hs.1⟩
  · intro hr
    cases hs : game.level.status
    · rfl
    · have := ((inv_of_reachable hr).status_over hs).1
      rw [hov] at this
      exact absurd this (by simp)
  · intro game1 r1 h h1 h2
    obtain ⟨p, c, t, hp, hc, ht, hcase⟩ := playTurn_cases h
    rcases hcase with ⟨-, hf, -⟩ | ⟨hlt, -, -⟩ | ⟨-, hf, -⟩ | ⟨-, p2, -, hl⟩
    · rw [hov] at hf; exact absurd hf (by simp)
    · refine ⟨p, c, t, hp, hc, ?_, hlt⟩
      by_cases hz : stackGetSize game.pile ≠ 0
      · rw [if_pos hz] at ht; exact ht
      · rw [if_neg hz] at ht
        injection ht with ht
        omega
    · rw [hov] at hf; exact absurd hf (by simp)
    · have := playTurnLocked_result hl hov h1
      rw [h2] at this
      exact absurd this (by simp)

set_option maxRecDepth 100000 in
theorem C11_witness :
    ex_late.level.is_over = false ∧ stackPeek ex_late.pile = .ok 76 ∧
    ∃ game1 r1, playTurn ex_late 2 [] = .ok (game1, r1) ∧
      game1.level.is_over = true ∧ game1.level.status = ex_late.level.status ∧
      game1.level.n_cards = ex_late.level.n_cards ∧ game1.level.n = ex_late.level.n ∧
      game1.pile = ex_late.pile ∧ game1.deck = ex_late.deck ∧
      game1.players.map (fun q => q.hand) = ex_late.players.map (fun q => q.hand) :=
  ⟨by decide!, by decide!,
   (C11_loss_is_detected ex_late 2 [] (by decide!)).1
     { hand := { cards := [49, 0, 0, 0, 0, 0, 0, 0, 0, 0, 0, 0], top := 1, allocd := 12 }
       skill := 33 / 50, focus := 1 / 2, beat := 85, count := 0
       timeout := { ADJUST := 0, BORED := 0, HESITATE := 0, CONFUSED := 0 }
       pile_card := 0, last_card_played := 0, threshold := 22, n := 2 }
     49 76 (by decide!) (by decide!) (by decide!) (by decide!) (by decide!) (by decide!)⟩

/-- **C12** In a state whose round is over (`is_over = true`), `playTurn` plays no card and
rewrites no result: pile, deck, every hand and the level record (`n_cards`, `is_over`,
`status`) are unchanged, and the turn returns for a player with a card in a well-formed game.
So along the steps of the play loop `is_over` stays true, with the same pile, hands and
result, and only `gameLevelSetup` sets it back to false. -/
theorem C12_over_round_is_frozen (game : game_t) (hov : game.level.is_over = true) :
    (∀ (i : Nat) (r : Rng) (game1 : game_t) (r1 : Rng), playTurn game i r = .ok (game1, r1) →
      game1.pile = game.pile ∧ game1.deck = game.deck ∧ game1.level = game.level ∧
      game1.players.map (fun p => p.hand) = game.players.map (fun p => p.hand)) ∧
    (∀ (i : Nat) (r : Rng), game.pile.wf → (∀ q ∈ game.players, q.wf) → handNonEmpty game i →
      ∃ game1 r1, playTurn game i r = .ok (game1, r1)) ∧
    (∀ game1 : game_t, RoundRun game game1 →
      game1.level = game.level ∧ game1.pile = game.pile ∧ game1.deck = game.deck ∧
      game1.players.map (fun p => p.hand) = game.players.map (fun p => p.hand)) ∧
    (∀ (n_level : Nat) (r : Rng) (game1 : game_t) (r1 : Rng),
      gameLevelSetup game n_level r = .ok (game1, r1) → game1.level.is_over = false) := by
  refine ⟨?_, ?_, ?_, ?_⟩
  · intro i r game1 r1 h
    obtain ⟨a, b, c, -, d⟩ := playTurn_over hov h
    exact ⟨a, b, c, d⟩
  · intro i r hpw hw hh
    exact playTurn_over_total game i r hov hpw hw hh
  · intro game1 h
    exact roundRun_over h hov
  · intro n_level r game1 r1 h
    exact (gameLevelSetup_resets h).1

set_option maxRecDepth 100000 in
theorem C12_witness :
    ex_lost.level.is_over = true ∧
    (∃ game1 r1, playTurn ex_lost 0 [] = .ok (game1, r1)) ∧
    ∀ (game1 : game_t) (r1 : Rng), playTurn ex_lost 0 [] = .ok (game1, r1) →
      game1.pile = ex_lost.pile ∧ game1.deck = ex_lost.deck ∧ game1.level = ex_lost.level ∧
      game1.players.map (fun p => p.hand) = ex_lost.players.map (fun p => p.hand) :=
  ⟨by decide!,
   (C12_over_round_is_frozen ex_lost (by decide!)).2.1 0 [] (by decide!) (by decide!)
     (by decide!),
   (C12_over_round_is_frozen ex_lost (by decide!)).1 0 []⟩

set_option maxRecDepth 100000 in
theorem ex_raced_reachable : Reachable ex_raced := by
  have h1 : Reachable (countN 4 0 ex_created) := reachable_countN 4 0 _ ex_created_reachable
  have h2 : Reachable (turnOf (countN 4 0 ex_created) 0 []) :=
    reachable_turnOf _ 0 [] h1 (by decide!) (by decide!)
  have h3 : Reachable (countN 76 1 (turnOf (countN 4 0 ex_created) 0 [])) :=
    reachable_countN 76 1 _ h2
  have h4 : Reachable (turnOf (countN 76 1 (turnOf (countN 4 0 ex_created) 0 [])) 1 []) :=
    reachable_turnOf _ 1 [] h3 (by decide!) (by decide!)
  exact reachable_countN 49 2 _ h4

set_option maxRecDepth 100000 in
/-- **C13** The locked section of `playTurn` (`playerTryPlay` and the win check) does not
compare the card with the top of the pile: in the reachable state `ex_raced`, where the round
is on, the pile holds 4 and 76 and player 2 holds the 49, the last card of the round, the
locked section appends the 49 on top of the 76 and declares the round won. -/
theorem C13_locked_section_plays_below_top :
    Reachable ex_raced ∧ ex_raced.level.is_over = false ∧ handNonEmpty ex_raced 2 ∧
    ex_raced.pile.contents = [4, 76] ∧ stackPeek ex_raced.pile = .ok 76 ∧
    (playTurnLocked ex_raced 2).map
        (fun g => (g.pile.contents, g.level.is_over, g.level.status))
      = .ok ([4, 76, 49], true, true) :=
  ⟨ex_raced_reachable, by decide!, by decide!, by decide!, by decide!, by decide!⟩

set_option maxRecDepth 100000 in
/-- **C10** The locked section of `playTurn` declares a round won whose pile is not ascending:
in the reachable state `ex_raced` the round is on with `status = false`, the pile holds 4 and
76 and one card is left, the 49 in the hand of player 2.  The locked section for player 2
(`playerTryPlay` and the win check, which compare nothing with the pile) ends with
`status = true`, `n_cards = 0`, every hand empty and the pile holding the
`level.n * n_players` cards of the round as 4, 76, 49, which is not in ascending order. -/
theorem C10_won_with_pile_out_of_order :
    Reachable ex_raced ∧ ex_raced.level.status = false ∧ ex_raced.level.is_over = false ∧
    ex_raced.level.n_cards = 1 ∧ ex_raced.pile.contents = [4, 76] ∧
    ∃ game1, playTurnLocked ex_raced 2 = .ok game1 ∧
      game1.level.status = true ∧ game1.level.is_over = true ∧ game1.level.n_cards = 0 ∧
      (∀ p ∈ game1.players, stackGetSize p.hand = 0) ∧
      stackGetSize game1.pile = game1.level.n * game1.n_players ∧
      game1.pile.contents = [4, 76, 49] ∧
      ¬ game1.pile.contents.Sorted (· < ·) := by
  have h : (playTurnLocked ex_raced 2).map
      (fun g => (g.level.status, g.level.is_over, g.level.n_cards, g.pile.contents))
      = .ok (true, true, 0, [4, 76, 49]) := by decide!
  have k : (playTurnLocked ex_raced 2).map
      (fun g => (g.players.map (fun p => stackGetSize p.hand),
        stackGetSize g.pile, g.level.n * g.n_players))
      = .ok ([0, 0, 0], 3, 3) := by decide!
  refine ⟨ex_raced_reachable, by decide!, by decide!, by decide!, by decide!, ?_⟩
  cases hg : playTurnLocked ex_raced 2 with
  | error f => rw [hg] at h; exact absurd h (by simp [Except.map])
  | ok g =>
    rw [hg] at h k
    simp only [Except.map, Except.ok.injEq, Prod.mk.injEq] at h k
    obtain ⟨h1, h2, h3, h7⟩ := h
    obtain ⟨h4, h5, h6⟩ := k
    refine ⟨g, rfl, h1, h2, h3, ?_, by rw [h5, h6], h7, by rw [h7]; decide⟩
    intro p hp
    have hm := List.mem_map_of_mem (fun p => stackGetSize p.hand) hp
    rw [h4] at hm
    simpa using hm

set_option maxRecDepth 100000 in
/-- **C16** (counterexample) The turn of player 2 in `ex_late`, which detects the loss, changes
`beat` and `timeout[ADJUST]` of player 0: from 85 and 0 to 39 and 1. -/
theorem C16_counterexample :
    ex_late.players.map (fun p => (p.beat, p.timeout.ADJUST)) = [(85, 0), (78, 0), (85, 0)] ∧
    (playTurn ex_late 2 []).map
        (fun x => x.1.players.map (fun p => (p.beat, p.timeout.ADJUST)))
      = .ok [(39, 1), (78, 0), (85, 0)] := by
  decide!

/-- **C16** (amended) `playTurn` for the player at index `i` keeps the number of players and
leaves every other player as it was but for `beat` and `timeout[ADJUST]`, the two fields
`playerAdjust` writes for the players the blame assignment picks; a turn that does not detect
the loss (the round is over already, or the lowest card of the caller is not below the top of
the pile) leaves every other player exactly as it was. -/
theorem C16_turn_adjusts_others_only (game game1 : game_t) (i : Nat) (r r1 : Rng)
    (h : playTurn game i r = .ok (game1, r1)) :
    game1.players.length = game.players.length ∧
    (∀ (j : Nat) (q : player_t), j ≠ i → game.players[j]? = some q →
      ∃ q1, game1.players[j]? = some q1 ∧ AdjustedOnly q q1) ∧
    ((game.level.is_over = true ∨
      ∀ (p : player_t) (c t : Nat), game.players[i]? = some p → stackPeek p.hand = .ok c →
        stackPeek game.pile = .ok t → t ≤ c) →
      ∀ j : Nat, j ≠ i → game1.players[j]? = game.players[j]?) :=
  playTurn_others h

set_option maxRecDepth 100000 in
theorem C16_witness :
    playTurn ex_late 2 [] = .ok (ex_lost, []) ∧
    ex_lost.players.length = ex_late.players.length ∧
    (∀ (j : Nat) (q : player_t), j ≠ 2 → ex_late.players[j]? = some q →
      ∃ q1, ex_lost.players[j]? = some q1 ∧ AdjustedOnly q q1) ∧
    ((ex_late.level.is_over = true ∨
      ∀ (p : player_t) (c t : Nat), ex_late.players[2]? = some p → stackPeek p.hand = .ok c →
        stackPeek ex_late.pile = .ok t → t ≤ c) →
      ∀ j : Nat, j ≠ 2 → ex_lost.players[j]? = ex_late.players[j]?) :=
  ⟨by decide!, C16_turn_adjusts_others_only ex_late ex_lost 2 [] [] (by decide!)⟩

/-- **C17** (counterexample) The hands of the game `gameCreate` returns on the oracle `[]` have
capacity 12, not `MIND_DECK_SIZE`. -/
theorem C17_counterexample :
    gameCreate MIND_N_PLAYERS [] = .ok (ex_created, []) ∧
    ex_created.players.map (fun p => p.hand.allocd) = [12, 12, 12] ∧
    ¬ (∀ p ∈ ex_created.players, p.hand.allocd = MIND_DECK_SIZE) :=
  ⟨ex_created_eq, by decide, by decide⟩

/-- **C17** (amended) In every game `gameCreate` returns, deck and pile have capacity
`MIND_DECK_SIZE` (100) and each hand has capacity `MIND_MAX_LEVEL` (12); the buffers have
that many cells. -/
theorem C17_capacities (n_players : Nat) (r r1 : Rng) (game : game_t)
    (h : gameCreate n_players r = .ok (game, r1)) :
    game.deck.allocd = MIND_DECK_SIZE ∧ game.deck.cards.length = MIND_DECK_SIZE ∧
    game.pile.allocd = MIND_DECK_SIZE ∧ game.pile.cards.length = MIND_DECK_SIZE ∧
    ∀ p ∈ game.players, p.hand.allocd = MIND_MAX_LEVEL ∧
      p.hand.cards.length = MIND_MAX_LEVEL := by
  have hi := inv_of_create n_players r r1 game h
  refine ⟨hi.deck_wf.2, hi.deck_wf.1.1.trans hi.deck_wf.2, hi.pile_wf.2,
    hi.pile_wf.1.1.trans hi.pile_wf.2, ?_⟩
  intro p hp
  have hw := hi.players_wf p hp
  exact ⟨hw.2.1, hw.1.1.trans hw.2.1⟩

theorem C17_witness :
    ex_created.deck.allocd = MIND_DECK_SIZE ∧ ex_created.deck.cards.length = MIND_DECK_SIZE ∧
    ex_created.pile.allocd = MIND_DECK_SIZE ∧ ex_created.pile.cards.length = MIND_DECK_SIZE ∧
    ∀ p ∈ ex_created.players, p.hand.allocd = MIND_MAX_LEVEL ∧
      p.hand.cards.length = MIND_MAX_LEVEL :=
  C17_capacities MIND_N_PLAYERS [] [] ex_created ex_created_eq

/-! ## The steps of deckShmush -/

/-- One repetition of the loop of `deckShmush`, in terms of its draws and its copies. -/
theorem shmushLoop_succ (sz fuel : Nat) (cards temp : List Nat) (r : Rng) :
    shmushLoop sz (fuel + 1) cards temp r
      = if sz / 8 = 0 ∨ u32_sub sz (shmushDraw sz r).1 = 0 ∨
            u32_sub sz ((3 * (shmushDraw sz r).1) % UINT32_MOD) = 0 then
          .error Fault.undefinedBehaviour
        else
          shmushLoop sz fuel
            (shmushSwap sz cards temp (shmushDraw sz r).1 (shmushDraw sz r).2.1
              (shmushDraw sz r).2.2.1).1
            (shmushSwap sz cards temp (shmushDraw sz r).1 (shmushDraw sz r).2.1
              (shmushDraw sz r).2.2.1).2
            (shmushDraw sz r).2.2.2 := by
  conv_lhs => unfold shmushLoop
  unfold shmushDraw shmushSwap
  simp only
  by_cases h1 : sz / 8 = 0
  · rw [if_pos h1, if_pos (Or.inl h1)]
  · rw [if_neg h1]
    by_cases h2 : u32_sub sz (((rand r).1 % (sz / 8) + 8) % UINT32_MOD) = 0
    · rw [if_pos h2, if_pos (Or.inr (Or.inl h2))]
    · rw [if_neg h2]
      by_cases h3 : u32_sub sz (3 * (((rand r).1 % (sz / 8) + 8) % UINT32_MOD) % UINT32_MOD) = 0
      · rw [if_pos h3, if_pos (Or.inr (Or.inr h3))]
      · rw [if_neg h3, if_neg (not_or.mpr ⟨h1, not_or.mpr ⟨h2, h3⟩⟩)]

/-- The draws of a repetition on a full deck: no modulus is zero or wrapped, the block length is
8 to 19, both blocks lie inside the deck and do not overlap. -/
theorem shmushDraw_full (r : Rng) :
    MIND_DECK_SIZE / 8 = 12 ∧
    8 ≤ (shmushDraw MIND_DECK_SIZE r).1 ∧ (shmushDraw MIND_DECK_SIZE r).1 ≤ 19 ∧
    u32_sub MIND_DECK_SIZE (shmushDraw MIND_DECK_SIZE r).1
      = MIND_DECK_SIZE - (shmushDraw MIND_DECK_SIZE r).1 ∧
    u32_sub MIND_DECK_SIZE ((3 * (shmushDraw MIND_DECK_SIZE r).1) % UINT32_MOD)
      = MIND_DECK_SIZE - 3 * (shmushDraw MIND_DECK_SIZE r).1 ∧
    (shmushDraw MIND_DECK_SIZE r).2.1 + (shmushDraw MIND_DECK_SIZE r).1 ≤ MIND_DECK_SIZE ∧
    (shmushDraw MIND_DECK_SIZE r).2.2.1 + (shmushDraw MIND_DECK_SIZE r).1 ≤ MIND_DECK_SIZE ∧
    ((shmushDraw MIND_DECK_SIZE r).2.1 + (shmushDraw MIND_DECK_SIZE r).1
        ≤ (shmushDraw MIND_DECK_SIZE r).2.2.1 ∨
      (shmushDraw MIND_DECK_SIZE r).2.2.1 + (shmushDraw MIND_DECK_SIZE r).1
        ≤ (shmushDraw MIND_DECK_SIZE r).2.1) := by
  unfold shmushDraw
  simp only
  generalize hx1 : (rand r).1 = x1
  generalize hr1 : (rand r).2 = r1
  generalize hx2 : (rand r1).1 = x2
  generalize hr2 : (rand r1).2 = r2
  generalize hx3 : (rand r2).1 = x3
  have h8 : MIND_DECK_SIZE / 8 = 12 := by decide
  rw [h8]
  have hn1 : x1 % 12 < 12 := Nat.mod_lt _ (by omega)
  have hn : (x1 % 12 + 8) % UINT32_MOD = x1 % 12 + 8 := by
    apply Nat.mod_eq_of_lt; unfold UINT32_MOD; omega
  rw [hn]
  generalize hnn : x1 % 12 + 8 = n at *
  have hm2 : u32_sub MIND_DECK_SIZE n = 100 - n := by
    unfold u32_sub UINT32_MOD MIND_DECK_SIZE; omega
  have h3n : 3 * n % UINT32_MOD = 3 * n := by
    apply Nat.mod_eq_of_lt; unfold UINT32_MOD; omega
  have hm3 : u32_sub MIND_DECK_SIZE (3 * n) = 100 - 3 * n := by
    unfold u32_sub UINT32_MOD MIND_DECK_SIZE; omega
  rw [h3n, hm2, hm3]
  have hsrc : x2 % (100 - n) < 100 - n := Nat.mod_lt _ (by omega)
  have hdst : x3 % (100 - 3 * n) < 100 - 3 * n := Nat.mod_lt _ (by omega)
  generalize x2 % (100 - n) = src at *
  generalize x3 % (100 - 3 * n) = dst at *
  have hD : MIND_DECK_SIZE = 100 := rfl
  refine ⟨rfl, by omega, by omega, by omega, by omega, by omega, ?_, ?_⟩
  · split_ifs <;> omega
  · split_ifs <;> omega

/-- Exchanging two blocks of `n` cells that do not overlap, whichever of the two is written
first, gives the buffer with the two blocks in each other's place. -/
theorem blockSwap_exchanged (l : List Nat) (a b n : Nat) (hab : a + n ≤ b)
    (hb : b + n ≤ l.length) :
    BlocksExchanged l (writeN (writeN l b (readN l a n)) a (readN l b n)) a b n ∧
    BlocksExchanged l (writeN (writeN l a (readN l b n)) b (readN l a n)) a b n := by
  obtain ⟨A, X, R, hl, hA, hX⟩ := split_block l a n (by omega)
  have hR : (b - a - n) + n ≤ R.length := by
    have : l.length = A.length + X.length + R.length := by rw [hl]; simp; omega
    omega
  obtain ⟨B, Y, C, hR2, hB, hY⟩ := split_block R (b - a - n) n hR
  subst hR2
  have hb' : b = (A ++ X ++ B).length := by simp; omega
  have e1 : l = (A ++ X ++ B) ++ Y ++ C := by rw [hl]; simp
  have e2 : l = A ++ X ++ (B ++ Y ++ C) := hl
  have rX : readN l a n = X := by rw [e2, ← hA, ← hX]; exact readN_append _ _ _
  have rY : readN l b n = Y := by rw [e1, hb', ← hY]; exact readN_append _ _ _
  rw [rX, rY]
  have w1 : writeN l b X = (A ++ X ++ B) ++ X ++ C := by
    rw [e1, hb']; exact writeN_append _ _ _ _ (by omega)
  have w2 : writeN l a Y = A ++ Y ++ (B ++ Y ++ C) := by
    rw [e2, ← hA]; exact writeN_append _ _ _ _ (by omega)
  have w3 : writeN ((A ++ X ++ B) ++ X ++ C) a Y = A ++ Y ++ B ++ X ++ C := by
    have : (A ++ X ++ B) ++ X ++ C = A ++ X ++ (B ++ X ++ C) := by simp
    rw [this, ← hA, writeN_append _ _ _ _ (by omega)]
    simp
  have w4 : writeN (A ++ Y ++ (B ++ Y ++ C)) b X = A ++ Y ++ B ++ X ++ C := by
    have : A ++ Y ++ (B ++ Y ++ C) = (A ++ Y ++ B) ++ Y ++ C := by simp
    have hb2 : b = (A ++ Y ++ B).length := by simp; omega
    rw [this, hb2]; exact writeN_append _ _ _ _ (by omega)
  constructor
  · rw [w1, w3]; exact ⟨A, X, B, Y, C, e1, rfl, hA, hX, hb'.symm, hY⟩
  · rw [w2, w4]; exact ⟨A, X, B, Y, C, e1, rfl, hA, hX, hb'.symm, hY⟩

/-- The copies of one repetition of `deckShmush` exchange the two blocks, when these lie inside
the buffers and do not overlap. -/
theorem shmushSwap_exchanged (cards temp : List Nat) (n src dst : Nat)
    (hc : cards.length = MIND_DECK_SIZE) (ht : temp.length = MIND_DECK_SIZE)
    (hs : src + n ≤ MIND_DECK_SIZE) (hd : dst + n ≤ MIND_DECK_SIZE)
    (hdis : src + n ≤ dst ∨ dst + n ≤ src) :
    (shmushSwap MIND_DECK_SIZE cards temp n src dst).1.length = MIND_DECK_SIZE ∧
    (shmushSwap MIND_DECK_SIZE cards temp n src dst).2.length = MIND_DECK_SIZE ∧
    BlocksExchanged cards (shmushSwap MIND_DECK_SIZE cards temp n src dst).1
      (min src dst) (max src dst) n := by
  unfold shmushSwap
  simp only
  have hlr : (readN cards dst n).length = n := length_readN_of_le (by omega)
  have ht1 : readN (memcpy_s temp 0 MIND_DECK_SIZE cards dst n) 0 n = readN cards dst n := by
    rw [memcpy_s_of_le (by omega)]
    have := @readN_writeN_same temp 0 (readN cards dst n) (by omega)
    rw [hlr] at this
    exact this
  have hc2 : memcpy_s (memcpy_s cards dst MIND_DECK_SIZE cards src n) src MIND_DECK_SIZE
      (memcpy_s temp 0 MIND_DECK_SIZE cards dst n) 0 n
      = writeN (writeN cards dst (readN cards src n)) src (readN cards dst n) := by
    rw [memcpy_s_of_le (by omega), memcpy_s_of_le (by omega), ht1]
  rw [hc2]
  refine ⟨by rw [length_writeN, length_writeN]; exact hc, by rw [length_memcpy_s]; exact ht, ?_⟩
  rcases hdis with h | h
  · rw [min_eq_left (by omega), max_eq_right (by omega)]
    exact (blockSwap_exchanged cards src dst n h (by omega)).1
  · rw [min_eq_right (by omega), max_eq_left (by omega)]
    exact (blockSwap_exchanged cards dst src n h (by omega)).2

theorem ex_deck_size : stackGetSize ex_deck = MIND_DECK_SIZE := by decide

/-- **C19** On a full deck (`sz = MIND_DECK_SIZE`), for every outcome of `rand()`: each
repetition of `deckShmush`, run on buffers of `MIND_DECK_SIZE` cells, has moduli `sz / 8`,
`sz - n` and `sz - 3 * n` that are neither zero nor wrapped, draws a block length `n` with
`8 ≤ n ≤ 20`, and exchanges two blocks of `n` cells that lie inside the deck and do not
overlap, leaving buffers of `MIND_DECK_SIZE` cells to the next repetition; and `deckShmush`
returns a deck of the same size holding a permutation of the cards. -/
theorem C19_shmush_exchanges_blocks (deck : stack_t) (r : Rng) (hw : deck.wf)
    (ha : deck.allocd = MIND_DECK_SIZE) (ht : stackGetSize deck = MIND_DECK_SIZE) :
    (∀ (fuel : Nat) (cards temp : List Nat) (r0 : Rng),
      cards.length = MIND_DECK_SIZE → temp.length = MIND_DECK_SIZE →
      ∃ n src dst cards1 temp1,
        (n, src, dst) = ((shmushDraw MIND_DECK_SIZE r0).1, (shmushDraw MIND_DECK_SIZE r0).2.1,
          (shmushDraw MIND_DECK_SIZE r0).2.2.1) ∧
        MIND_DECK_SIZE / 8 ≠ 0 ∧
        n < MIND_DECK_SIZE ∧ u32_sub MIND_DECK_SIZE n = MIND_DECK_SIZE - n ∧
        3 * n < MIND_DECK_SIZE ∧
        u32_sub MIND_DECK_SIZE ((3 * n) % UINT32_MOD) = MIND_DECK_SIZE - 3 * n ∧
        8 ≤ n ∧ n ≤ 20 ∧
        src + n ≤ stackGetSize deck ∧ dst + n ≤ stackGetSize deck ∧
        (src + n ≤ dst ∨ dst + n ≤ src) ∧
        BlocksExchanged cards cards1 (min src dst) (max src dst) n ∧
        cards1.length = MIND_DECK_SIZE ∧ temp1.length = MIND_DECK_SIZE ∧
        shmushLoop MIND_DECK_SIZE (fuel + 1) cards temp r0
          = shmushLoop MIND_DECK_SIZE fuel cards1 temp1 (shmushDraw MIND_DECK_SIZE r0).2.2.2) ∧
    ∃ deck1 r1, deckShmush deck r = .ok (deck1, r1) ∧
      stackGetSize deck1 = stackGetSize deck ∧ deck1.contents.Perm deck.contents := by
  have hD : MIND_DECK_SIZE = 100 := rfl
  constructor
  · intro fuel cards temp r0 hc htm
    obtain ⟨d1, d2, d3, d4, d5, d6, d7, d8⟩ := shmushDraw_full r0
    obtain ⟨s1, s2, s3⟩ := shmushSwap_exchanged cards temp (shmushDraw MIND_DECK_SIZE r0).1
      (shmushDraw MIND_DECK_SIZE r0).2.1 (shmushDraw MIND_DECK_SIZE r0).2.2.1 hc htm d6 d7 d8
    refine ⟨_, _, _, _, _, rfl, by omega, by omega, d4, by omega, d5, d2, by omega,
      by omega, by omega, d8, s3, s1, s2, ?_⟩
    rw [shmushLoop_succ, if_neg]
    rw [d4, d5]
    omega
  · have htop : deck.top = MIND_DECK_SIZE := by
      rw [← stackGetSize_of_wf hw]; exact ht
    obtain ⟨deck1, r1, e, w1, a1, t1, p1⟩ := deckShmush_spec deck r hw ha htop
    exact ⟨deck1, r1, e, by rw [stackGetSize_of_wf w1, t1, ht], p1⟩

theorem C19_witness :
    ∃ deck1 r1, deckShmush ex_deck [5, 17, 3, 40] = .ok (deck1, r1) ∧
      stackGetSize deck1 = stackGetSize ex_deck ∧ deck1.contents.Perm ex_deck.contents :=
  (C19_shmush_exchanges_blocks ex_deck [5, 17, 3, 40] ex_deck_wf rfl ex_deck_size).2

/-! ## The packets of deckMultiCut -/

theorem drop_writeN_zero (buf vals : List Nat) (h : vals.length ≤ buf.length) :
    (writeN buf 0 vals).drop vals.length = buf.drop vals.length := by
  unfold writeN
  simp only [List.take_zero, List.nil_append, Nat.zero_add]
  rw [List.take_of_length_le (by simp; omega), drop_append_length rfl]

/-- The loop of `deckMultiCut` when every packet size drawn is positive: it ends, and the cells
it has written at the end of `temp_deck` are the packets cut so far from the bottom of the
deck, the last packet first. -/
theorem multiCutLoop_packets (deck : stack_t) (err : ℚ) (n_reps : Nat)
    (hlen : deck.top ≤ deck.cards.length) (htop : deck.top ≤ MIND_DECK_SIZE)
    (he1 : err ≤ 1)
    (hpos : ∀ (r0 : Rng) (v : Nat) (r1 : Rng),
      randi (deck.top / n_reps) err r0 = .ok (v, r1) → 0 < v) (fuel : Nat) :
    ∀ (acc half_deck : Nat) (temp : List Nat) (r : Rng),
      half_deck ≤ acc → acc - half_deck ≤ deck.top → acc ≤ 3 * deck.top →
      temp.length = MIND_DECK_SIZE → deck.top < fuel + acc →
      (∃ packets : List (List Nat), packets.flatten = deck.cards.take (acc - half_deck) ∧
        (temp.take deck.top).drop (deck.top - (acc - half_deck)) = packets.reverse.flatten) →
      ∃ acc1 half1 temp1 r1,
        multiCutLoop deck err deck.top n_reps fuel acc half_deck temp r
          = .ok (acc1, half1, temp1, r1) ∧
        half1 ≤ acc1 ∧ acc1 - half1 ≤ deck.top ∧ deck.top ≤ acc1 ∧ acc1 ≤ 3 * deck.top ∧
        temp1.length = MIND_DECK_SIZE ∧
        ∃ packets : List (List Nat), packets.flatten = deck.cards.take (acc1 - half1) ∧
          (temp1.take deck.top).drop (deck.top - (acc1 - half1)) = packets.reverse.flatten := by
  have hD : MIND_DECK_SIZE = 100 := rfl
  induction fuel with
  | zero =>
    intro acc half_deck temp r h1 h2 h3 ht hf hp
    unfold multiCutLoop
    rw [if_neg (by omega)]
    exact ⟨_, _, _, _, rfl, h1, h2, by omega, h3, ht, hp⟩
  | succ k ih =>
    intro acc half_deck temp r h1 h2 h3 ht hf hp
    unfold multiCutLoop
    by_cases hc : acc < deck.top
    · rw [if_pos hc]
      simp only
      obtain ⟨v, r1, hok, hv, -⟩ := randi_spec (deck.top / n_reps) err r he1
        (by have := Nat.div_le_self deck.top n_reps; omega)
      have hvpos := hpos r v r1 hok
      rw [hok]
      simp only
      have hmod : (acc + v) % UINT32_MOD = acc + v := by
        apply Nat.mod_eq_of_lt
        have := Nat.div_le_self deck.top n_reps
        unfold UINT32_MOD; omega
      rw [hmod, memcpy_s_of_le (by omega)]
      have hX : (readN deck.cards (acc - half_deck) half_deck).length = half_deck :=
        length_readN_of_le (by omega)
      obtain ⟨A, X0, R, hsplit, hA, hX0⟩ := split_block temp (deck.top - acc) half_deck (by omega)
      have hw : writeN temp (deck.top - acc) (readN deck.cards (acc - half_deck) half_deck)
          = A ++ readN deck.cards (acc - half_deck) half_deck ++ R := by
        rw [hsplit, ← hA]; exact writeN_append _ _ _ _ (by omega)
      have hold : (temp.take deck.top).drop (deck.top - (acc - half_deck))
          = R.take (acc - half_deck) := by
        rw [hsplit, take_drop_append (A ++ X0) R deck.top _ (by simp; omega)]
        congr 1; omega
      rw [hold] at hp
      obtain ⟨packets, hp1, hp2⟩ := hp
      apply ih (acc + v) v _ r1 (by omega) (by omega)
        (by have := Nat.div_le_self deck.top n_reps; omega)
        (by rw [length_writeN]; exact ht) (by omega)
      refine ⟨packets ++ [readN deck.cards (acc - half_deck) half_deck], ?_, ?_⟩
      · rw [List.flatten_append, hp1]
        simp only [List.flatten_cons, List.flatten_nil, List.append_nil]
        rw [take_readN_append deck.cards (acc - half_deck) half_deck]
        congr 1; omega
      · rw [hw, List.append_assoc, take_drop_append A _ deck.top _ (by omega)]
        rw [List.reverse_append, List.reverse_singleton, List.singleton_append,
          List.flatten_cons, ← hp2]
        generalize readN deck.cards (acc - half_deck) half_deck = X at *
        have e1 : deck.top - (deck.top - (acc + v - v)) = X.length + (acc - half_deck) := by
          omega
        rw [e1, List.take_append]
    · rw [if_neg hc]
      exact ⟨_, _, _, _, rfl, h1, h2, by omega, h3, ht, hp⟩

/-- With packet sizes that are positive `deckMultiCut` returns on a well-formed deck of at most
`MIND_DECK_SIZE` cards: the deck keeps its size, the cells above its top are untouched, and it
holds the packets of the deck it was given in reverse order. -/
theorem deckMultiCut_packets (deck : stack_t) (hw : deck.wf) (htop : deck.top ≤ MIND_DECK_SIZE)
    (player : player_t) (he1 : playerGetError player ≤ 1) (r : Rng)
    (hpos : ∀ (r0 : Rng) (v : Nat) (r1 : Rng),
      randi (deck.top / (((rand r).1 % (6 - 2) + 2) % UINT8_MOD)) (playerGetError player) r0
        = .ok (v, r1) → 0 < v) :
    ∃ deck1 r1, deckMultiCut deck player r = .ok (deck1, r1) ∧ deck1.wf ∧
      deck1.allocd = deck.allocd ∧ deck1.top = deck.top ∧
      deck1.cards.drop deck.top = deck.cards.drop deck.top ∧
      ∃ packets : List (List Nat), packets.flatten = deck.contents ∧
        deck1.contents = packets.reverse.flatten := by
  have hsz := stackGetSize_of_wf hw
  have hD : MIND_DECK_SIZE = 100 := rfl
  obtain ⟨h1, h2, h3⟩ := hw
  unfold deckMultiCut
  simp only [hsz]
  generalize hnr : ((rand r).1 % (6 - 2) + 2) % UINT8_MOD = n_reps at *
  obtain ⟨v, r1, hok, hv, -⟩ := randi_spec (deck.top / n_reps) (playerGetError player)
    (rand r).2 he1 (by have := Nat.div_le_self deck.top n_reps; omega)
  rw [hok]
  simp only
  have hv2 : v ≤ 3 * deck.top := by have := Nat.div_le_self deck.top n_reps; omega
  obtain ⟨acc1, half1, temp1, r2, hloop, g1, g2, -, g3, g4, packets, g5, g6⟩ :=
    multiCutLoop_packets deck (playerGetError player) n_reps (by omega) (by omega) he1 hpos
      (deck.top + r1.length + 1) v v (List.replicate MIND_DECK_SIZE 0) r1 (le_refl _)
      (by omega) hv2 (by simp) (by omega) ⟨[], by simp, by simp⟩
  rw [hloop]
  simp only
  have hu : u32_sub acc1 half1 = acc1 - half1 := by
    unfold u32_sub UINT32_MOD; omega
  rw [hu]
  generalize hP : acc1 - half1 = P at *
  have hu2 : u32_sub deck.top P = deck.top - P := by
    unfold u32_sub UINT32_MOD; omega
  rw [hu2, memcpy_s_of_le (le_refl _), memcpy_s_of_le (by omega)]
  have hY : (readN deck.cards P (deck.top - P)).length = deck.top - P :=
    length_readN_of_le (by omega)
  obtain ⟨A, Y0, R, hsplit, hA, hY0⟩ := split_block temp1 0 (deck.top - P) (by omega)
  have hA0 : A = [] := List.length_eq_zero.mp hA
  subst hA0
  have hw1 : writeN temp1 0 (readN deck.cards P (deck.top - P))
      = [] ++ readN deck.cards P (deck.top - P) ++ R := by
    rw [hsplit]; exact writeN_append [] _ _ _ (by omega)
  have hold : (temp1.take deck.top).drop (deck.top - P) = R.take P := by
    rw [hsplit, take_drop_append ([] ++ Y0) R deck.top _ (by simp; omega)]
    congr 1; omega
  rw [hold] at g6
  have hlen1 : ([] ++ readN deck.cards P (deck.top - P) ++ R).length = MIND_DECK_SIZE := by
    rw [← hw1, length_writeN]; exact g4
  rw [hw1]
  generalize hT : [] ++ readN deck.cards P (deck.top - P) ++ R = T at *
  have hr : (readN T 0 deck.top).length = deck.top := length_readN_of_le (by omega)
  refine ⟨_, _, rfl, ⟨by simp [length_writeN]; exact h1, h2, h3⟩, rfl, rfl, ?_,
    packets ++ [readN deck.cards P (deck.top - P)], ?_, ?_⟩
  · have := drop_writeN_zero deck.cards (readN T 0 deck.top) (by omega)
    rw [hr] at this
    exact this
  · rw [List.flatten_append, g5]
    simp only [List.flatten_cons, List.flatten_nil, List.append_nil, stack_t.contents]
    rw [take_readN_append deck.cards P (deck.top - P)]
    congr 1; omega
  · simp only [stack_t.contents]
    have hc : (writeN deck.cards 0 (readN T 0 deck.top)).take deck.top = readN T 0 deck.top := by
      have := @take_writeN deck.cards 0 (readN T 0 deck.top) (by omega)
      rw [hr] at this
      simpa using this
    rw [hc]
    have e : readN T 0 deck.top = T.take deck.top := by simp [readN]
    rw [e, ← hT, List.nil_append, List.reverse_append, List.reverse_singleton,
      List.singleton_append, List.flatten_cons, ← g6]
    generalize readN deck.cards P (deck.top - P) = Y at *
    have e3 : deck.top = Y.length + P := by omega
    rw [e3, List.take_append]

/-- The buffer `temp_deck` at the exit of the loop of `deckMultiCut` is the buffer at the entry
after the copies listed by `multiCutWrites`. -/
theorem multiCutLoop_writes (deck : stack_t) (err : ℚ) (sz n_reps : Nat) (fuel : Nat) :
    ∀ (acc half_deck : Nat) (temp : List Nat) (r : Rng) (acc1 half1 : Nat) (temp1 : List Nat)
      (r1 : Rng),
      multiCutLoop deck err sz n_reps fuel acc half_deck temp r = .ok (acc1, half1, temp1, r1) →
      temp1 = (multiCutWrites err sz n_reps fuel acc half_deck r).foldl
        (fun t w => memcpy_s t w.1 sz deck.cards w.2.1 w.2.2) temp := by
  induction fuel with
  | zero =>
    intro acc half_deck temp r acc1 half1 temp1 r1 h
    unfold multiCutLoop at h
    unfold multiCutWrites
    split_ifs at h with hc
    rw [if_neg hc]
    injection h with h
    simp only [Prod.mk.injEq] at h
    exact h.2.2.1.symm
  | succ k ih =>
    intro acc half_deck temp r acc1 half1 temp1 r1 h
    unfold multiCutLoop at h
    unfold multiCutWrites
    split_ifs at h with hc
    · rw [if_pos hc]
      simp only at h ⊢
      split at h
      · exact absurd h (by simp)
      · rename_i v r2 hok
        try rw [hok]
        simp only [List.foldl_cons]
        exact ih _ _ _ _ _ _ _ _ h
    · rw [if_neg hc]
      injection h with h
      simp only [Prod.mk.injEq] at h
      exact h.2.2.1.symm

/-- Every copy of the loop of `deckMultiCut` writes inside the first `sz` cells of `temp_deck`
and reads inside the first `sz` cells of the deck. -/
theorem multiCutWrites_inside (err : ℚ) (sz n_reps : Nat) (he1 : err ≤ 1)
    (hsz : sz ≤ MIND_DECK_SIZE) (fuel : Nat) :
    ∀ (acc half_deck : Nat) (r : Rng), half_deck ≤ acc → acc ≤ 3 * sz →
      ∀ w ∈ multiCutWrites err sz n_reps fuel acc half_deck r,
        w.1 + w.2.2 ≤ sz ∧ w.2.1 + w.2.2 ≤ sz := by
  have hD : MIND_DECK_SIZE = 100 := rfl
  induction fuel with
  | zero =>
    intro acc half_deck r _ _ w hw
    unfold multiCutWrites at hw
    split_ifs at hw <;> simp at hw
  | succ k ih =>
    intro acc half_deck r h1 h3 w hw
    unfold multiCutWrites at hw
    split_ifs at hw with hc
    · simp only at hw
      rcases List.mem_cons.mp hw with rfl | hw
      · simp only
        omega
      · obtain ⟨v, r1, hok, hv, -⟩ := randi_spec (sz / n_reps) err r he1
          (by have := Nat.div_le_self sz n_reps; omega)
        rw [hok] at hw
        simp only at hw
        have hmod : (acc + v) % UINT32_MOD = acc + v := by
          apply Nat.mod_eq_of_lt
          have := Nat.div_le_self sz n_reps
          unfold UINT32_MOD; omega
        rw [hmod] at hw
        exact ih (acc + v) v r1 (by omega)
          (by have := Nat.div_le_self sz n_reps; omega) w hw
    · simp at hw

theorem Interleave.sublists {a b l : List Nat} (h : Interleave a b l) :
    a.Sublist l ∧ b.Sublist l := by
  induction h with
  | nil => exact ⟨List.Sublist.refl _, List.Sublist.refl _⟩
  | left x _ ih => exact ⟨ih.1.cons₂ x, ih.2.cons x⟩
  | right x _ ih => exact ⟨ih.1.cons x, ih.2.cons₂ x⟩

theorem ex_small_wf : ex_small.wf := by decide

/-- **C18** For every well-formed deck of size `sz ≤ MIND_DECK_SIZE`, every cut point
`half_deck ≤ sz`, every skill and every sequence of random choices, the riffle of `deckRuffle`
leaves the size of the deck unchanged and rearranges the deck into an interleaving of the two
parts `cards[0 .. half_deck)` and `cards[half_deck .. sz)`: the result is a permutation of the
deck, and each part is a sublist of it, its cards in their order. The cut point `deckRuffle`
draws for a well-formed player is such a cut point. -/
theorem C18_ruffle_interleaves (deck : stack_t) (half_deck : Nat) (skill : ℚ) (r : Rng)
    (hw : deck.wf) (hsz : stackGetSize deck ≤ MIND_DECK_SIZE)
    (hh : half_deck ≤ stackGetSize deck) :
    stackGetSize (deckRuffleAt deck half_deck skill r).1 = stackGetSize deck ∧
    Interleave (deck.contents.take half_deck) (deck.contents.drop half_deck)
      (deckRuffleAt deck half_deck skill r).1.contents ∧
    (deckRuffleAt deck half_deck skill r).1.contents.Perm deck.contents ∧
    (deck.contents.take half_deck).Sublist (deckRuffleAt deck half_deck skill r).1.contents ∧
    (deck.contents.drop half_deck).Sublist (deckRuffleAt deck half_deck skill r).1.contents ∧
    ∀ player : player_t, player.wf →
      ∃ cut r1, cut ≤ stackGetSize deck ∧
        deckRuffle deck player r = .ok (deckRuffleAt deck cut player.skill r1) := by
  have hs := stackGetSize_of_wf hw
  rw [hs] at hsz hh
  obtain ⟨g1, g2, g3, g4⟩ := deckRuffleAt_general deck hw hsz half_deck hh skill r
  refine ⟨by rw [stackGetSize_of_wf g1, g3, hs], g4, ?_, g4.sublists.1, g4.sublists.2, ?_⟩
  · have := g4.perm
    rw [List.take_append_drop] at this
    exact this
  · intro player hp
    have hD : MIND_DECK_SIZE = 100 := rfl
    obtain ⟨-, he1⟩ := playerGetError_bounds hp
    obtain ⟨v, r1, hok, hv, -⟩ := randi_spec (stackGetSize deck / 2) (playerGetError player) r
      (le_of_lt he1) (by rw [hs]; omega)
    refine ⟨v, r1, by omega, ?_⟩
    unfold deckRuffle
    rw [hok]

theorem C18_witness :
    stackGetSize (deckRuffleAt ex_small 1 (3 / 4) [20000, 3]).1 = stackGetSize ex_small ∧
    Interleave (ex_small.contents.take 1) (ex_small.contents.drop 1)
      (deckRuffleAt ex_small 1 (3 / 4) [20000, 3]).1.contents ∧
    (deckRuffleAt ex_small 1 (3 / 4) [20000, 3]).1.contents.Perm ex_small.contents :=
  ⟨(C18_ruffle_interleaves ex_small 1 (3 / 4) [20000, 3] ex_small_wf (by decide)
      (by decide)).1,
   (C18_ruffle_interleaves ex_small 1 (3 / 4) [20000, 3] ex_small_wf (by decide)
      (by decide)).2.1,
   (C18_ruffle_interleaves ex_small 1 (3 / 4) [20000, 3] ex_small_wf (by decide)
      (by decide)).2.2.1⟩

/-- **C20** For every well-formed deck of size `sz ≤ MIND_DECK_SIZE` and a player whose error
is at most 1, whenever every packet size the loop can draw is positive, `deckMultiCut`
returns (its loop terminates) with a deck of the same size that is a permutation of the deck
it was given: the deck is cut into consecutive packets and these are written back in reverse
packet order, each packet in its own order, the cells above the top untouched. Every copy
of the loop, for any packet sizes, writes inside the first `sz` cells of `temp_deck` and
reads inside the first `sz` cells of the deck. And for a full deck every packet size
`randi(sz / n_reps, err)` with `n_reps` in `2 .. 5` and `0 ≤ err < 1` is positive. -/
theorem C20_multiCut_reverses_packets (deck : stack_t) (player : player_t) (r : Rng)
    (hw : deck.wf) (hsz : stackGetSize deck ≤ MIND_DECK_SIZE)
    (he : playerGetError player ≤ 1)
    (hpos : ∀ (r0 : Rng) (v : Nat) (r1 : Rng),
      randi (stackGetSize deck / (((rand r).1 % (6 - 2) + 2) % UINT8_MOD))
        (playerGetError player) r0 = .ok (v, r1) → 0 < v) :
    (∃ deck1 r1, deckMultiCut deck player r = .ok (deck1, r1) ∧
      stackGetSize deck1 = stackGetSize deck ∧ deck1.contents.Perm deck.contents ∧
      deck1.cards.drop (stackGetSize deck) = deck.cards.drop (stackGetSize deck) ∧
      ∃ packets : List (List Nat), packets.flatten = deck.contents ∧
        deck1.contents = packets.reverse.flatten) ∧
    (∀ (n_reps fuel half_deck : Nat) (temp : List Nat) (r0 : Rng) (acc1 half1 : Nat)
        (temp1 : List Nat) (r1 : Rng),
      multiCutLoop deck (playerGetError player) (stackGetSize deck) n_reps fuel half_deck
        half_deck temp r0 = .ok (acc1, half1, temp1, r1) →
      temp1 = (multiCutWrites (playerGetError player) (stackGetSize deck) n_reps fuel
          half_deck half_deck r0).foldl
        (fun t w => memcpy_s t w.1 (stackGetSize deck) deck.cards w.2.1 w.2.2) temp) ∧
    (∀ (n_reps fuel half_deck : Nat) (r0 : Rng),
      ∀ w ∈ multiCutWrites (playerGetError player) (stackGetSize deck) n_reps fuel half_deck
          half_deck r0,
        w.1 + w.2.2 ≤ stackGetSize deck ∧ w.2.1 + w.2.2 ≤ stackGetSize deck) ∧
    (∀ (n_reps : Nat) (err : ℚ) (r0 : Rng), 2 ≤ n_reps → n_reps ≤ 5 → 0 ≤ err → err < 1 →
      ∃ v r1, randi (MIND_DECK_SIZE / n_reps) err r0 = .ok (v, r1) ∧ 0 < v) := by
  have hs := stackGetSize_of_wf hw
  have hD : MIND_DECK_SIZE = 100 := rfl
  refine ⟨?_, ?_, ?_, ?_⟩
  · rw [hs] at hsz hpos
    obtain ⟨deck1, r1, e, w1, -, t1, d1, packets, p1, p2⟩ :=
      deckMultiCut_packets deck hw hsz player he r hpos
    refine ⟨deck1, r1, e, by rw [stackGetSize_of_wf w1, t1, hs], ?_, by rw [hs]; exact d1,
      packets, p1, p2⟩
    rw [p2, ← p1]
    exact List.Perm.flatten (List.reverse_perm packets)
  · intro n_reps fuel half_deck temp r0 acc1 half1 temp1 r1 h
    exact multiCutLoop_writes deck _ _ n_reps fuel half_deck half_deck temp r0 acc1 half1
      temp1 r1 h
  · intro n_reps fuel half_deck r0 w hmem
    by_cases hz : stackGetSize deck = 0
    · exfalso
      unfold multiCutWrites at hmem
      rw [if_neg (by omega)] at hmem
      exact absurd hmem (List.not_mem_nil _)
    · by_cases hle : half_deck ≤ 3 * stackGetSize deck
      · exact multiCutWrites_inside _ _ n_reps he hsz fuel half_deck half_deck r0 (le_refl _)
          hle w hmem
      · exfalso
        unfold multiCutWrites at hmem
        rw [if_neg (by omega)] at hmem
        exact absurd hmem (List.not_mem_nil _)
  · intro n_reps err r0 h2 h5 _ he1
    obtain ⟨v, r1, hok, -, hp⟩ := randi_spec (MIND_DECK_SIZE / n_reps) err r0 (le_of_lt he1)
      (by have := Nat.div_le_self MIND_DECK_SIZE n_reps; omega)
    refine ⟨v, r1, hok, hp he1 ?_⟩
    rw [hD]
    apply Nat.div_pos <;> omega

theorem ex_player_error : playerGetError ex_player = 1 / 4 := by
  unfold playerGetError ex_player
  norm_num

theorem C20_witness :
    ∃ deck1 r1, deckMultiCut ex_deck ex_player [] = .ok (deck1, r1) ∧
      stackGetSize deck1 = stackGetSize ex_deck ∧ deck1.contents.Perm ex_deck.contents ∧
      deck1.cards.drop (stackGetSize ex_deck) = ex_deck.cards.drop (stackGetSize ex_deck) ∧
      ∃ packets : List (List Nat), packets.flatten = ex_deck.contents ∧
        deck1.contents = packets.reverse.flatten :=
  (C20_multiCut_reverses_packets ex_deck ex_player [] ex_deck_wf (by decide)
    (by rw [ex_player_error]; norm_num)
    (fun r0 v r1 h => by
      obtain ⟨v1, r2, hok, -, hp⟩ := randi_spec
        (stackGetSize ex_deck / (((rand []).1 % (6 - 2) + 2) % UINT8_MOD))
        (playerGetError ex_player) r0 (by rw [ex_player_error]; norm_num) (by decide)
      rw [hok] at h
      injection h with h
      rw [← (Prod.mk.inj h).1]
      exact hp (by rw [ex_player_error]; norm_num) (by decide))).1

/-! ## The rule of playerTryPlay -/

/-- The test of `playerTryPlay` in natural numbers: with a card below 256 and a `uint16_t`
count of cards the sum `lowest_card + n_cards - 1` does not wrap. -/
theorem tryPlay_test (c count n_cards : Nat) (hcard : c < UINT8_MOD)
    (hn1 : n_cards < UINT16_MOD) :
    (n_cards > 1 ∧ (count < c ∨
        u32_sub ((c + n_cards) % UINT32_MOD) 1 > MIND_DECK_SIZE)) ↔
    ¬ (n_cards ≤ 1 ∨ (c ≤ count ∧ c + n_cards - 1 ≤ MIND_DECK_SIZE)) := by
  unfold UINT8_MOD at hcard
  unfold UINT16_MOD at hn1
  unfold u32_sub UINT32_MOD MIND_DECK_SIZE
  constructor
  · rintro ⟨h1, h2⟩
    omega
  · intro h
    omega

/-- What `playerTryPlay` does for a player with a card, on well-formed stacks with room on the
pile: it plays exactly when the round's last card is left or the count has reached the card
and `lowest_card + n_cards - 1` does not exceed `MIND_DECK_SIZE`; a play moves the top card
of the hand onto the pile, counts it and records it in the player; otherwise the game is
returned as it was. -/
theorem playerTryPlay_rule (game : game_t) (i : Nat) (p : player_t) (c : Nat)
    (hp : game.players[i]? = some p) (hc : stackPeek p.hand = .ok c)
    (hpw : game.pile.wf) (hhw : p.hand.wf)
    (hroom : stackGetSize game.pile < game.pile.allocd)
    (hcard : c < UINT8_MOD) (hn1 : game.level.n_cards < UINT16_MOD) :
    ∃ game1, playerTryPlay game i = .ok game1 ∧
      ((game.level.n_cards ≤ 1 ∨
          (c ≤ p.count ∧ c + game.level.n_cards - 1 ≤ MIND_DECK_SIZE)) →
        ∃ pile1 hand1,
          game1 = { game with
            pile := pile1
            players := game.players.set i
              { p with hand := hand1, last_card_played := c, count := c, pile_card := c }
            level := { game.level with
              n_cards := (game.level.n_cards + UINT16_MOD - 1) % UINT16_MOD } } ∧
          pile1.wf ∧ pile1.allocd = game.pile.allocd ∧
          pile1.contents = game.pile.contents ++ [c] ∧
          stackGetSize pile1 = stackGetSize game.pile + 1 ∧
          hand1.wf ∧ hand1.allocd = p.hand.allocd ∧
          p.hand.contents = hand1.contents ++ [c] ∧
          stackGetSize hand1 + 1 = stackGetSize p.hand) ∧
      (¬ (game.level.n_cards ≤ 1 ∨
          (c ≤ p.count ∧ c + game.level.n_cards - 1 ≤ MIND_DECK_SIZE)) → game1 = game) := by
  have htest := tryPlay_test c p.count game.level.n_cards hcard hn1
  have hz := stackPeek_size hhw hc
  have hcl := (stackPeek_ok_iff hhw c).mp hc
  have hlenp := length_contents hhw
  have hszhand := stackGetSize_of_wf hhw
  have htop : 1 ≤ p.hand.top := by rw [← hszhand]; omega
  unfold playerTryPlay
  rw [hp]
  simp only [hc]
  by_cases hcond : game.level.n_cards ≤ 1 ∨
      (c ≤ p.count ∧ c + game.level.n_cards - 1 ≤ MIND_DECK_SIZE)
  · rw [if_neg (fun hd => (htest.mp hd) hcond)]
    obtain ⟨pile1, hand1, b1, em, -, -, wd, wh, ad, ah, sh, sd, ch, cd, -, -, -⟩ :=
      lemma_moveN game.pile p.hand hpw hhw [0] 1 (by simp)
        (by rw [hszhand]; exact htop) (by omega)
    rw [hszhand] at ch cd sh
    have hdrop : p.hand.contents.drop (p.hand.top - 1) = [c] := by
      have h2 : (p.hand.contents.drop (p.hand.top - 1)).length = 1 := by simp; omega
      have h3 : (p.hand.contents.drop (p.hand.top - 1)).getLast? = some c := by
        rw [getLast?_drop (by omega)]; exact hcl
      match hm : p.hand.contents.drop (p.hand.top - 1), h2, h3 with
      | [x], _, h3 => simp at h3; rw [h3]
    rw [hdrop] at cd
    have hhc : p.hand.contents = hand1.contents ++ [c] := by
      rw [ch, ← hdrop, List.take_append_drop]
    unfold stackMove
    rw [em]
    simp only [dropState]
    have hmod : c % UINT8_MOD = c := Nat.mod_eq_of_lt hcard
    rw [hmod]
    refine ⟨_, rfl, fun _ => ⟨pile1, hand1, rfl, wd, ad, cd, sd, wh, ah, hhc, ?_⟩,
      fun hn => absurd hcond hn⟩
    rw [sh, hszhand]; omega
  · rw [if_pos (htest.mpr hcond)]
    exact ⟨game, rfl, fun h => absurd h hcond, fun _ => rfl⟩

theorem mem_handCards {players : List player_t} {x : Nat} :
    x ∈ handCards players ↔ ∃ q ∈ players, x ∈ q.hand.contents := by
  unfold handCards
  rw [List.mem_flatten]
  constructor
  · rintro ⟨l, hl, hx⟩
    obtain ⟨q, hq, rfl⟩ := List.mem_map.mp hl
    exact ⟨q, hq, hx⟩
  · rintro ⟨q, hq, hx⟩
    exact ⟨_, List.mem_map_of_mem _ hq, hx⟩

theorem mem_cardUniverse {x : Nat} : x ∈ cardUniverse ↔ 1 ≤ x ∧ x ≤ MIND_DECK_SIZE := by
  unfold cardUniverse
  rw [List.mem_range']
  unfold MIND_DECK_SIZE
  constructor
  · rintro ⟨i, hi, rfl⟩
    omega
  · rintro ⟨h1, h2⟩
    exact ⟨x - 1, by omega, by omega⟩

/-- In a state with the invariant every card in a hand is one of `1 .. MIND_DECK_SIZE`. -/
theorem Inv.hand_card {game : game_t} (h : Inv game) {q : player_t} (hq : q ∈ game.players)
    {x : Nat} (hx : x ∈ q.hand.contents) : 1 ≤ x ∧ x ≤ MIND_DECK_SIZE := by
  apply mem_cardUniverse.mp
  apply h.perm.subset
  unfold allCards
  exact List.mem_append_right _ (mem_handCards.mpr ⟨q, hq, hx⟩)

theorem handSizes_ge {players : List player_t} {i : Nat} {p : player_t}
    (hp : players[i]? = some p) : stackGetSize p.hand ≤ handSizes players := by
  obtain ⟨e1, -⟩ := split_at players i p hp p
  rw [e1, handSizes_append, handSizes_cons]
  omega

/-- In a state with the invariant a player with a card meets what `playerTryPlay` needs: the
stacks are well-formed, the pile has room, the card is below 256 and `n_cards` is a positive
`uint16_t`. -/
theorem Inv.tryPlay_ready {game : game_t} (h : Inv game) {i : Nat} {p : player_t}
    (hp : game.players[i]? = some p) (hz : stackGetSize p.hand ≠ 0) :
    ∃ c, stackPeek p.hand = .ok c ∧ game.pile.wf ∧ p.hand.wf ∧
      stackGetSize game.pile < game.pile.allocd ∧ c < UINT8_MOD ∧
      game.level.n_cards < UINT16_MOD ∧ 0 < game.level.n_cards := by
  have hpm : p ∈ game.players := List.getElem?_mem hp
  have hpw := h.players_wf p hpm
  obtain ⟨c, hc⟩ := stackPeek_total p.hand hpw.1 hz
  have hcm : c ∈ p.hand.contents :=
    List.mem_of_getLast?_eq_some ((stackPeek_ok_iff hpw.1 c).mp hc)
  have hcb := h.hand_card hpm hcm
  have hge := handSizes_ge hp
  have hsz := h.sizes
  have hD : MIND_DECK_SIZE = 100 := rfl
  refine ⟨c, hc, h.pile_wf.1, hpw.1, ?_, ?_, ?_, ?_⟩
  · rw [stackGetSize_of_wf h.pile_wf.1, h.pile_wf.2]; omega
  · unfold UINT8_MOD; omega
  · rw [h.n_cards_eq]; unfold UINT16_MOD; omega
  · rw [h.n_cards_eq]; omega

set_option maxRecDepth 100000 in
theorem ex_won_step_reachable : Reachable (countN 49 2 (turnOf (countN 4 0 ex_created) 0 [])) :=
  reachable_countN 49 2 _ (reachable_turnOf _ 0 []
    (reachable_countN 4 0 _ ex_created_reachable) (by decide!) (by decide!))

/-- **C21** For a player with a card `c` on top of its hand: in every reachable state the
stacks are well-formed, the pile has room and card and `n_cards` are in the range of their
types; and in every such state `playerTryPlay` returns and plays if and only if
`n_cards ≤ 1` or (`count ≥ c` and `c + n_cards - 1 ≤ MIND_DECK_SIZE`).  When it plays, the
card `c` leaves the top of the hand of the player and goes on top of the pile, `n_cards`
decreases by one, `last_card_played`, `count` and `pile_card` of the player become `c`, and
nothing else changes; when it does not play, the game is unchanged. -/
theorem C21_playerTryPlay_plays_iff (game : game_t) (i : Nat) (p : player_t) (c : Nat)
    (hp : game.players[i]? = some p) (hc : stackPeek p.hand = .ok c) :
    (Reachable game →
      game.pile.wf ∧ p.hand.wf ∧ stackGetSize game.pile < game.pile.allocd ∧
      c < UINT8_MOD ∧ game.level.n_cards < UINT16_MOD ∧ 0 < game.level.n_cards) ∧
    (game.pile.wf → p.hand.wf → stackGetSize game.pile < game.pile.allocd →
      c < UINT8_MOD → game.level.n_cards < UINT16_MOD →
      ∃ game1, playerTryPlay game i = .ok game1 ∧
        ((game.level.n_cards ≤ 1 ∨
            (c ≤ p.count ∧ c + game.level.n_cards - 1 ≤ MIND_DECK_SIZE)) ↔
          game1.pile.contents = game.pile.contents ++ [c]) ∧
        ((game.level.n_cards ≤ 1 ∨
            (c ≤ p.count ∧ c + game.level.n_cards - 1 ≤ MIND_DECK_SIZE)) →
          ∃ pile1 hand1,
            game1 = { game with
              pile := pile1
              players := game.players.set i
                { p with hand := hand1, last_card_played := c, count := c, pile_card := c }
              level := { game.level with
                n_cards := (game.level.n_cards + UINT16_MOD - 1) % UINT16_MOD } } ∧
            pile1.contents = game.pile.contents ++ [c] ∧ stackPeek pile1 = .ok c ∧
            stackGetSize pile1 = stackGetSize game.pile + 1 ∧
            p.hand.contents = hand1.contents ++ [c] ∧
            hand1.contents = p.hand.contents.dropLast ∧
            stackGetSize hand1 + 1 = stackGetSize p.hand ∧
            (0 < game.level.n_cards → game1.level.n_cards + 1 = game.level.n_cards)) ∧
        (¬ (game.level.n_cards ≤ 1 ∨
            (c ≤ p.count ∧ c + game.level.n_cards - 1 ≤ MIND_DECK_SIZE)) → game1 = game)) := by
  constructor
  · intro hr
    have hi := inv_of_reachable hr
    have hz : stackGetSize p.hand ≠ 0 :=
      stackPeek_size (hi.players_wf p (List.getElem?_mem hp)).1 hc
    obtain ⟨c1, e1, a, b, d, e, f, g⟩ := hi.tryPlay_ready hp hz
    rw [hc] at e1
    injection e1 with e1
    subst e1
    exact ⟨a, b, d, e, f, g⟩
  · intro hpw hhw hroom hcard hn1
    obtain ⟨game1, hok, hplay, hnot⟩ :=
      playerTryPlay_rule game i p c hp hc hpw hhw hroom hcard hn1
    refine ⟨game1, hok, ?_, ?_, hnot⟩
    · constructor
      · intro hcond
        obtain ⟨pile1, hand1, e, -, -, cd, -⟩ := hplay hcond
        rw [e]; exact cd
      · intro hpile
        by_contra hcond
        rw [hnot hcond] at hpile
        have := congrArg List.length hpile
        simp at this
    · intro hcond
      obtain ⟨pile1, hand1, e, wd, ad, cd, sd, wh, ah, hhc, sh⟩ := hplay hcond
      refine ⟨pile1, hand1, e, cd, ?_, sd, hhc, ?_, sh, ?_⟩
      · rw [stackPeek_ok_iff wd, cd]; simp
      · rw [hhc]; simp
      · intro h0
        rw [e]
        simp only
        unfold UINT16_MOD at hn1 ⊢
        omega

set_option maxRecDepth 100000 in
theorem C21_witness :
    ∃ game1, playerTryPlay (countN 49 2 (turnOf (countN 4 0 ex_created) 0 [])) 2 = .ok game1 ∧
      game1.pile.contents
        = (countN 49 2 (turnOf (countN 4 0 ex_created) 0 [])).pile.contents ++ [49] :=
  have h := C21_playerTryPlay_plays_iff (countN 49 2 (turnOf (countN 4 0 ex_created) 0 [])) 2
    { hand := { cards := [49, 0, 0, 0, 0, 0, 0, 0, 0, 0, 0, 0], top := 1, allocd := 12 }
      skill := 33 / 50, focus := 1 / 2, beat := 85, count := 49
      timeout := { ADJUST := 0, BORED := 0, HESITATE := 0, CONFUSED := 0 }
      pile_card := 0, last_card_played := 0, threshold := 22, n := 2 }
    49 (by decide!) (by decide!)
  have hr := h.1 ex_won_step_reachable
  have ⟨game1, hok, hiff, _, _⟩ := h.2 hr.1 hr.2.1 hr.2.2.1 hr.2.2.2.1 hr.2.2.2.2.1
  ⟨game1, hok, hiff.mp (Or.inr (by decide!))⟩

/-! ## The rule of the cards that are left -/

/-- The first loop of `gameAssignBlame`: the card it returns is at most the card it started
from and at most the top card of every non-empty hand; and either nothing was found and the
start values are returned, or the card is the top card of the non-empty hand of the player
whose index, as a `uint8_t`, is returned. -/
theorem blameSlow_lowest : ∀ (ps : List player_t) (i : Nat) (acc res : Nat × Nat),
    blameSlow ps i acc = .ok res →
    res.1 ≤ acc.1 ∧
    (∀ q ∈ ps, stackGetSize q.hand ≠ 0 → ∀ t, stackPeek q.hand = .ok t → res.1 ≤ t) ∧
    (res = acc ∨
      (res.1 < acc.1 ∧ ∃ (j : Nat) (q : player_t), ps[j]? = some q ∧
        res.2 = (i + j) % UINT8_MOD ∧ stackGetSize q.hand ≠ 0 ∧
        stackPeek q.hand = .ok res.1)) := by
  intro ps
  induction ps with
  | nil =>
    intro i acc res h
    unfold blameSlow at h
    injection h with h
    subst h
    exact ⟨le_refl _, fun q hq => absurd hq (List.not_mem_nil _), Or.inl rfl⟩
  | cons p ps ih =>
    intro i acc res h
    unfold blameSlow at h
    by_cases hz : stackGetSize p.hand = 0
    · rw [if_pos hz] at h
      obtain ⟨a, b, c⟩ := ih (i + 1) acc res h
      refine ⟨a, ?_, ?_⟩
      · intro q hq hq0 t ht
        rcases List.mem_cons.mp hq with rfl | hq
        · exact absurd hz hq0
        · exact b q hq hq0 t ht
      · rcases c with c | ⟨c1, j, q, c2, c3, c4, c5⟩
        · exact Or.inl c
        · exact Or.inr ⟨c1, j + 1, q, by simpa using c2, by rw [c3]; congr 1; omega, c4, c5⟩
    · rw [if_neg hz] at h
      split at h
      · exact absurd h (by simp)
      · rename_i card hcard
        by_cases hlt : card < acc.1
        · rw [if_pos hlt] at h
          obtain ⟨a, b, c⟩ := ih (i + 1) (card, i % UINT8_MOD) res h
          simp only at a
          refine ⟨by omega, ?_, Or.inr ⟨by omega, ?_⟩⟩
          · intro q hq hq0 t ht
            rcases List.mem_cons.mp hq with rfl | hq
            · rw [hcard] at ht
              have : card = t := Except.ok.inj ht
              omega
            · exact b q hq hq0 t ht
          · rcases c with c | ⟨c1, j, q, c2, c3, c4, c5⟩
            · refine ⟨0, p, by simp, ?_, hz, ?_⟩
              · rw [c]; rfl
              · rw [c]; exact hcard
            · exact ⟨j + 1, q, by simpa using c2, by rw [c3]; congr 1; omega, c4, c5⟩
        · rw [if_neg hlt] at h
          obtain ⟨a, b, c⟩ := ih (i + 1) acc res h
          refine ⟨a, ?_, ?_⟩
          · intro q hq hq0 t ht
            rcases List.mem_cons.mp hq with rfl | hq
            · rw [hcard] at ht
              have : card = t := Except.ok.inj ht
              omega
            · exact b q hq hq0 t ht
          · rcases c with c | ⟨c1, j, q, c2, c3, c4, c5⟩
            · exact Or.inl c
            · exact Or.inr ⟨c1, j + 1, q, by simpa using c2, by rw [c3]; congr 1; omega,
                c4, c5⟩

/-- The second loop of `gameAssignBlame`: either no `last_card_played` lies strictly between
`lowest` and the card it started from, and the start values are returned (the start index is
that of player 0); or the card returned is the lowest `last_card_played` strictly between the
two, and the index returned is that of a player with this `last_card_played`. -/
theorem blameFast_first (lowest : Nat) : ∀ (ps : List player_t) (i : Nat) (acc : Nat × Nat),
    (blameFast lowest ps i acc).1 ≤ acc.1 ∧
    (∀ q ∈ ps, lowest < q.last_card_played → q.last_card_played < acc.1 →
      (blameFast lowest ps i acc).1 ≤ q.last_card_played) ∧
    ((blameFast lowest ps i acc = acc ∧
        ∀ q ∈ ps, ¬ (lowest < q.last_card_played ∧ q.last_card_played < acc.1)) ∨
      ((blameFast lowest ps i acc).1 < acc.1 ∧ lowest < (blameFast lowest ps i acc).1 ∧
        ∃ (j : Nat) (q : player_t), ps[j]? = some q ∧
          (blameFast lowest ps i acc).2 = (i + j) % UINT8_MOD ∧
          q.last_card_played = (blameFast lowest ps i acc).1)) := by
  intro ps
  induction ps with
  | nil =>
    intro i acc
    unfold blameFast
    exact ⟨le_refl _, fun q hq => absurd hq (List.not_mem_nil _),
      Or.inl ⟨rfl, fun q hq => absurd hq (List.not_mem_nil _)⟩⟩
  | cons p ps ih =>
    intro i acc
    unfold blameFast
    by_cases hc : p.last_card_played > lowest ∧ p.last_card_played < acc.1
    · rw [if_pos hc]
      obtain ⟨a, b, c⟩ := ih (i + 1) (p.last_card_played, i % UINT8_MOD)
      simp only at a b c
      generalize blameFast lowest ps (i + 1) (p.last_card_played, i % UINT8_MOD) = res at *
      refine ⟨by omega, ?_, Or.inr ⟨by omega, ?_⟩⟩
      · intro q hq h1 h2
        rcases List.mem_cons.mp hq with rfl | hq
        · exact a
        · by_cases h3 : q.last_card_played < p.last_card_played
          · exact b q hq h1 h3
          · omega
      · rcases c with ⟨c1, -⟩ | ⟨c1, c2, j, q, c3, c4, c5⟩
        · rw [c1]
          exact ⟨hc.1, 0, p, by simp, rfl, rfl⟩
        · exact ⟨c2, j + 1, q, by simpa using c3, by rw [c4]; congr 1; omega, c5⟩
    · rw [if_neg hc]
      obtain ⟨a, b, c⟩ := ih (i + 1) acc
      generalize blameFast lowest ps (i + 1) acc = res at *
      refine ⟨a, ?_, ?_⟩
      · intro q hq h1 h2
        rcases List.mem_cons.mp hq with rfl | hq
        · exact absurd ⟨h1, h2⟩ hc
        · exact b q hq h1 h2
      · rcases c with ⟨c1, c0⟩ | ⟨c1, c2, j, q, c3, c4, c5⟩
        · refine Or.inl ⟨c1, ?_⟩
          intro q hq
          rcases List.mem_cons.mp hq with rfl | hq
          · exact hc
          · exact c0 q hq
        · exact Or.inr ⟨c1, c2, j + 1, q, by simpa using c3, by rw [c4]; congr 1; omega, c5⟩

/-- The slow player of `gameAssignBlame` in a state with the invariant, fewer than 256
players and a non-empty hand whose top card is below `MIND_DECK_SIZE`: the first loop returns
the index of a player whose top card is the lowest card of all hands. -/
theorem blameSlow_player (game : game_t) (h : Inv game)
    (hlen : game.players.length ≤ UINT8_MOD)
    (hlose : ∃ q ∈ game.players, ∃ t, stackGetSize q.hand ≠ 0 ∧ stackPeek q.hand = .ok t ∧
      t < MIND_DECK_SIZE) :
    ∃ lowest i_slow_player q,
      blameSlow game.players 0 (MIND_DECK_SIZE, 0) = .ok (lowest, i_slow_player) ∧
      game.players[i_slow_player]? = some q ∧ stackPeek q.hand = .ok lowest ∧
      ∀ q1 ∈ game.players, ∀ x ∈ q1.hand.contents, lowest ≤ x := by
  obtain ⟨res, hres, -⟩ := blameSlow_total game.players.length game.players 0
    (MIND_DECK_SIZE, 0) (fun p hp => (h.players_wf p hp).1)
    (by obtain ⟨q, hq, -⟩ := hlose; exact List.length_pos_of_mem hq) (by omega)
  obtain ⟨-, b, c⟩ := blameSlow_lowest game.players 0 (MIND_DECK_SIZE, 0) res hres
  obtain ⟨q0, hq0, t0, hz0, ht0, hlt0⟩ := hlose
  have hb0 := b q0 hq0 hz0 t0 ht0
  rcases c with c | ⟨-, j, q, c2, c3, c4, c5⟩
  · rw [c] at hb0
    simp only at hb0
    omega
  · have hj := getElem?_lt c2
    have hidx : res.2 = j := by
      rw [c3, Nat.zero_add]
      exact Nat.mod_eq_of_lt (by omega)
    refine ⟨res.1, res.2, q, hres, by rw [hidx]; exact c2, c5, ?_⟩
    intro q1 hq1 x hx
    have hw1 := (h.players_wf q1 hq1).1
    have hz1 : stackGetSize q1.hand ≠ 0 := by
      rw [stackGetSize_of_wf hw1, ← length_contents hw1]
      intro h0
      rw [List.length_eq_zero.mp h0] at hx
      exact absurd hx (List.not_mem_nil _)
    obtain ⟨t1, ht1⟩ := stackPeek_total q1.hand hw1 hz1
    have h1 := b q1 hq1 hz1 t1 ht1
    have h2 := sorted_ge_getLast (h.hands_sorted q1 hq1) ((stackPeek_ok_iff hw1 t1).mp ht1) x hx
    omega

set_option maxRecDepth 100000 in
/-- **C23** In the reachable state `ex_late` the pile holds the 76, played by player 1, and
players 0 and 2 hold the 4 and the 49: a losing state.  `gameAssignBlame` finds player 0 as
the slow player (lowest card 4), but its second loop, which skips a `last_card_played` equal
to the top of the pile, finds no one and leaves `i_fast_player` at 0: player 0, who has played
no card, is adjusted a second time, and player 1, who played the 76, is not adjusted. -/
theorem C23_fast_player_defaults_to_first :
    Reachable ex_late ∧ stackPeek ex_late.pile = .ok 76 ∧
    ex_late.players.map (fun p => (p.hand.contents, p.last_card_played))
      = [([4], 0), ([], 76), ([49], 0)] ∧
    blameSlow ex_late.players 0 (MIND_DECK_SIZE, 0) = .ok (4, 0) ∧
    blameFast 4 ex_late.players 0 (76, 0) = (76, 0) ∧
    ex_late.players.map (fun p => (p.beat, p.timeout.ADJUST)) = [(85, 0), (78, 0), (85, 0)] ∧
    (gameAssignBlame { ex_late with level := { ex_late.level with is_over := true } } []).map
        (fun x => x.1.players.map (fun p => (p.beat, p.timeout.ADJUST)))
      = .ok [(39, 1), (78, 0), (85, 0)] :=
  ⟨ex_late_reachable, by decide!, by decide!, by decide!, by decide!, by decide!, by decide!⟩

/-! ## Turns return in every state with the invariant -/

end Mind
